import Mathlib

/-!
Verification development for the EUGLOH course watcher (`check_events.py`).

The Python module scrapes a page for registration links, deduplicates them
against a persistent seen-set, tracks per-event lifecycle history, and derives
statistics.  This file gives a shallow embedding of the pure core of that
module and proves/refutes the specification claims about it.

Modelling conventions:
* Python strings are `String`/`List Char`; all scraper inputs are ASCII, so
  ASCII-only case folding and whitespace classes are used.
* Unix timestamps are `Int` seconds (`datetime.timestamp()` under the
  deployment's UTC clock); float-valued quantities (`time.time()`, day counts)
  are `ℚ` — binary-float rounding artifacts are not modelled.
* Python dicts keyed by event id are association lists in insertion order.
* I/O (HTTP fetch, file persistence, the DOM walk of BeautifulSoup, XML
  parsing) is outside the embedding; functions are modelled from the point
  where their inputs are plain data.
-/

namespace EuGloh

/-! ### Python string helpers -/

/-- Python `str.strip()` whitespace class (ASCII part; the scraper's inputs are ASCII). -/
def isPySpace (c : Char) : Bool :=
  c == ' ' || c == '\t' || c == '\n' || c == '\r' || c == '\x0b' || c == '\x0c'

/-- Strip trailing whitespace. -/
def stripEnd (l : List Char) : List Char :=
  (l.reverse.dropWhile isPySpace).reverse

/-- Python `str.strip()`. -/
def pyStrip (l : List Char) : List Char :=
  stripEnd (l.dropWhile isPySpace)

/-- Does `l` start with `pat`? (Python `str.startswith`.) -/
def startsWithL : List Char → List Char → Bool
  | [], _ => true
  | _ :: _, [] => false
  | p :: ps, c :: cs => p == c && startsWithL ps cs

/-- Python `pat in l` substring test. -/
def containsL (pat : List Char) : List Char → Bool
  | [] => startsWithL pat []
  | c :: cs => startsWithL pat (c :: cs) || containsL pat cs

/-- The suffix of `l` after the last occurrence of `pat` (for nonempty `pat`),
`none` when `pat` does not occur.  `l.split(pat)[-1]` in Python: `pat`
(= `"Deadline:"` below) cannot overlap itself, so the left-to-right split's
last piece is exactly the suffix after the rightmost occurrence. -/
def afterLastAux (pat : List Char) : List Char → Option (List Char)
  | [] => none
  | c :: cs =>
    match afterLastAux pat cs with
    | some r => some r
    | none => if startsWithL pat (c :: cs) then some ((c :: cs).drop pat.length) else none

/-- Python `l.split(pat)[-1]` (identity when `pat` does not occur). -/
def afterLast (pat l : List Char) : List Char :=
  (afterLastAux pat l).getD l

/-- Python `str.replace(pat, "")`: remove all (left-to-right, non-overlapping)
occurrences of a nonempty `pat`; fuelled (any fuel ≥ input length gives the
replace semantics), keeping the definition structurally recursive. -/
def removeAllF (pat : List Char) : Nat → List Char → List Char
  | _, [] => []
  | 0, l => l
  | fuel + 1, c :: cs =>
    if startsWithL pat (c :: cs) && !pat.isEmpty then
      removeAllF pat fuel ((c :: cs).drop pat.length)
    else c :: removeAllF pat fuel cs

/-- Python `str.replace(pat, "")`. -/
def removeAll (pat l : List Char) : List Char := removeAllF pat l.length l

/-- Numeric value of an ASCII digit. -/
def dval (c : Char) : Nat := c.toNat - '0'.toNat

/-- Value of a digit string (most significant first). -/
def natOfDigits (l : List Char) : Nat := l.foldl (fun a c => a * 10 + dval c) 0

/-! ### Civil-date arithmetic (CPython `datetime` under UTC) -/

def isLeapYear (y : Nat) : Bool := (y % 4 == 0 && y % 100 != 0) || y % 400 == 0

def daysBeforeMonth (m : Nat) : Nat :=
  [0, 31, 59, 90, 120, 151, 181, 212, 243, 273, 304, 334].getD (m - 1) 0

def daysInMonth (y m : Nat) : Nat :=
  if m = 2 then (if isLeapYear y then 29 else 28)
  else [31, 28, 31, 30, 31, 30, 31, 31, 30, 31, 30, 31].getD (m - 1) 31

/-- Proleptic-Gregorian ordinal of a civil date (CPython `date.toordinal`:
0001-01-01 is day 1). -/
def toOrdinal (y m d : Nat) : Nat :=
  (y - 1) * 365 + (y - 1) / 4 - (y - 1) / 100 + (y - 1) / 400 +
    daysBeforeMonth m + (if 2 < m && isLeapYear y then 1 else 0) + d

/-- `toOrdinal 1970 1 1`. -/
def epochOrdinal : Nat := 719163

/-- `datetime(y, m, d, hh, mi, ss).timestamp()` under UTC: validates the civil
date exactly like the CPython constructor (`ValueError` becomes `none`) and
returns Unix seconds. -/
def mkTimestamp (y m d hh mi ss : Nat) : Option Int :=
  if 1 ≤ y && y ≤ 9999 && 1 ≤ m && m ≤ 12 && 1 ≤ d && d ≤ daysInMonth y m
      && hh ≤ 23 && mi ≤ 59 && ss ≤ 59 then
    some (((toOrdinal y m d : Int) - epochOrdinal) * 86400 + hh * 3600 + mi * 60 + ss)
  else none

/-! ### A small matcher for the date regexes and `strptime` formats

`parse_deadline` uses `datetime.strptime` with six fixed formats, then two
`re.search` patterns.  Both compile to backtracking regexes over a small atom
vocabulary; `SAtom` is that vocabulary and `matchSeq` the backtracking matcher
(leftmost-first alternative order, greedy repetition).  The `\s+` and `[a-z]*`
atoms are implemented greedily without give-back, which agrees with the
backtracking semantics here because in every pattern below they are followed
by atoms that can never match the characters they consume (digits or month
letters after `\s+`, whitespace after `[a-z]*`). -/

inductive SAtom : Type where
  /-- `\d{1,2}`-style field: a two-digit read accepted by `ok2` is preferred,
  else a one-digit read accepted by `ok1` (the alternative order of the
  CPython `_strptime` field regexes, e.g. `%d` = `3[01]|[12]\d|0[1-9]|[1-9]`). -/
  | num (ok2 ok1 : Nat → Bool)
  /-- Exactly `n` digits with value accepted by `ok`. -/
  | exact (n : Nat) (ok : Nat → Bool)
  /-- A literal character (the formats' separators; never a letter or space). -/
  | lit (c : Char)
  /-- `\s+`. -/
  | ws
  /-- `[a-z]*` under `re.IGNORECASE`. -/
  | letterRun
  /-- Month name, captured as its number: abbreviated (`%b`, and the regex
  alternation `Jan|…|Dec`) when `full = false`, full (`%B`) when `full = true`;
  case-insensitive.  The names are pairwise non-prefix, so at most one
  alternative matches at a given position. -/
  | mon (full : Bool)

def monthAbbrTable : List (String × Nat) :=
  [("jan", 1), ("feb", 2), ("mar", 3), ("apr", 4), ("may", 5), ("jun", 6),
   ("jul", 7), ("aug", 8), ("sep", 9), ("oct", 10), ("nov", 11), ("dec", 12)]

def monthFullTable : List (String × Nat) :=
  [("january", 1), ("february", 2), ("march", 3), ("april", 4), ("may", 5),
   ("june", 6), ("july", 7), ("august", 8), ("september", 9), ("october", 10),
   ("november", 11), ("december", 12)]

/-- If the ASCII-lowercasing of `l` starts with `nm`, return the rest of `l`. -/
def stripCI : List Char → List Char → Option (List Char)
  | [], l => some l
  | _ :: _, [] => none
  | n :: ns, c :: cs => if c.toLower == n then stripCI ns cs else none

def monLookup : List (String × Nat) → List Char → Option (Nat × List Char)
  | [], _ => none
  | (nm, v) :: rest, l =>
    match stripCI nm.toList l with
    | some r => some (v, r)
    | none => monLookup rest l

/-- Backtracking matcher: first (DFS, preferred-alternative-first) match of the
atom sequence at the beginning of the input, returning the captured numeric
groups in order and the unconsumed rest. -/
def matchSeq : List SAtom → List Char → Option (List Nat × List Char)
  | [], l => some ([], l)
  | .num ok2 ok1 :: as, l =>
    (match l with
     | c1 :: c2 :: r =>
       if c1.isDigit && c2.isDigit && ok2 (dval c1 * 10 + dval c2) then
         Option.map (fun p => ((dval c1 * 10 + dval c2) :: p.1, p.2)) (matchSeq as r)
       else none
     | _ => none)
    <|>
    (match l with
     | c1 :: r =>
       if c1.isDigit && ok1 (dval c1) then
         Option.map (fun p => (dval c1 :: p.1, p.2)) (matchSeq as r)
       else none
     | [] => none)
  | .exact n ok :: as, l =>
    if (l.take n).length = n && (l.take n).all Char.isDigit && ok (natOfDigits (l.take n)) then
      Option.map (fun p => (natOfDigits (l.take n) :: p.1, p.2)) (matchSeq as (l.drop n))
    else none
  | .lit c :: as, l =>
    match l with
    | c1 :: r => if c1 == c then matchSeq as r else none
    | [] => none
  | .ws :: as, l =>
    if l.takeWhile isPySpace = [] then none else matchSeq as (l.dropWhile isPySpace)
  | .letterRun :: as, l =>
    (List.range ((l.takeWhile Char.isAlpha).length + 1)).findSome?
      (fun i =>
        matchSeq as ((l.takeWhile Char.isAlpha).drop ((l.takeWhile Char.isAlpha).length - i)
          ++ l.dropWhile Char.isAlpha))
  | .mon full :: as, l =>
    match monLookup (if full then monthFullTable else monthAbbrTable) l with
    | some (m, r) => Option.map (fun p => (m :: p.1, p.2)) (matchSeq as r)
    | none => none

/-! ### The six `strptime` formats -/

def okD2 (v : Nat) : Bool := 1 ≤ v && v ≤ 31
def okD1 (v : Nat) : Bool := 1 ≤ v && v ≤ 9
def okMo2 (v : Nat) : Bool := 1 ≤ v && v ≤ 12
def okH2 (v : Nat) : Bool := v ≤ 23
def okMi2 (v : Nat) : Bool := v ≤ 59
def okS2 (v : Nat) : Bool := v ≤ 61
def okLo (v : Nat) : Bool := v ≤ 9
def okAny (_ : Nat) : Bool := true

/-- `"%d %b %Y %H:%M"`. -/
def fmtDbYHM : List SAtom :=
  [.num okD2 okD1, .ws, .mon false, .ws, .exact 4 okAny, .ws,
   .num okH2 okLo, .lit ':', .num okMi2 okLo]

/-- `"%d %B %Y %H:%M"`. -/
def fmtDBYHM : List SAtom :=
  [.num okD2 okD1, .ws, .mon true, .ws, .exact 4 okAny, .ws,
   .num okH2 okLo, .lit ':', .num okMi2 okLo]

/-- `"%Y-%m-%d %H:%M:%S"`. -/
def fmtYmdHMS : List SAtom :=
  [.exact 4 okAny, .lit '-', .num okMo2 okD1, .lit '-', .num okD2 okD1, .ws,
   .num okH2 okLo, .lit ':', .num okMi2 okLo, .lit ':', .num okS2 okLo]

/-- `"%Y-%m-%d"`. -/
def fmtYmd : List SAtom :=
  [.exact 4 okAny, .lit '-', .num okMo2 okD1, .lit '-', .num okD2 okD1]

/-- `"%d/%m/%Y"`. -/
def fmtDmySlash : List SAtom :=
  [.num okD2 okD1, .lit '/', .num okMo2 okD1, .lit '/', .exact 4 okAny]

/-- `"%d.%m.%Y"`. -/
def fmtDmyDot : List SAtom :=
  [.num okD2 okD1, .lit '.', .num okMo2 okD1, .lit '.', .exact 4 okAny]

/-- `datetime.strptime(l, fmt)` then `.timestamp()`: CPython matches the
compiled format regex at the start of the string, then requires that the whole
string was consumed, then constructs the `datetime` (which validates the civil
date; `interp` is the per-format field ordering feeding `mkTimestamp`). -/
def runFmt (atoms : List SAtom) (interp : List Nat → Option Int) (l : List Char) : Option Int :=
  match matchSeq atoms l with
  | some (caps, []) => interp caps
  | _ => none

def interpDMYhm : List Nat → Option Int
  | [d, m, y, hh, mi] => mkTimestamp y m d hh mi 0
  | _ => none

def interpYMDhms : List Nat → Option Int
  | [y, m, d, hh, mi, s] => mkTimestamp y m d hh mi s
  | _ => none

def interpYMD : List Nat → Option Int
  | [y, m, d] => mkTimestamp y m d 0 0 0
  | _ => none

def interpDMY : List Nat → Option Int
  | [d, m, y] => mkTimestamp y m d 0 0 0
  | _ => none

/-- The `for fmt in formats` loop of `parse_deadline` (applied to the stripped
date text; the first format that parses wins, a `ValueError` — no match, or an
invalid civil date — falls through to the next). -/
def tryFormats (l : List Char) : Option Int :=
  runFmt fmtDbYHM interpDMYhm l <|> runFmt fmtDBYHM interpDMYhm l <|>
  runFmt fmtYmdHMS interpYMDhms l <|> runFmt fmtYmd interpYMD l <|>
  runFmt fmtDmySlash interpDMY l <|> runFmt fmtDmyDot interpDMY l

/-! ### The two `re.search` fallback patterns -/

/-- Core of `r'(\d{1,2})\s+(Jan|...|Dec)[a-z]*\s+(\d{4})'`. -/
def coreA : List SAtom :=
  [.num okAny okAny, .ws, .mon false, .letterRun, .ws, .exact 4 okAny]

/-- Core of `r'(\d{4})-(\d{1,2})-(\d{1,2})'`. -/
def coreB : List SAtom :=
  [.exact 4 okAny, .lit '-', .num okAny okAny, .lit '-', .num okAny okAny]

/-- The shared optional tail `r'(?:\s+(\d{1,2}):(\d{2}))?'`. -/
def optTime : List SAtom :=
  [.ws, .num okAny okAny, .lit ':', .exact 2 okAny]

/-- Match `core(?:opt)?` at the current position.  The optional group is final
in both patterns, so trying it after the first core match is equivalent to the
regex DFS (an absent optional group can never make the whole match fail). -/
def matchWithOpt (core opt : List SAtom) (l : List Char) : Option (List Nat) :=
  match matchSeq core l with
  | some (caps, r) =>
    match matchSeq opt r with
    | some (caps2, _) => some (caps ++ caps2)
    | none => some caps
  | none => none

/-- `re.search`: try the pattern at each start position, leftmost match wins. -/
def searchWithOpt (core opt : List SAtom) : List Char → Option (List Nat)
  | [] => matchWithOpt core opt []
  | c :: t =>
    match matchWithOpt core opt (c :: t) with
    | some caps => some caps
    | none => searchWithOpt core opt t

/-- Month-name branch of the regex fallback: `months.get(name[:3].lower(), 1)`
is the captured month number (the capture is always a valid abbreviation);
missing time groups default to 23:59. -/
def interpPatA : List Nat → Option Int
  | [d, m, y] => mkTimestamp y m d 23 59 0
  | [d, m, y, hh, mi] => mkTimestamp y m d hh mi 0
  | _ => none

/-- ISO branch of the regex fallback; missing time groups default to 23:59. -/
def interpPatB : List Nat → Option Int
  | [y, m, d] => mkTimestamp y m d 23 59 0
  | [y, m, d, hh, mi] => mkTimestamp y m d hh mi 0
  | _ => none

/-- The `for pattern in patterns` loop: pattern A then pattern B; a found match
whose civil date is invalid (`ValueError`) falls through to the next pattern. -/
def tryPatterns (l : List Char) : Option Int :=
  ((searchWithOpt coreA optTime l).bind interpPatA) <|>
  ((searchWithOpt coreB optTime l).bind interpPatB)

/-! ### `parse_deadline` and `is_event_expired` -/

def DEADLINE_MARK : List Char := "Deadline:".toList

/-- `parse_deadline` on character lists: empty input is `None`; an optional
`"Deadline:"` label is stripped (Python `split("Deadline:")[-1].strip()`);
then the exact formats are tried on the stripped text, then the regex
fallbacks on the (unstripped) text. -/
def parseDeadlineL (l : List Char) : Option Int :=
  if l = [] then none
  else
    let dateText := if containsL DEADLINE_MARK l then pyStrip (afterLast DEADLINE_MARK l) else l
    tryFormats (pyStrip dateText) <|> tryPatterns dateText

/-- `parse_deadline(date_str)`: Unix timestamp or `None`. -/
def parse_deadline (s : String) : Option Int := parseDeadlineL s.toList

/-- `is_event_expired(date_str, buffer_days)` with the wall clock `now`
(`time.time()`) made explicit: true iff the deadline parses and
`now > deadline + buffer_days*86400`. -/
def is_event_expired (now : ℚ) (date_str : String) (buffer_days : ℤ) : Bool :=
  match parse_deadline date_str with
  | none => false
  | some t => decide ((t : ℚ) + (buffer_days : ℚ) * 86400 < now)

/-! ### Python `round` -/

/-- Round half-to-even to an integer (Python `round(x)`; binary-float
representation artifacts are not modelled). -/
def pyRoundInt (q : ℚ) : ℤ :=
  if q - ⌊q⌋ < 1/2 then ⌊q⌋
  else if 1/2 < q - ⌊q⌋ then ⌊q⌋ + 1
  else if ⌊q⌋ % 2 = 0 then ⌊q⌋ else ⌊q⌋ + 1

/-- Python `round(q, n)`. -/
def roundTo (n : ℕ) (q : ℚ) : ℚ := (pyRoundInt (q * 10 ^ n) : ℚ) / 10 ^ n

/-! ### Data model -/

/-- An extracted event (`{id, title, date, link, description}`).  `date` is
`None` or the raw deadline text. -/
structure Event where
  id : String
  title : String
  date : Option String
  link : String
  description : String
deriving Repr, DecidableEq

/-- One history ledger entry.  The Python `deadline` field is either a string
or `None` (when the event had no date; `event.get("date", "")` returns the
stored `None`); `None` and `""` behave identically at every use site
(both falsy, and `parse_deadline` maps both to `None`), so both are modelled
as `""`. -/
structure HistoryRecord where
  id : String
  title : String
  link : String
  deadline : String
  first_seen : Int
  last_seen : Int
  expired_at : Option Int
  registration_duration_days : Option ℚ
deriving Repr, DecidableEq

/-- `history["events"]`: a Python dict in insertion order. -/
abbrev History := List (String × HistoryRecord)

def histFind (h : History) (k : String) : Option HistoryRecord :=
  match h.find? (fun p => p.1 == k) with
  | some p => some p.2
  | none => none

/-- Dict assignment: overwrite in place, else append. -/
def histSet (h : History) (k : String) (r : HistoryRecord) : History :=
  match h with
  | [] => [(k, r)]
  | (k', r') :: t => if k' == k then (k, r) :: t else (k', r') :: histSet t k r

/-! ### `update_event_history` -/

/-- The record created by `update_event_history` on first sight of an event. -/
def freshRecord (event : Event) (current_time : Int) : HistoryRecord :=
  { id := event.id, title := event.title, link := event.link,
    deadline := event.date.getD "", first_seen := current_time,
    last_seen := current_time, expired_at := none,
    registration_duration_days := none }

/-- First phase of `update_event_history`: create the record on first sight,
else refresh `last_seen`. -/
def upsertRecord (history : History) (event : Event) (current_time : Int) : History :=
  match histFind history event.id with
  | none => histSet history event.id (freshRecord event current_time)
  | some r => histSet history event.id { r with last_seen := current_time }

/-- Second phase of `update_event_history`: iff `status == "expired"` and the
record's `expired_at` is still `None`, stamp `expired_at` and compute
`round((current_time - first_seen) / 86400, 1)`. -/
def expireRecord (h1 : History) (eventId status : String) (current_time : Int) : History :=
  match histFind h1 eventId with
  | none => h1
  | some r =>
    if status == "expired" && r.expired_at.isNone then
      histSet h1 eventId
        { r with expired_at := some current_time,
                 registration_duration_days :=
                   some (roundTo 1 (((current_time : ℚ) - (r.first_seen : ℚ)) / 86400)) }
    else h1

/-- `update_event_history(history, event, status)` with `int(time.time())`
made explicit as `current_time`. -/
def update_event_history (history : History) (event : Event) (status : String)
    (current_time : Int) : History :=
  expireRecord (upsertRecord history event current_time) event.id status current_time

/-! ### `generate_statistics` -/

structure DurStats where
  min : ℚ
  max : ℚ
  median : ℚ
  average : ℚ
  total_completed : ℕ
deriving Repr, DecidableEq

structure AgeStats where
  min : ℚ
  max : ℚ
  median : ℚ
  average : ℚ
deriving Repr, DecidableEq

/-- The `event_velocity` field: `{}` (never filled), the insufficient-data
placeholder, or the rates record. -/
inductive Velocity : Type where
  | empty : Velocity
  | insufficient (tracking_days : ℚ) : Velocity
  | rates (events_per_week events_per_month tracking_days : ℚ) : Velocity
deriving Repr, DecidableEq

def Velocity.isInsufficient : Velocity → Bool
  | .insufficient _ => true
  | _ => false

structure Stats where
  total_events_tracked : ℕ
  currently_active : ℕ
  total_expired : ℕ
  new_this_week : ℕ
  new_this_month : ℕ
  expired_this_week : ℕ
  expired_this_month : ℕ
  average_registration_duration_days : Option ℚ
  registration_duration_stats : Option DurStats
  active_event_ages : Option AgeStats
  event_velocity : Velocity
deriving Repr, DecidableEq

/-- The `durations` list collected by the statistics loop, in iteration order.
Python truthiness: records whose `registration_duration_days` is `None` — and
also the value `0.0` — are skipped. -/
def durationsOf (h : History) : List ℚ :=
  h.filterMap (fun p =>
    match p.2.registration_duration_days with
    | some q => if q = 0 then none else some q
    | none => none)

/-- The `active_ages` list: ages `(now - first_seen)/86400` of records with a
truthy deadline that is not expired and a truthy (nonzero) `first_seen`. -/
def activeAgesOf (now : ℚ) (buf : ℤ) (h : History) : List ℚ :=
  h.filterMap (fun p =>
    if p.2.deadline != "" && !is_event_expired now p.2.deadline buf && p.2.first_seen != 0 then
      some ((now - (p.2.first_seen : ℚ)) / 86400)
    else none)

def countP (h : History) (f : HistoryRecord → Bool) : ℕ :=
  (h.filter (fun p => f p.2)).length

/-- Python `min(x :: xs)` / `max(x :: xs)` (first element as accumulator). -/
def qmin (l : List ℚ) : ℚ := match l with | [] => 0 | x :: xs => xs.foldl min x

def qmax (l : List ℚ) : ℚ := match l with | [] => 0 | x :: xs => xs.foldl max x

/-- Python `sorted`: ascending stable sort (equal rationals are
indistinguishable, so insertion sort realizes it). -/
def sortQ (l : List ℚ) : List ℚ := List.insertionSort (· ≤ ·) l

/-- `min/max/median/average` block over a nonempty distribution, each rounded
to one decimal; the median is `sorted(l)[len(l) // 2]`. -/
def distStats (l : List ℚ) : AgeStats :=
  { min := roundTo 1 (qmin l), max := roundTo 1 (qmax l),
    median := roundTo 1 ((sortQ l).getD (l.length / 2) 0),
    average := roundTo 1 (l.sum / l.length) }

/-- The `event_velocity` computation: only on a nonempty history; `{}` when no
record has a positive `first_seen`; rates when the span from the oldest
positive `first_seen` is at least 7 days, else the insufficient-data record. -/
def velocityOf (now : ℚ) (h : History) : Velocity :=
  if h.isEmpty then .empty
  else
    match (h.map (fun p => p.2.first_seen)).filter (fun v => decide (0 < v)) with
    | [] => .empty
    | f0 :: rest =>
      let oldest : Int := rest.foldl min f0
      let total_days : ℚ := (now - (oldest : ℚ)) / 86400
      if 7 ≤ total_days then
        .rates (roundTo 2 ((h.length : ℚ) / (total_days / 7)))
               (roundTo 2 ((h.length : ℚ) / (total_days / 30)))
               (roundTo 1 total_days)
      else .insufficient (roundTo 1 total_days)

/-- `generate_statistics(history, state)`.  The Python function receives
`state` but never reads it, so it is dropped here; `time.time()` and the
`EXPIRED_DAYS_BUFFER` global are the explicit `now`/`buf` parameters.  The
active/expired split runs only for records with a truthy `deadline`
(`if event_data.get("deadline"):`); a truthy deadline that fails to parse is
"not expired", hence active.  The top-N list fields (`upcoming_deadlines`,
`recently_expired`, `long_running_events`) and `monthly_trends`, which no
claim below concerns, are not modelled. -/
def generate_statistics (now : ℚ) (buf : ℤ) (h : History) : Stats :=
  let durations := durationsOf h
  let active_ages := activeAgesOf now buf h
  { total_events_tracked := h.length
    currently_active :=
      countP h (fun r => r.deadline != "" && !is_event_expired now r.deadline buf)
    total_expired :=
      countP h (fun r => r.deadline != "" && is_event_expired now r.deadline buf)
    new_this_week := countP h (fun r => decide (now - 7 * 86400 ≤ (r.first_seen : ℚ)))
    new_this_month := countP h (fun r => decide (now - 30 * 86400 ≤ (r.first_seen : ℚ)))
    expired_this_week :=
      countP h (fun r =>
        match r.expired_at with
        | some e => e != 0 && decide (now - 7 * 86400 ≤ (e : ℚ))
        | none => false)
    expired_this_month :=
      countP h (fun r =>
        match r.expired_at with
        | some e => e != 0 && decide (now - 30 * 86400 ≤ (e : ℚ))
        | none => false)
    average_registration_duration_days :=
      if durations.isEmpty then none else some (roundTo 1 (durations.sum / durations.length))
    registration_duration_stats :=
      if durations.isEmpty then none
      else some
        { min := roundTo 1 (qmin durations), max := roundTo 1 (qmax durations),
          median := roundTo 1 ((sortQ durations).getD (durations.length / 2) 0),
          average := roundTo 1 (durations.sum / durations.length),
          total_completed := durations.length }
    active_event_ages :=
      if active_ages.isEmpty then none else some (distStats active_ages)
    event_velocity := velocityOf now h }

/-! ### The rebuild-from-feed mode -/

/-- The `HistoryRecord` that `rebuild_history_from_feed` stores for one feed
item, with the fields it extracted from the XML (`guid` text, `title`, `link`,
the `Deadline:` capture from the description — `""` when absent) and the
`first_seen_timestamp` recovered from `pubDate` (or `int(time.time())`).
`is_expired` is `is_event_expired(deadline, EXPIRED_DAYS_BUFFER) if deadline
else False`; note that `expired_at` is stamped with `first_seen_timestamp`
while `registration_duration_days` is always `None`. -/
def rebuildRecord (now : ℚ) (buf : ℤ) (event_id title link deadline : String)
    (first_seen_timestamp : Int) : HistoryRecord :=
  let is_expired := deadline != "" && is_event_expired now deadline buf
  { id := event_id, title := title, link := link, deadline := deadline,
    first_seen := first_seen_timestamp, last_seen := first_seen_timestamp,
    expired_at := if is_expired then some first_seen_timestamp else none,
    registration_duration_days := none }

/-! ### The notification phase of `main` -/

inductive Sink : Type where
  | webhook : Sink
  | email : Sink
  | teams : Sink
deriving Repr, DecidableEq

/-- The sink invocations of one run of `main`: `new_events` is computed once,
by filtering the extracted `events` (in page order) against the seen-set
loaded at run start, and then every element of `new_events` triggers the three
sinks in a fixed order.  One list element per sink invocation, carrying the
event id it was invoked for. -/
def notificationCalls (seen : List String) (events : List Event) : List (Sink × String) :=
  (events.filter (fun e => !seen.contains e.id)).flatMap
    (fun e => [(Sink.webhook, e.id), (Sink.email, e.id), (Sink.teams, e.id)])

/-- The seen-set persisted at the end of the run (`seen.add(ev["id"])` for
each new event); a list modelling set membership. -/
def seenAfter (seen : List String) (events : List Event) : List String :=
  seen ++ (events.filter (fun e => !seen.contains e.id)).map (fun e => e.id)

/-! ### Description finalization in `extract_event_from_anchor` -/

def BOILERPLATE : String := "Find out more and register now"

/-- Python truthiness of an optional string. -/
def truthy : Option String → Bool
  | some s => s != ""
  | none => false

/-- The clean-up tail of `extract_event_from_anchor` (from the
"Clean up description" comment to the returned dict), applied to the resolved
`title`/`date`/`description` (each `None` when the DOM walk found nothing)
and the normalized `link`.  Returns the final `(title, description)`:
boilerplate is removed and the result stripped; with a resolved date, a
`"Deadline: <date>"` line is appended when `"Deadline:"` is absent (or used
alone when the cleaned description is empty); an unresolved description is
synthesized from the title and date. -/
def finalizeEvent (title date description : Option String) (link : String) :
    String × String :=
  let desc1 : Option String :=
    if truthy description then
      let d := String.mk (pyStrip (removeAll BOILERPLATE.toList (description.getD "").toList))
      if truthy date && pyStrip (date.getD "").toList != ([] : List Char) then
        let d2 :=
          if !containsL DEADLINE_MARK d.toList then
            if d == "" then "Deadline: " ++ date.getD ""
            else d ++ "\n\nDeadline: " ++ date.getD ""
          else d
        some (if pyStrip d2.toList == ([] : List Char) then "Deadline: " ++ date.getD "" else d2)
      else some d
    else description
  let title2 := if truthy title then title.getD "" else link
  let desc2 :=
    if truthy desc1 then desc1.getD ""
    else if truthy date then "Event: " ++ title2 else title2
  (title2, desc2)

/-! ### URL machinery (`urllib.parse`, CPython 3.11 semantics) -/

structure SplitResult where
  scheme : List Char
  netloc : List Char
  path : List Char
  query : List Char
  fragment : List Char
deriving Repr, DecidableEq

structure ParseResult where
  scheme : List Char
  netloc : List Char
  path : List Char
  params : List Char
  query : List Char
  fragment : List Char
deriving Repr, DecidableEq

def isSchemeChar (c : Char) : Bool :=
  c.isAlpha || c.isDigit || c == '+' || c == '-' || c == '.'

/-- The WHATWG C0-control-or-space class, stripped from the left of a URL. -/
def isC0Space (c : Char) : Bool := c.toNat ≤ 0x20

/-- `_UNSAFE_URL_BYTES_TO_REMOVE`, removed everywhere in a URL. -/
def isUnsafeUrlChar (c : Char) : Bool := c == '\t' || c == '\r' || c == '\n'

/-- Split at the first occurrence of `c` (exclusive), if any. -/
def splitAtFirst (c : Char) : List Char → Option (List Char × List Char)
  | [] => none
  | x :: xs =>
    if x == c then some ([], xs)
    else
      match splitAtFirst c xs with
      | some (a, b) => some (x :: a, b)
      | none => none

/-- Split at the last occurrence of `c` (exclusive), if any. -/
def splitAtLast (c : Char) : List Char → Option (List Char × List Char)
  | [] => none
  | x :: xs =>
    match splitAtLast c xs with
    | some (a, b) => some (x :: a, b)
    | none => if x == c then some ([], xs) else none

/-- The scheme-extraction step of `urlsplit`: the text before the first `':'`
is a scheme when it is nonempty, starts with an ASCII letter and consists of
scheme characters; it is returned lowercased. -/
def extractScheme (l : List Char) : Option (List Char × List Char) :=
  match splitAtFirst ':' l with
  | none => none
  | some (pre, post) =>
    match pre with
    | [] => none
    | c :: _ =>
      if c.isAlpha && pre.all isSchemeChar then some (pre.map Char.toLower, post)
      else none

def isNetlocEnd (c : Char) : Bool := c == '/' || c == '?' || c == '#'

def bracketBad (n : List Char) : Bool :=
  (n.contains '[' && !n.contains ']') || (n.contains ']' && !n.contains '[')

/-- `urlsplit(url, scheme=default)`: remove `\t\r\n`, strip leading
C0-control/space characters, extract an optional scheme (else use the
default), split off `//netloc` (rejecting unbalanced IPv6 brackets with a
`ValueError`, modelled as `none`; the deeper bracketed-host validation of the
newest CPython is not modelled), then split the fragment at the first `'#'`
and the query at the first `'?'`. -/
def urlsplitD (url : List Char) (dflt : List Char) : Option SplitResult :=
  let u0 := (url.filter (fun c => !isUnsafeUrlChar c)).dropWhile isC0Space
  let sp :=
    match extractScheme u0 with
    | some (s, r) => (s, r)
    | none => (dflt, u0)
  let np :=
    if sp.2.take 2 = ['/', '/'] then
      ((sp.2.drop 2).takeWhile (fun c => !isNetlocEnd c),
       (sp.2.drop 2).dropWhile (fun c => !isNetlocEnd c))
    else ([], sp.2)
  if bracketBad np.1 then none
  else
    let fg :=
      match splitAtFirst '#' np.2 with
      | some (a, b) => (a, b)
      | none => (np.2, [])
    let qr :=
      match splitAtFirst '?' fg.1 with
      | some (a, b) => (a, b)
      | none => (fg.1, [])
    some ⟨sp.1, np.1, qr.1, qr.2, fg.2⟩

/-- `_splitparams`: split the params off the path — at the first `';'` that
occurs at or after the last `'/'` (or the first `';'` at all when the path has
no slash); no split when no such `';'` exists. -/
def splitParams (p : List Char) : List Char × List Char :=
  match splitAtLast '/' p with
  | some (a, b) =>
    match splitAtFirst ';' b with
    | some (x, y) => (a ++ '/' :: x, y)
    | none => (p, [])
  | none =>
    match splitAtFirst ';' p with
    | some (x, y) => (x, y)
    | none => (p, [])

/-- `urlparse(url, scheme=default)`: `urlsplit` plus the params split (only
attempted when the path contains a `';'`). -/
def urlparseD (url : List Char) (dflt : List Char) : Option ParseResult :=
  match urlsplitD url dflt with
  | none => none
  | some s =>
    let pp := if s.path.contains ';' then splitParams s.path else (s.path, [])
    some ⟨s.scheme, s.netloc, pp.1, pp.2, s.query, s.fragment⟩

/-- `urlunsplit`. -/
def urlunsplit (c : SplitResult) : List Char :=
  let u1 :=
    if c.netloc ≠ [] ∨ (c.path ≠ [] ∧ c.path.take 2 = ['/', '/']) then
      '/' :: '/' :: (c.netloc ++
        (if c.path ≠ [] ∧ c.path.take 1 ≠ ['/'] then '/' :: c.path else c.path))
    else c.path
  let u2 := if c.scheme ≠ [] then c.scheme ++ ':' :: u1 else u1
  let u3 := if c.query ≠ [] then u2 ++ '?' :: c.query else u2
  if c.fragment ≠ [] then u3 ++ '#' :: c.fragment else u3

/-- `urlunparse`. -/
def urlunparse (c : ParseResult) : List Char :=
  urlunsplit ⟨c.scheme, c.netloc,
    (if c.params ≠ [] then c.path ++ ';' :: c.params else c.path), c.query, c.fragment⟩

def usesRelative : List (List Char) :=
  ["", "ftp", "http", "gopher", "nntp", "imap", "wais", "file", "https", "shtml",
   "mms", "prospero", "rtsp", "rtspu", "sftp", "svn", "svn+ssh", "ws", "wss"].map
    String.toList

def usesNetloc : List (List Char) :=
  ["", "ftp", "http", "gopher", "nntp", "telnet", "imap", "wais", "file", "mms",
   "https", "shtml", "snews", "prospero", "rtsp", "rtspu", "rsync", "svn",
   "svn+ssh", "sftp", "nfs", "git", "git+ssh", "ws", "wss", "itms-services"].map
    String.toList

/-- Python `str.split('/')`. -/
def splitOnSlash : List Char → List (List Char)
  | [] => [[]]
  | c :: cs =>
    let r := splitOnSlash cs
    if c == '/' then [] :: r
    else
      match r with
      | a :: rest => (c :: a) :: rest
      | [] => [[c]]

/-- Python `'/'.join`. -/
def joinSlash : List (List Char) → List Char
  | [] => []
  | [a] => a
  | a :: rest => a ++ '/' :: joinSlash rest

def lastD (l : List (List Char)) : List Char := l.getLast?.getD []

/-- The dot-segment resolution loop of `urljoin` (`pop` on an empty list is a
swallowed `IndexError`). -/
def resolveSegs (segs : List (List Char)) : List (List Char) :=
  segs.foldl
    (fun acc seg =>
      if seg = ['.', '.'] then acc.dropLast
      else if seg = ['.'] then acc
      else acc ++ [seg]) []

/-- `urljoin(base, url)` (CPython): empty arguments short-circuit; the url is
returned unchanged when its scheme differs from the base scheme (the url's
scheme defaults to the base's) or is not in `uses_relative`; a url with its
own netloc keeps it; an empty path-and-params inherits the base path (and
query, when the url has none); otherwise relative-path resolution with
dot-segment handling runs. -/
def urljoin (base url : List Char) : Option (List Char) :=
  if base = [] then some url
  else if url = [] then some base
  else
    match urlparseD base [] with
    | none => none
    | some B =>
      match urlparseD url B.scheme with
      | none => none
      | some U =>
        if U.scheme ≠ B.scheme ∨ U.scheme ∉ usesRelative then some url
        else
          let netloc2 :=
            if U.scheme ∈ usesNetloc then (if U.netloc ≠ [] then U.netloc else B.netloc)
            else U.netloc
          if U.scheme ∈ usesNetloc ∧ U.netloc ≠ [] then
            some (urlunparse ⟨U.scheme, U.netloc, U.path, U.params, U.query, U.fragment⟩)
          else if U.path = [] ∧ U.params = [] then
            some (urlunparse ⟨U.scheme, netloc2, B.path, B.params,
              (if U.query = [] then B.query else U.query), U.fragment⟩)
          else
            let baseParts0 := splitOnSlash B.path
            let baseParts := if lastD baseParts0 ≠ [] then baseParts0.dropLast else baseParts0
            let segments :=
              if U.path.take 1 = ['/'] then splitOnSlash U.path
              else
                match baseParts ++ splitOnSlash U.path with
                | [] => []
                | [x] => [x]
                | x :: rest =>
                  x :: ((rest.dropLast.filter (fun s => s ≠ [])) ++ [lastD rest])
            let resolved := resolveSegs segments
            let resolved2 :=
              if lastD segments = ['.'] ∨ lastD segments = ['.', '.'] then resolved ++ [[]]
              else resolved
            let newPath := if joinSlash resolved2 = [] then ['/'] else joinSlash resolved2
            some (urlunparse ⟨U.scheme, netloc2, newPath, U.params, U.query, U.fragment⟩)

/-- The `TARGET_URL` default configuration. -/
def TARGET_URL : String :=
  "https://www.eugloh.eu/courses-trainings/?openRegistrations=%5Byes%5D"

/-- `normalize_url(u)`: resolve against `TARGET_URL`, then drop the query
string and the fragment.  `none` models a `ValueError` raised by `urlsplit`. -/
def normalize_url (u : String) : Option String :=
  match urljoin TARGET_URL.toList u.toList with
  | none => none
  | some absUrl =>
    match urlparseD absUrl [] with
    | none => none
    | some p =>
      some (String.mk (urlunparse ⟨p.scheme, p.netloc, p.path, p.params, [], []⟩))

example :
    normalize_url "https://www.eugloh.eu/event?utm=x" = some "https://www.eugloh.eu/event" := by
  decide

example :
    normalize_url "https://www.eugloh.eu/event#info" = some "https://www.eugloh.eu/event" := by
  decide

example :
    normalize_url "https://www.eugloh.eu/event" = some "https://www.eugloh.eu/event" := by
  decide

example : normalize_url "/event" = some "https://www.eugloh.eu/event" := by decide

example :
    normalize_url "foo" = some "https://www.eugloh.eu/courses-trainings/foo" := by decide

example :
    normalize_url "../a/../b" = some "https://www.eugloh.eu/b" := by decide

example : normalize_url "" = some "https://www.eugloh.eu/courses-trainings/" := by decide

example : normalize_url "HTTPS://X/y?q" = some "https://X/y" := by decide

example : normalize_url "mailto:bob@x.com?subject=hi" = some "mailto:bob@x.com" := by decide

example :
    normalize_url "a;b=1?q" = some "https://www.eugloh.eu/courses-trainings/a;b=1" := by decide

example : normalize_url "x:y" = some "x:y" := by decide

example : normalize_url "//other.host/p?z" = some "https://other.host/p" := by decide

example :
    normalize_url " sp ace ?q" = some "https://www.eugloh.eu/courses-trainings/sp ace " := by
  decide

example : normalize_url "////x" = some "https://www.eugloh.eu//x" := by decide

example : normalize_url "https:" = some "https://www.eugloh.eu/courses-trainings/" := by decide

example : normalize_url "//[::1/x" = none := by decide

example :
    normalize_url "\thttps://www.eug\nloh.eu/ev\rent?utm=x" =
      some "https://www.eugloh.eu/event" := by decide

example : parse_deadline "2026-12-31 10:00:00" = some 1798711200 := by decide
example : parse_deadline "31/12/2026" = some 1798675200 := by decide
example : parse_deadline "31.12.2026" = some 1798675200 := by decide
example : parse_deadline "31 December 2026 23:59" = some 1798761540 := by decide
example : parse_deadline "  31 Dec 2026  " = some 1798761540 := by decide
example : parse_deadline "31 Dec 2026" = some 1798761540 := by decide
example : parse_deadline "31 Decx 2026" = some 1798761540 := by decide
example : parse_deadline "123 Dec 2026" = some 1798070340 := by decide
example : parse_deadline "31 Dec 2026 99:00" = none := by decide
example : parse_deadline "31 Feb 2026" = none := by decide
example : parse_deadline "2026-2-3" = some 1770076800 := by decide
example : parse_deadline "Apply by 31 Dec 2026 5:07 please" = some 1798693620 := by decide
example : parse_deadline "0 Jan 2026" = none := by decide
example : parse_deadline "32/12/2026" = none := by decide
example : parse_deadline "9/1/2026" = some 1767916800 := by decide
example : parse_deadline "2026-13-01" = none := by decide
example : parse_deadline "Deadline:31 Dec 2026" = some 1798761540 := by decide
example : parse_deadline "xDeadline: 2026-01-02" = some 1767312000 := by decide
example : parse_deadline "Deadline: Deadline: 2026-01-02" = some 1767312000 := by decide
example : parse_deadline "31 dec 2026 23:59" = some 1798761540 := by decide
example : parse_deadline "31 DEC 2026 23:59" = some 1798761540 := by decide
example : parse_deadline "2026-12-31 23:59" = some 1798761540 := by decide
example : parse_deadline "2026-12-3123:59" = some 1798761540 := by decide
example : parse_deadline "31 Dec 202" = none := by decide
example : parse_deadline "31 Dec 20267" = some 1798761540 := by decide
example : parse_deadline "00 Jan 2026" = none := by decide
example : parse_deadline "1 May 2026" = some 1777679940 := by decide
example : parse_deadline "15 september 2026 08:30" = some 1789461000 := by decide
example : parse_deadline "31 Dec 2026 23:59" = some 1798761540 := by decide
example : parse_deadline "Deadline: 31 Dec 2026 23:59" = some 1798761540 := by decide
example : parse_deadline "not a date" = none := by decide
example : parse_deadline "2026-12-31" = some 1798675200 := by decide
example : parse_deadline "December 31, 2026" = none := by decide
example : parse_deadline "31 February 2026" = none := by decide
example : parse_deadline "1 Jan 2020 00:00" = some 1577836800 := by decide

/-! ### Association-list (dict) lemmas -/

theorem histFind_histSet_self (h : History) (k : String) (r : HistoryRecord) :
    histFind (histSet h k r) k = some r := by
  induction h with
  | nil => simp [histSet, histFind, List.find?]
  | cons p t ih =>
    by_cases hk : p.1 == k
    · simp [histSet, hk, histFind, List.find?]
    · simp only [histSet, hk, if_false]
      simpa [histFind, List.find?, hk] using ih

theorem mem_histSet (h : History) (k : String) (r : HistoryRecord) (p : String × HistoryRecord)
    (hp : p ∈ histSet h k r) : p ∈ h ∨ p = (k, r) := by
  induction h with
  | nil => simp [histSet] at hp; simp [hp]
  | cons q t ih =>
    by_cases hk : q.1 == k
    · simp only [histSet, hk, if_true] at hp
      rcases List.mem_cons.mp hp with h1 | h1
      · right; exact h1
      · left; exact List.mem_cons_of_mem _ h1
    · simp only [histSet, hk, if_false] at hp
      rcases List.mem_cons.mp hp with h1 | h1
      · left; exact h1 ▸ List.mem_cons_self _ _
      · rcases ih h1 with h2 | h2
        · left; exact List.mem_cons_of_mem _ h2
        · right; exact h2

/-! ### Claim C6 — expiry boundary semantics -/

/-- **C6**: for every date string `s` and buffer `B ≥ 0`, `is_event_expired`
is true iff `parse_deadline` yields some timestamp `T` and
`now > T + B*86400`; it is false whenever `parse_deadline` yields `None`; and
at the boundary it is false at `now = T + B*86400 - 1` and true at
`now = T + B*86400 + 1`. -/
theorem is_event_expired_spec (s : String) (B : ℤ) (_hB : 0 ≤ B) :
    (∀ now : ℚ, is_event_expired now s B = true ↔
      ∃ T : ℤ, parse_deadline s = some T ∧ (T : ℚ) + (B : ℚ) * 86400 < now) ∧
    (parse_deadline s = none → ∀ now : ℚ, is_event_expired now s B = false) ∧
    (∀ T : ℤ, parse_deadline s = some T →
      is_event_expired ((T : ℚ) + (B : ℚ) * 86400 - 1) s B = false ∧
      is_event_expired ((T : ℚ) + (B : ℚ) * 86400 + 1) s B = true) := by
  refine ⟨?_, ?_, ?_⟩
  · intro now
    unfold is_event_expired
    cases h : parse_deadline s with
    | none => simp
    | some t =>
      simp only [decide_eq_true_eq]
      constructor
      · intro hlt; exact ⟨t, rfl, hlt⟩
      · rintro ⟨T, hT, hlt⟩
        obtain rfl : t = T := by simpa using hT
        exact hlt
  · intro h now
    unfold is_event_expired
    rw [h]
  · intro T h
    unfold is_event_expired
    rw [h]
    constructor
    · simp only [decide_eq_false_iff_not, not_lt]
      linarith
    · simp only [decide_eq_true_eq]
      linarith

/-- Witness for C6 at the concrete deadline `"31 Dec 2026 23:59"`
(timestamp `1798761540`) with buffer `0`. -/
theorem is_event_expired_spec_witness :
    is_event_expired ((1798761540 : ℚ) + (0 : ℤ) * 86400 - 1) "31 Dec 2026 23:59" 0 = false ∧
    is_event_expired ((1798761540 : ℚ) + (0 : ℤ) * 86400 + 1) "31 Dec 2026 23:59" 0 = true := by
  have h := (is_event_expired_spec "31 Dec 2026 23:59" 0 le_rfl).2.2 1798761540 (by decide)
  exact h

/-! ### Claim C5 — one-way expiry in `update_event_history` -/

theorem histFind_upsert (h : History) (ev : Event) (t : Int) :
    histFind (upsertRecord h ev t) ev.id =
      some (match histFind h ev.id with
            | none => freshRecord ev t
            | some r => { r with last_seen := t }) := by
  unfold upsertRecord
  cases hf : histFind h ev.id with
  | none => exact histFind_histSet_self _ _ _
  | some r => exact histFind_histSet_self _ _ _

/-- What one `update_event_history` call stores for an id already present. -/
theorem histFind_update_some (h : History) (ev : Event) (status : String) (t : Int)
    (r : HistoryRecord) (hf : histFind h ev.id = some r) :
    histFind (update_event_history h ev status t) ev.id =
      some (if status == "expired" && r.expired_at.isNone then
              { r with last_seen := t, expired_at := some t,
                       registration_duration_days :=
                         some (roundTo 1 (((t : ℚ) - (r.first_seen : ℚ)) / 86400)) }
            else { r with last_seen := t }) := by
  have h1 : histFind (upsertRecord h ev t) ev.id = some { r with last_seen := t } := by
    rw [histFind_upsert, hf]
  unfold update_event_history expireRecord
  rw [h1]
  dsimp only
  cases hb : (status == "expired" && r.expired_at.isNone) with
  | true => simpa using histFind_histSet_self (upsertRecord h ev t) ev.id _
  | false => simpa using h1

/-- What one `update_event_history` call stores for an unseen id. -/
theorem histFind_update_none (h : History) (ev : Event) (status : String) (t : Int)
    (hf : histFind h ev.id = none) :
    histFind (update_event_history h ev status t) ev.id =
      some (if status == "expired" then
              { freshRecord ev t with expired_at := some t,
                                      registration_duration_days :=
                                        some (roundTo 1 (((t : ℚ) - (t : ℚ)) / 86400)) }
            else freshRecord ev t) := by
  have h1 : histFind (upsertRecord h ev t) ev.id = some (freshRecord ev t) := by
    rw [histFind_upsert, hf]
  unfold update_event_history expireRecord
  rw [h1]
  dsimp only [freshRecord]
  cases hb : (status == "expired") with
  | true => simpa [freshRecord] using histFind_histSet_self (upsertRecord h ev t) ev.id _
  | false => simpa [freshRecord] using h1

/-- After a record is already expired, another `"expired"` update only
refreshes `last_seen`. -/
theorem update_already_expired (H : History) (ev : Event) (t : Int) (r : HistoryRecord)
    (hf : histFind H ev.id = some r) (he : r.expired_at.isSome = true) :
    histFind (update_event_history H ev "expired" t) ev.id = some { r with last_seen := t } := by
  have hno : r.expired_at.isNone = false := by
    cases hx : r.expired_at with
    | none => rw [hx] at he; simp at he
    | some e => simp
  rw [histFind_update_some H ev "expired" t r hf]
  simp [hno]

/-- **C5**: for every history, event and times, calling
`update_event_history` with status `"expired"` twice sets `expired_at` and
`registration_duration_days` at most once: after the first call the record is
expired, and the second (and any third) call leaves every field except
`last_seen` — in particular `expired_at` and `registration_duration_days` —
exactly as the first call recorded them. -/
theorem update_expired_idempotent (h : History) (ev : Event) (t₁ t₂ : Int) :
    ∃ r₁, histFind (update_event_history h ev "expired" t₁) ev.id = some r₁ ∧
      r₁.expired_at.isSome = true ∧
      histFind (update_event_history (update_event_history h ev "expired" t₁) ev "expired" t₂)
          ev.id = some { r₁ with last_seen := t₂ } ∧
      (∀ t₃, histFind (update_event_history (update_event_history
            (update_event_history h ev "expired" t₁) ev "expired" t₂) ev "expired" t₃) ev.id
          = some { r₁ with last_seen := t₃ }) := by
  have step1 : ∃ r₁, histFind (update_event_history h ev "expired" t₁) ev.id = some r₁ ∧
      r₁.expired_at.isSome = true := by
    cases hf : histFind h ev.id with
    | none =>
      refine ⟨_, histFind_update_none h ev "expired" t₁ hf, ?_⟩
      simp
    | some r =>
      refine ⟨_, histFind_update_some h ev "expired" t₁ r hf, ?_⟩
      cases hx : r.expired_at with
      | none => simp [hx]
      | some e => simp [hx]
  obtain ⟨r₁, hr₁, he₁⟩ := step1
  refine ⟨r₁, hr₁, he₁, ?_, ?_⟩
  · exact update_already_expired _ ev t₂ r₁ hr₁ he₁
  · intro t₃
    have h2 := update_already_expired _ ev t₂ r₁ hr₁ he₁
    have h3 := update_already_expired _ ev t₃ ({ r₁ with last_seen := t₂ }) h2 (by simpa using he₁)
    simpa using h3

/-! ### Claim C2 — duration computed exactly when `expired_at` is first set -/

/-- The duration/expiry coupling: `registration_duration_days` is null while
`expired_at` is null, and carries the value computed at the stamping moment
otherwise. -/
def DurInv (r : HistoryRecord) : Prop :=
  (r.expired_at = none → r.registration_duration_days = none) ∧
  (∀ e, r.expired_at = some e →
    r.registration_duration_days = some (roundTo 1 (((e : ℚ) - (r.first_seen : ℚ)) / 86400)))

theorem histFind_mem (h : History) (k : String) (r : HistoryRecord)
    (hf : histFind h k = some r) : (k, r) ∈ h := by
  unfold histFind at hf
  cases hq : h.find? (fun p => p.1 == k) with
  | none => rw [hq] at hf; cases hf
  | some q =>
    rw [hq] at hf
    obtain rfl : q.2 = r := by simpa using hf
    have hm := List.mem_of_find?_eq_some hq
    have hp := List.find?_some hq
    have : q.1 = k := by simpa using hp
    rw [← this]
    exact hm

/-- **C2 (amended)**: `update_event_history` computes
`registration_duration_days = round((expired_at - first_seen)/86400, 1)` at
the very call that first sets `expired_at` (both for known and for fresh
records), and it preserves the invariant that the duration is null exactly
while `expired_at` is null and otherwise holds the value computed at stamping
time.  The rebuild-from-feed mode, in contrast, always stores a null
`registration_duration_days`, even when it sets `expired_at`. -/
theorem duration_set_at_expiry :
    (∀ (h : History) (ev : Event) (t : Int) (r : HistoryRecord),
       histFind h ev.id = some r → r.expired_at = none →
       histFind (update_event_history h ev "expired" t) ev.id =
         some { r with last_seen := t, expired_at := some t,
                       registration_duration_days :=
                         some (roundTo 1 (((t : ℚ) - (r.first_seen : ℚ)) / 86400)) }) ∧
    (∀ (h : History) (ev : Event) (t : Int),
       histFind h ev.id = none →
       histFind (update_event_history h ev "expired" t) ev.id =
         some { freshRecord ev t with
                expired_at := some t,
                registration_duration_days :=
                  some (roundTo 1 (((t : ℚ) - (t : ℚ)) / 86400)) }) ∧
    (∀ (h : History) (ev : Event) (status : String) (t : Int),
       (∀ p ∈ h, DurInv p.2) →
       ∀ p ∈ update_event_history h ev status t, DurInv p.2) ∧
    (∀ (now : ℚ) (buf : ℤ) (eid ti li dl : String) (fs : Int),
       (rebuildRecord now buf eid ti li dl fs).registration_duration_days = none) := by
  refine ⟨?_, ?_, ?_, ?_⟩
  · intro h ev t r hf hx
    rw [histFind_update_some h ev "expired" t r hf]
    simp [hx]
  · intro h ev t hf
    rw [histFind_update_none h ev "expired" t hf]
    simp
  · intro h ev status t hInv p hp
    unfold update_event_history expireRecord at hp
    have upsertMem : ∀ q ∈ upsertRecord h ev t, DurInv q.2 := by
      intro q hq
      unfold upsertRecord at hq
      cases hf : histFind h ev.id with
      | none =>
        rw [hf] at hq
        rcases mem_histSet _ _ _ _ hq with h1 | h1
        · exact hInv _ h1
        · subst h1
          exact ⟨fun _ => rfl, fun e he => by simp [freshRecord] at he⟩
      | some r =>
        rw [hf] at hq
        rcases mem_histSet _ _ _ _ hq with h1 | h1
        · exact hInv _ h1
        · subst h1
          have := hInv _ (histFind_mem h ev.id r hf)
          exact ⟨fun hx => this.1 hx, fun e he => this.2 e he⟩
    cases hf1 : histFind (upsertRecord h ev t) ev.id with
    | none =>
      rw [hf1] at hp
      exact upsertMem _ hp
    | some r =>
      rw [hf1] at hp
      dsimp only at hp
      by_cases hc : (status == "expired" && r.expired_at.isNone) = true
      · rw [if_pos hc] at hp
        rcases mem_histSet _ _ _ _ hp with h1 | h1
        · exact upsertMem _ h1
        · subst h1
          exact ⟨fun hx => by simp at hx, fun e he => by
            simp only at he
            obtain rfl : t = e := by simpa using he
            rfl⟩
      · rw [if_neg hc] at hp
        exact upsertMem _ hp
  · intro now buf eid ti li dl fs
    rfl

/-- Witness for C2 on a fresh record: the first `"expired"` observation stamps
both fields at once. -/
theorem duration_set_at_expiry_witness :
    histFind (update_event_history []
        { id := "a", title := "T", date := none, link := "L", description := "D" }
        "expired" 100) "a" =
      some { freshRecord
              { id := "a", title := "T", date := none, link := "L", description := "D" } 100 with
             expired_at := some 100,
             registration_duration_days :=
               some (roundTo 1 (((100 : ℚ) - ((100 : ℤ) : ℚ)) / 86400)) } :=
  duration_set_at_expiry.2.1 []
    { id := "a", title := "T", date := none, link := "L", description := "D" } 100 rfl

/-- **C2 counterexample**: at now = 1700000000 (buffer 0) the rebuild mode,
given the long-expired deadline `"1 Jan 2020 00:00"`, stores a record whose
`expired_at` is set while `registration_duration_days` is null — so the
duration is *not* set at the moment `expired_at` is first set, and it is null
while `expired_at` is not. -/
theorem rebuild_expiry_without_duration :
    (rebuildRecord 1700000000 0 "e" "T" "L" "1 Jan 2020 00:00" 1600000000).expired_at =
        some 1600000000 ∧
    HistoryRecord.registration_duration_days
        (rebuildRecord 1700000000 0 "e" "T" "L" "1 Jan 2020 00:00" 1600000000) = none := by
  have hp : parse_deadline "1 Jan 2020 00:00" = some 1577836800 := by decide
  have hexp : is_event_expired 1700000000 "1 Jan 2020 00:00" 0 = true := by
    unfold is_event_expired
    rw [hp]
    norm_num
  constructor
  · simp [rebuildRecord, hexp]
  · rfl

/-! ### Claim C3 — the active/expired split of `generate_statistics` -/

theorem length_filter_split {α : Type} (l : List α) (d e : α → Bool) :
    (l.filter (fun x => d x && !e x)).length + (l.filter (fun x => d x && e x)).length =
      (l.filter d).length := by
  induction l with
  | nil => rfl
  | cons x t ih =>
    cases hd : d x <;> cases he : e x <;>
      simp [List.filter_cons, hd, he] <;> omega

theorem countP_split (h : History) (d e : HistoryRecord → Bool) :
    countP h (fun r => d r && !e r) + countP h (fun r => d r && e r) =
      countP h d := by
  unfold countP
  exact length_filter_split h (fun p => d p.2) (fun p => e p.2)

theorem countP_eq_length (h : History) (f : HistoryRecord → Bool)
    (hall : ∀ p ∈ h, f p.2 = true) : countP h f = h.length := by
  unfold countP
  rw [List.filter_eq_self.mpr (fun p hp => hall p hp)]

theorem countP_eq_zero (h : History) (f : HistoryRecord → Bool)
    (hall : ∀ p ∈ h, f p.2 = false) : countP h f = 0 := by
  unfold countP
  rw [List.filter_eq_nil_iff.mpr (fun p hp => by simp [hall p hp])]
  rfl

theorem parse_deadline_empty : parse_deadline "" = none := rfl

theorem is_event_expired_of_parse_none (now : ℚ) (s : String) (buf : ℤ)
    (hp : parse_deadline s = none) : is_event_expired now s buf = false := by
  unfold is_event_expired
  rw [hp]

/-- **C3 (amended)**: `generate_statistics` counts each record with a truthy
(non-empty) deadline in exactly one of `currently_active`/`total_expired`
(`currently_active + total_expired` equals the number of records with a
non-empty deadline); a record with a present but unparsable deadline is
always counted as active, never as expired; and when every record's deadline
parses, `currently_active + total_expired = total_events_tracked`.  Records
with an absent/empty deadline are counted in neither bucket. -/
theorem stats_active_expired_split :
    (∀ (now : ℚ) (buf : ℤ) (h : History),
       (generate_statistics now buf h).currently_active +
         (generate_statistics now buf h).total_expired =
         (h.filter (fun p => p.2.deadline != "")).length) ∧
    (∀ (now : ℚ) (buf : ℤ) (h : History),
       (∀ p ∈ h, p.2.deadline ≠ "" ∧ parse_deadline p.2.deadline = none) →
       (generate_statistics now buf h).currently_active = h.length ∧
       (generate_statistics now buf h).total_expired = 0) ∧
    (∀ (now : ℚ) (buf : ℤ) (h : History),
       (∀ p ∈ h, parse_deadline p.2.deadline ≠ none) →
       (generate_statistics now buf h).currently_active +
         (generate_statistics now buf h).total_expired =
         (generate_statistics now buf h).total_events_tracked) := by
  have hproj : ∀ (now : ℚ) (buf : ℤ) (h : History),
      (generate_statistics now buf h).currently_active =
        countP h (fun r => r.deadline != "" && !is_event_expired now r.deadline buf) ∧
      (generate_statistics now buf h).total_expired =
        countP h (fun r => r.deadline != "" && is_event_expired now r.deadline buf) ∧
      (generate_statistics now buf h).total_events_tracked = h.length := by
    intro now buf h
    exact ⟨rfl, rfl, rfl⟩
  refine ⟨?_, ?_, ?_⟩
  · intro now buf h
    rw [(hproj now buf h).1, (hproj now buf h).2.1, countP_split]
    rfl
  · intro now buf h hall
    constructor
    · rw [(hproj now buf h).1]
      refine countP_eq_length h _ (fun p hp => ?_)
      have := hall p hp
      rw [is_event_expired_of_parse_none now _ buf this.2]
      simpa using this.1
    · rw [(hproj now buf h).2.1]
      refine countP_eq_zero h _ (fun p hp => ?_)
      have := hall p hp
      rw [is_event_expired_of_parse_none now _ buf this.2]
      simp
  · intro now buf h hall
    rw [(hproj now buf h).1, (hproj now buf h).2.1, countP_split, (hproj now buf h).2.2]
    have : ∀ p ∈ h, (p.2.deadline != "") = true := by
      intro p hp
      have := hall p hp
      by_contra hne
      have : p.2.deadline = "" := by simpa using hne
      exact hall p hp (by rw [this]; exact parse_deadline_empty)
    unfold countP
    rw [List.filter_eq_self.mpr this, ]

/-- Witness for C3 on a one-record history whose deadline is present but not
parsable: it is counted as active, not expired. -/
theorem stats_active_expired_split_witness :
    (generate_statistics 0 0
        [("e", { id := "e", title := "T", link := "L", deadline := "not a date",
                 first_seen := 100, last_seen := 100, expired_at := none,
                 registration_duration_days := none })]).currently_active = 1 ∧
    (generate_statistics 0 0
        [("e", { id := "e", title := "T", link := "L", deadline := "not a date",
                 first_seen := 100, last_seen := 100, expired_at := none,
                 registration_duration_days := none })]).total_expired = 0 := by
  have h := stats_active_expired_split.2.1 0 0
    [("e", { id := "e", title := "T", link := "L", deadline := "not a date",
             first_seen := 100, last_seen := 100, expired_at := none,
             registration_duration_days := none })]
    (by
      intro p hp
      rcases List.mem_singleton.mp hp with rfl
      exact ⟨by decide, by decide⟩)
  simpa using h

/-- **C3 counterexample**: a record whose deadline string is absent (empty) is
counted in *neither* bucket, so `currently_active + total_expired` falls short
of `total_events_tracked` and the record is not "counted as active". -/
theorem stats_skip_record_without_deadline :
    (generate_statistics 0 0
        [("e", { id := "e", title := "T", link := "L", deadline := "",
                 first_seen := 100, last_seen := 100, expired_at := none,
                 registration_duration_days := none })]).currently_active = 0 ∧
    (generate_statistics 0 0
        [("e", { id := "e", title := "T", link := "L", deadline := "",
                 first_seen := 100, last_seen := 100, expired_at := none,
                 registration_duration_days := none })]).total_expired = 0 ∧
    (generate_statistics 0 0
        [("e", { id := "e", title := "T", link := "L", deadline := "",
                 first_seen := 100, last_seen := 100, expired_at := none,
                 registration_duration_days := none })]).total_events_tracked = 1 := by
  refine ⟨rfl, rfl, rfl⟩

/-! ### Claim C4 — the even-length median takes the upper middle -/

theorem pyRoundInt_intCast (n : ℤ) : pyRoundInt ((n : ℚ)) = n := by
  unfold pyRoundInt
  rw [Int.floor_intCast]
  norm_num

theorem roundTo_one_int (n : ℤ) : roundTo 1 ((n : ℚ)) = n := by
  unfold roundTo
  have h : ((n : ℚ)) * 10 ^ 1 = ((n * 10 : ℤ) : ℚ) := by push_cast; ring
  rw [h, pyRoundInt_intCast]
  push_cast
  ring_nf

/-- **C4 (amended)**: for a non-empty durations (resp. active-ages) list the
reported block is min/max/median/average each rounded to one decimal, with the
median the element at index `len // 2` of the sorted list; that element is
always one of the collected values (not an average of two), and for an
even-length list it is the *upper* middle — at least as large as the other
middle element — not the lower middle. -/
theorem distribution_median_spec :
    (∀ (now : ℚ) (buf : ℤ) (h : History), durationsOf h ≠ [] →
       (generate_statistics now buf h).registration_duration_stats =
         some { min := roundTo 1 (qmin (durationsOf h)),
                max := roundTo 1 (qmax (durationsOf h)),
                median := roundTo 1 ((sortQ (durationsOf h)).getD ((durationsOf h).length / 2) 0),
                average := roundTo 1 ((durationsOf h).sum / ((durationsOf h).length : ℚ)),
                total_completed := (durationsOf h).length }) ∧
    (∀ (now : ℚ) (buf : ℤ) (h : History), activeAgesOf now buf h ≠ [] →
       (generate_statistics now buf h).active_event_ages =
         some (distStats (activeAgesOf now buf h))) ∧
    (∀ l : List ℚ, l ≠ [] → (sortQ l).getD (l.length / 2) 0 ∈ l) ∧
    (∀ l : List ℚ, l ≠ [] → 2 ∣ l.length →
       (sortQ l).getD (l.length / 2 - 1) 0 ≤ (sortQ l).getD (l.length / 2) 0) := by
  refine ⟨?_, ?_, ?_, ?_⟩
  · intro now buf h hne
    show (if (durationsOf h).isEmpty then none else some _) = _
    rw [if_neg (by simpa [List.isEmpty_iff] using hne)]
  · intro now buf h hne
    show (if (activeAgesOf now buf h).isEmpty then none else some _) = _
    rw [if_neg (by simpa [List.isEmpty_iff] using hne)]
  · intro l hne
    have hlen : (sortQ l).length = l.length := List.length_insertionSort _ _
    have hidx : l.length / 2 < (sortQ l).length := by
      rw [hlen]
      have : 0 < l.length := List.length_pos.mpr hne
      omega
    rw [List.getD_eq_getElem _ _ hidx]
    exact (List.perm_insertionSort (· ≤ ·) l).mem_iff.mp (List.getElem_mem hidx)
  · intro l hne hdvd
    have hlen : (sortQ l).length = l.length := List.length_insertionSort _ _
    have hpos : 0 < l.length := List.length_pos.mpr hne
    have h2 : 2 ≤ l.length := by
      rcases hdvd with ⟨k, hk⟩
      omega
    have hj : l.length / 2 < (sortQ l).length := by rw [hlen]; omega
    have hi : l.length / 2 - 1 < (sortQ l).length := by rw [hlen]; omega
    have hsort : List.Sorted (· ≤ ·) (sortQ l) := List.sorted_insertionSort (· ≤ ·) l
    rw [List.getD_eq_getElem _ _ hi, List.getD_eq_getElem _ _ hj]
    have hij : l.length / 2 - 1 < l.length / 2 := by omega
    exact List.Sorted.rel_get_of_lt hsort (by simpa using hij)

/-- A history whose four completed registrations have durations 10/20/30/40. -/
def durRec (i : String) (q : ℚ) : HistoryRecord :=
  { id := i, title := "T", link := "L", deadline := "", first_seen := 0,
    last_seen := 0, expired_at := some 50, registration_duration_days := some q }

def histDur4 : History :=
  [("a", durRec "a" 10), ("b", durRec "b" 20), ("c", durRec "c" 30), ("d", durRec "d" 40)]

/-- Witness for C4 at the concrete four-duration history. -/
theorem distribution_median_spec_witness :
    (generate_statistics 0 0 histDur4).registration_duration_stats =
      some { min := roundTo 1 (qmin (durationsOf histDur4)),
             max := roundTo 1 (qmax (durationsOf histDur4)),
             median := roundTo 1
               ((sortQ (durationsOf histDur4)).getD ((durationsOf histDur4).length / 2) 0),
             average := roundTo 1
               ((durationsOf histDur4).sum / ((durationsOf histDur4).length : ℚ)),
             total_completed := (durationsOf histDur4).length } ∧
    (sortQ (durationsOf histDur4)).getD ((durationsOf histDur4).length / 2 - 1) 0 ≤
      (sortQ (durationsOf histDur4)).getD ((durationsOf histDur4).length / 2) 0 := by
  exact ⟨distribution_median_spec.1 0 0 histDur4 (by decide),
    distribution_median_spec.2.2.2 (durationsOf histDur4) (by decide) (by decide)⟩

/-- **C4 counterexample**: on durations `[10, 20, 30, 40]` the reported median
is `30` — `sorted[len // 2]`, the *larger* of the two middle values — and not
the lower middle `20` that the claim asserts. -/
theorem median_reports_upper_middle :
    durationsOf histDur4 = [10, 20, 30, 40] ∧
    (generate_statistics 0 0 histDur4).registration_duration_stats =
      some { min := 10, max := 40, median := 30, average := 25, total_completed := 4 } ∧
    ((30 : ℚ) ≠ 20) := by
  have hd : durationsOf histDur4 = [10, 20, 30, 40] := by decide
  refine ⟨hd, ?_, by norm_num⟩
  have hs : sortQ (durationsOf histDur4) = [10, 20, 30, 40] := by decide
  have hr10 : roundTo 1 ((10 : ℚ)) = 10 := by
    have := roundTo_one_int 10; push_cast at this; exact this
  have hr40 : roundTo 1 ((40 : ℚ)) = 40 := by
    have := roundTo_one_int 40; push_cast at this; exact this
  have hr30 : roundTo 1 ((30 : ℚ)) = 30 := by
    have := roundTo_one_int 30; push_cast at this; exact this
  have hr25 : roundTo 1 ((25 : ℚ)) = 25 := by
    have := roundTo_one_int 25; push_cast at this; exact this
  show (if (durationsOf histDur4).isEmpty then none else some _) = _
  rw [if_neg (by decide)]
  rw [hs, hd]
  norm_num [qmin, qmax, hr10, hr40, hr30, hr25, List.getD]

/-! ### Claim C8 — velocity gating -/

theorem foldl_min_mem (l : List Int) : ∀ (x : Int), l.foldl min x ∈ x :: l := by
  induction l with
  | nil => intro x; simp
  | cons y t ih =>
    intro x
    rw [List.foldl_cons]
    rcases List.mem_cons.mp (ih (min x y)) with h | h
    · rcases min_cases x y with ⟨hm, _⟩ | ⟨hm, _⟩
      · rw [h, hm]; exact List.mem_cons_self _ _
      · rw [h, hm]; exact List.mem_cons_of_mem _ (List.mem_cons_self _ _)
    · exact List.mem_cons_of_mem _ (List.mem_cons_of_mem _ h)

theorem foldl_min_le (l : List Int) : ∀ (x : Int), ∀ y ∈ x :: l, l.foldl min x ≤ y := by
  induction l with
  | nil => intro x y hy; rcases List.mem_singleton.mp hy with rfl; simp
  | cons z t ih =>
    intro x y hy
    rw [List.foldl_cons]
    rcases List.mem_cons.mp hy with h1 | hy1
    · rw [h1]
      exact le_trans (ih (min x z) _ (List.mem_cons_self _ _)) (min_le_left _ _)
    · rcases List.mem_cons.mp hy1 with h2 | hy2
      · rw [h2]
        exact le_trans (ih (min x z) _ (List.mem_cons_self _ _)) (min_le_right _ _)
      · exact ih (min x z) _ (List.mem_cons_of_mem _ hy2)

/-- **C8 (amended)**: `generate_statistics` reports numeric velocity rates
exactly when some record has a *positive* `first_seen` and the span from the
oldest such `first_seen` to now is at least 7 days; with such records but a
span under 7 days it reports the insufficient-data placeholder with the
tracking-day count; and when *no* record has a positive `first_seen` (in
particular on histories whose `first_seen` values are all zero) the
`event_velocity` field stays the empty dict — not an insufficient-data
report. -/
theorem velocity_gating :
    (∀ (now : ℚ) (buf : ℤ) (h : History),
       (h.map (fun p => p.2.first_seen)).filter (fun v => decide (0 < v)) = [] →
       (generate_statistics now buf h).event_velocity = Velocity.empty) ∧
    (∀ (now : ℚ) (buf : ℤ) (h : History) (p₀ : String × HistoryRecord),
       p₀ ∈ h → 0 < p₀.2.first_seen →
       (∀ p ∈ h, 0 < p.2.first_seen → p₀.2.first_seen ≤ p.2.first_seen) →
       ((7 : ℚ) ≤ (now - (p₀.2.first_seen : ℚ)) / 86400 →
         (generate_statistics now buf h).event_velocity =
           Velocity.rates
             (roundTo 2 ((h.length : ℚ) / (((now - (p₀.2.first_seen : ℚ)) / 86400) / 7)))
             (roundTo 2 ((h.length : ℚ) / (((now - (p₀.2.first_seen : ℚ)) / 86400) / 30)))
             (roundTo 1 ((now - (p₀.2.first_seen : ℚ)) / 86400))) ∧
       ((now - (p₀.2.first_seen : ℚ)) / 86400 < 7 →
         (generate_statistics now buf h).event_velocity =
           Velocity.insufficient (roundTo 1 ((now - (p₀.2.first_seen : ℚ)) / 86400)))) := by
  constructor
  · intro now buf h hfl
    show velocityOf now h = Velocity.empty
    unfold velocityOf
    cases hhe : h.isEmpty with
    | true => simp
    | false => simp only [hfl]; simp
  · intro now buf h p₀ hp₀ hpos hmin
    have hne : h ≠ [] := by intro hh; rw [hh] at hp₀; cases hp₀
    have hhe : h.isEmpty = false := by
      cases h with
      | nil => exact absurd rfl hne
      | cons a t => rfl
    have hmem : p₀.2.first_seen ∈
        (h.map (fun p => p.2.first_seen)).filter (fun v => decide (0 < v)) := by
      rw [List.mem_filter]
      exact ⟨List.mem_map.mpr ⟨p₀, hp₀, rfl⟩, by simpa using hpos⟩
    have hLmem : ∀ v ∈ (h.map (fun p => p.2.first_seen)).filter (fun v => decide (0 < v)),
        p₀.2.first_seen ≤ v := by
      intro v hv
      rw [List.mem_filter] at hv
      obtain ⟨p, hp, rfl⟩ := List.mem_map.mp hv.1
      exact hmin p hp (by simpa using hv.2)
    cases hfl : (h.map (fun p => p.2.first_seen)).filter (fun v => decide (0 < v)) with
    | nil => rw [hfl] at hmem; cases hmem
    | cons f0 rest =>
      have holdest : rest.foldl min f0 = p₀.2.first_seen := by
        have h1 : rest.foldl min f0 ≤ p₀.2.first_seen := by
          apply foldl_min_le
          rw [← hfl]
          exact hmem
        have h2 : p₀.2.first_seen ≤ rest.foldl min f0 := by
          have := foldl_min_mem rest f0
          rw [← hfl] at this
          exact hLmem _ this
        omega
      have hvel : velocityOf now h =
          (if (7 : ℚ) ≤ (now - (p₀.2.first_seen : ℚ)) / 86400 then
            Velocity.rates
              (roundTo 2 ((h.length : ℚ) / (((now - (p₀.2.first_seen : ℚ)) / 86400) / 7)))
              (roundTo 2 ((h.length : ℚ) / (((now - (p₀.2.first_seen : ℚ)) / 86400) / 30)))
              (roundTo 1 ((now - (p₀.2.first_seen : ℚ)) / 86400))
          else Velocity.insufficient (roundTo 1 ((now - (p₀.2.first_seen : ℚ)) / 86400))) := by
        unfold velocityOf
        rw [hhe, hfl]
        simp only [Bool.false_eq_true, if_false]
        rw [holdest]
      constructor
      · intro hge
        show velocityOf now h = _
        rw [hvel, if_pos hge]
      · intro hlt
        show velocityOf now h = _
        rw [hvel, if_neg (not_le.mpr hlt)]

/-- Witness for C8: with one record first seen at time 100 and
`now = 100 + 14*86400` (a 14-day span) the rates are reported. -/
theorem velocity_gating_witness :
    (generate_statistics ((100 : ℚ) + 14 * 86400) 0
        [("e", { id := "e", title := "T", link := "L", deadline := "",
                 first_seen := 100, last_seen := 100, expired_at := none,
                 registration_duration_days := none })]).event_velocity =
      Velocity.rates
        (roundTo 2 ((1 : ℚ) / (((((100 : ℚ) + 14 * 86400) - (100 : ℚ)) / 86400) / 7)))
        (roundTo 2 ((1 : ℚ) / (((((100 : ℚ) + 14 * 86400) - (100 : ℚ)) / 86400) / 30)))
        (roundTo 1 ((((100 : ℚ) + 14 * 86400) - (100 : ℚ)) / 86400)) := by
  have h := (velocity_gating.2 ((100 : ℚ) + 14 * 86400) 0
    [("e", { id := "e", title := "T", link := "L", deadline := "",
             first_seen := 100, last_seen := 100, expired_at := none,
             registration_duration_days := none })]
    ("e", { id := "e", title := "T", link := "L", deadline := "",
            first_seen := 100, last_seen := 100, expired_at := none,
            registration_duration_days := none })
    (List.mem_singleton.mpr rfl) (by norm_num)
    (by
      intro p hp _
      rcases List.mem_singleton.mp hp with rfl
      exact le_refl _)).1
  have h14 : (7 : ℚ) ≤ (((100 : ℚ) + 14 * 86400) - ((100 : ℤ) : ℚ)) / 86400 := by norm_num
  simpa using h h14

/-- **C8 counterexample**: a non-empty history whose only record has
`first_seen = 0` gets an *empty* `event_velocity` — not the
insufficient-data report with a tracking-day count that the claim asserts. -/
theorem velocity_empty_when_no_positive_first_seen :
    (generate_statistics 5 0
        [("e", { id := "e", title := "T", link := "L", deadline := "",
                 first_seen := 0, last_seen := 0, expired_at := none,
                 registration_duration_days := none })]).event_velocity = Velocity.empty ∧
    ((generate_statistics 5 0
        [("e", { id := "e", title := "T", link := "L", deadline := "",
                 first_seen := 0, last_seen := 0, expired_at := none,
                 registration_duration_days := none })]).event_velocity).isInsufficient =
      false := by
  exact ⟨rfl, rfl⟩

/-! ### Claim C1 — at-most-once notification -/

theorem contains_iff (l : List String) (a : String) : l.contains a = true ↔ a ∈ l := by
  simp [List.contains, List.elem_iff]

/-- **C1 (amended)**: ids already in the seen-set are never notified, and a
second run against the post-run seen-set with an unchanged page notifies
nothing — the across-runs at-most-once guarantee holds.  Within one run,
however, `new_events` is filtered once against the seen-set loaded at run
start, so every occurrence of a not-yet-seen id in the extracted event list
triggers its own invocation of each sink: the per-sink invocation count for an
unseen id equals the number of anchors that normalized to that id, and
duplicate same-id anchors are therefore notified once per occurrence, not once
per id. -/
theorem notification_calls_spec :
    (∀ (seen : List String) (events : List Event) (id : String),
       id ∈ seen → ∀ sink : Sink, (sink, id) ∉ notificationCalls seen events) ∧
    (∀ (seen : List String) (events : List Event) (id : String) (sink : Sink),
       id ∉ seen →
       (notificationCalls seen events).count (sink, id) =
         (events.filter (fun e => e.id == id)).length) ∧
    (∀ (seen : List String) (events : List Event),
       notificationCalls (seenAfter seen events) events = []) := by
  refine ⟨?_, ?_, ?_⟩
  · intro seen events id hid sink hmem
    unfold notificationCalls at hmem
    rw [List.mem_flatMap] at hmem
    obtain ⟨e, he, hpair⟩ := hmem
    rw [List.mem_filter] at he
    have hide : id = e.id := by
      simp only [List.mem_cons, List.mem_singleton, List.not_mem_nil, or_false] at hpair
      rcases hpair with h | h | h
      · exact congrArg Prod.snd h
      · exact congrArg Prod.snd h
      · exact congrArg Prod.snd h
    have : e.id ∉ seen := by
      intro hc
      rw [(contains_iff seen e.id).mpr hc] at he
      simpa using he.2
    rw [hide] at hid
    exact this hid
  · intro seen events id sink hid
    induction events with
    | nil => rfl
    | cons e es ih =>
      unfold notificationCalls at ih ⊢
      rw [List.filter_cons, List.filter_cons]
      by_cases hc : e.id ∈ seen
      · have hprop : e.id ≠ id := fun heq => hid (heq ▸ hc)
        have h1 : ¬((!seen.contains e.id) = true) := by simpa using hc
        have h2 : ¬((e.id == id) = true) := by simpa using hprop
        rw [if_neg h1, if_neg h2]
        exact ih
      · have hcc : (!seen.contains e.id) = true := by
          have : seen.contains e.id = false := by
            by_contra hb
            exact hc ((contains_iff seen e.id).mp (eq_true_of_ne_false hb))
          rw [this]; rfl
        rw [if_pos hcc, List.flatMap_cons, List.count_append]
        by_cases he : e.id = id
        · rw [if_pos (by simp [he]), List.length_cons, ← ih]
          have : List.count (sink, id)
              [(Sink.webhook, e.id), (Sink.email, e.id), (Sink.teams, e.id)] = 1 := by
            subst he
            cases sink <;> simp [List.count_cons, Prod.ext_iff]
          omega
        · rw [if_neg (by simp [he]), ← ih]
          have : List.count (sink, id)
              [(Sink.webhook, e.id), (Sink.email, e.id), (Sink.teams, e.id)] = 0 := by
            cases sink <;> simp [List.count_cons, Prod.ext_iff, he, Ne.symm he]
          omega
  · intro seen events
    unfold notificationCalls
    have hnil : events.filter (fun e => !(seenAfter seen events).contains e.id) = [] := by
      rw [List.filter_eq_nil_iff]
      intro e he
      have hmem : e.id ∈ seenAfter seen events := by
        unfold seenAfter
        by_cases hc : e.id ∈ seen
        · exact List.mem_append_left _ hc
        · refine List.mem_append_right _ ?_
          rw [List.mem_map]
          refine ⟨e, List.mem_filter.mpr ⟨he, ?_⟩, rfl⟩
          have : seen.contains e.id = false := by
            by_contra hb
            exact hc ((contains_iff seen e.id).mp (eq_true_of_ne_false hb))
          rw [this]; rfl
      rw [(contains_iff _ _).mpr hmem]
      simp
    rw [hnil]
    rfl

/-- Witness for C1: with seen-set `["a"]` and one new event `"b"`, the id in
the seen-set is not notified and `"b"` is notified exactly once per sink. -/
theorem notification_calls_spec_witness :
    ((Sink.webhook, "a") ∉ notificationCalls ["a"]
        [{ id := "b", title := "T", date := none, link := "L", description := "D" }]) ∧
    (notificationCalls ["a"]
        [{ id := "b", title := "T", date := none, link := "L", description := "D" }]).count
        (Sink.webhook, "b") = 1 := by
  constructor
  · exact notification_calls_spec.1 ["a"] _ "a" (List.mem_singleton.mpr rfl) Sink.webhook
  · rw [notification_calls_spec.2.1 ["a"] _ "b" Sink.webhook (by decide)]
    decide

/-- **C1 counterexample**: two anchors with the same unseen id each trigger a
webhook invocation in the same run — two notification attempts for one id,
refuting within-run at-most-once delivery. -/
theorem duplicate_anchors_notify_twice :
    (notificationCalls []
        [{ id := "https://x/e", title := "T", date := none, link := "https://x/e",
           description := "D" },
         { id := "https://x/e", title := "T", date := none, link := "https://x/e",
           description := "D" }]).count (Sink.webhook, "https://x/e") = 2 := by
  decide

/-! ### String-utility lemmas (shared by the C9 and C10 developments) -/

theorem toList_append (a b : String) : (a ++ b).toList = a.toList ++ b.toList :=
  String.data_append a b

theorem startsWithL_append_self (p l : List Char) : startsWithL p (p ++ l) = true := by
  induction p with
  | nil => rfl
  | cons c t ih => simp [startsWithL, ih]

theorem containsL_of_startsWith (p l : List Char) (h : startsWithL p l = true) :
    containsL p l = true := by
  cases l with
  | nil => exact h
  | cons c t => simp [containsL, h]

theorem containsL_append_right (p l1 l2 : List Char) (h : containsL p l2 = true) :
    containsL p (l1 ++ l2) = true := by
  induction l1 with
  | nil => simpa using h
  | cons c t ih => simp [containsL, ih]

theorem dropWhile_head_false {α : Type} (p : α → Bool) (l : List α) (c : α) (t : List α)
    (h : l.dropWhile p = c :: t) : p c = false := by
  induction l with
  | nil => cases h
  | cons a l' ih =>
    by_cases hp : p a = true
    · rw [List.dropWhile_cons, if_pos hp] at h
      exact ih h
    · rw [List.dropWhile_cons, if_neg hp] at h
      cases h
      simpa using hp

theorem dropWhile_idem {α : Type} (p : α → Bool) (l : List α) :
    (l.dropWhile p).dropWhile p = l.dropWhile p := by
  cases h : l.dropWhile p with
  | nil => rfl
  | cons c t =>
    rw [List.dropWhile_cons, if_neg (by simp [dropWhile_head_false p l c t h])]

theorem stripEnd_idem (m : List Char) : stripEnd (stripEnd m) = stripEnd m := by
  unfold stripEnd
  rw [List.reverse_reverse, dropWhile_idem]

theorem stripEnd_decomp (l : List Char) :
    ∃ w, l = stripEnd l ++ w ∧ ∀ c ∈ w, isPySpace c = true := by
  refine ⟨(l.reverse.takeWhile isPySpace).reverse, ?_, ?_⟩
  · have h2 := congrArg List.reverse
      (List.takeWhile_append_dropWhile (p := isPySpace) (l := l.reverse))
    rw [List.reverse_append, List.reverse_reverse] at h2
    unfold stripEnd
    exact h2.symm
  · intro c hc
    rw [List.mem_reverse] at hc
    exact List.mem_takeWhile_imp hc

theorem pyStrip_cons_space (c : Char) (l : List Char) (h : isPySpace c = true) :
    pyStrip (c :: l) = pyStrip l := by
  unfold pyStrip
  rw [List.dropWhile_cons, if_pos h]

theorem dropWhile_pyStrip (l : List Char) :
    (pyStrip l).dropWhile isPySpace = pyStrip l := by
  cases hse : pyStrip l with
  | nil => rfl
  | cons c t =>
    obtain ⟨w, hw, _⟩ := stripEnd_decomp (l.dropWhile isPySpace)
    have hdl : l.dropWhile isPySpace = c :: (t ++ w) := by
      rw [hw]
      unfold pyStrip at hse
      rw [hse]
      rfl
    rw [List.dropWhile_cons,
      if_neg (by simp [dropWhile_head_false isPySpace l c (t ++ w) hdl])]

theorem pyStrip_idem (l : List Char) : pyStrip (pyStrip l) = pyStrip l := by
  show stripEnd ((pyStrip l).dropWhile isPySpace) = pyStrip l
  rw [dropWhile_pyStrip]
  show stripEnd (stripEnd (l.dropWhile isPySpace)) = pyStrip l
  rw [stripEnd_idem]
  rfl

theorem pyStrip_ne_nil_of_mem (c : Char) (l : List Char) (hc : c ∈ l)
    (hs : isPySpace c = false) : pyStrip l ≠ [] := by
  intro h
  have h3 : (l.dropWhile isPySpace).reverse.dropWhile isPySpace = [] := by
    have := congrArg List.reverse h
    unfold pyStrip stripEnd at this
    simpa using this
  have hall : ∀ x ∈ l.dropWhile isPySpace, isPySpace x = true := by
    intro x hx
    exact List.dropWhile_eq_nil_iff.mp h3 x (List.mem_reverse.mpr hx)
  have hsplit := List.takeWhile_append_dropWhile (p := isPySpace) (l := l)
  rw [← hsplit] at hc
  rcases List.mem_append.mp hc with h4 | h4
  · exact absurd (List.mem_takeWhile_imp h4) (by simp [hs])
  · exact absurd (hall c h4) (by simp [hs])

/-! ### Claim C10 — the "Deadline:" line in the final description -/

/-- The boilerplate-stripped description (`description.replace(...)` then
`strip()`) computed before the deadline-line handling. -/
def cleanedDescription (s : String) : List Char :=
  pyStrip (removeAll BOILERPLATE.toList s.toList)

theorem pyStrip_cleaned (s : String) :
    pyStrip (cleanedDescription s) = cleanedDescription s :=
  pyStrip_idem _

theorem list_beq_nil_false (c : Char) (t : List Char) :
    ((c :: t) == ([] : List Char)) = false := rfl

theorem beq_nil_false_of_ne (l : List Char) (h : l ≠ []) :
    (l == ([] : List Char)) = false := by
  cases hc : l with
  | nil => exact absurd hc h
  | cons c t => exact list_beq_nil_false c t

/-- Characterization of the deadline-line handling for a resolved description
and a resolved, non-blank date. -/
theorem finalizeEvent_resolved (title : Option String) (ds s link : String)
    (hs : s ≠ "") (hpds : pyStrip ds.toList ≠ []) :
    (finalizeEvent title (some ds) (some s) link).2 =
      (if containsL DEADLINE_MARK (cleanedDescription s) then
        String.mk (cleanedDescription s)
       else if String.mk (cleanedDescription s) == "" then "Deadline: " ++ ds
       else String.mk (cleanedDescription s) ++ "\n\nDeadline: " ++ ds) := by
  have ht1 : truthy (some s) = true := by simp [truthy, hs]
  have ht2 : (truthy (some ds) && (pyStrip ds.toList != ([] : List Char))) = true := by
    have hds : ds ≠ "" := by
      intro h
      rw [h] at hpds
      exact hpds rfl
    simp only [truthy, Bool.and_eq_true, bne_iff_ne]
    exact ⟨by simpa using hds, hpds⟩
  unfold finalizeEvent
  simp only [Option.getD_some]
  rw [if_pos ht1, if_pos ht2, Option.getD_some,
    show pyStrip (removeAll BOILERPLATE.toList s.toList) = cleanedDescription s from rfl,
    show (String.mk (cleanedDescription s)).toList = cleanedDescription s from rfl]
  cases hcont : containsL DEADLINE_MARK (cleanedDescription s) with
  | true =>
    rw [if_neg (show ¬((!true) = true) from by decide)]
    have hne : cleanedDescription s ≠ [] := by
      intro h
      rw [h] at hcont
      exact absurd hcont (by decide)
    rw [show (String.mk (cleanedDescription s)).toList = cleanedDescription s from rfl,
      pyStrip_cleaned s]
    rw [if_neg (show ¬((cleanedDescription s == ([] : List Char)) = true) from by
      rw [beq_nil_false_of_ne _ hne]; exact Bool.false_ne_true)]
    have ht3 : truthy (some (String.mk (cleanedDescription s))) = true := by
      have hne2 : String.mk (cleanedDescription s) ≠ "" :=
        fun h => hne (by simpa using congrArg String.data h)
      simp [truthy, hne2]
    rw [if_pos ht3, if_pos (show (true = true) from rfl)]
  | false =>
    rw [if_pos (show ((!false) = true) from rfl),
      if_neg (show ¬((false : Bool) = true) from by decide)]
    by_cases hemp : (String.mk (cleanedDescription s) == "") = true
    · rw [if_pos hemp, ite_self]
      have hne2 : pyStrip (("Deadline: " ++ ds).toList) ≠ [] :=
        pyStrip_ne_nil_of_mem 'D' _
          (by rw [toList_append]; exact List.mem_append_left _ (by decide)) (by decide)
      have hne3 : ("Deadline: " ++ ds) ≠ "" := fun h => hne2 (by rw [h]; rfl)
      rw [if_pos (show truthy (some ("Deadline: " ++ ds)) = true from by
        simp [truthy, hne3])]
    · rw [if_neg hemp]
      have hne2 :
          pyStrip ((String.mk (cleanedDescription s) ++ "\n\nDeadline: " ++ ds).toList) ≠ [] :=
        pyStrip_ne_nil_of_mem 'D' _
          (by
            rw [toList_append, toList_append]
            exact List.mem_append_left _ (List.mem_append_right _ (by decide)))
          (by decide)
      rw [if_neg (show
        ¬((pyStrip (String.mk (cleanedDescription s) ++ "\n\nDeadline: " ++ ds).toList ==
          ([] : List Char)) = true) from by
        rw [beq_nil_false_of_ne _ hne2]; exact Bool.false_ne_true)]
      have hne3 : (String.mk (cleanedDescription s) ++ "\n\nDeadline: " ++ ds) ≠ "" :=
        fun h => hne2 (by rw [h]; rfl)
      rw [if_pos (show
        truthy (some (String.mk (cleanedDescription s) ++ "\n\nDeadline: " ++ ds)) = true from
        by simp [truthy, hne3])]

/-- **C10 (amended)**: with a resolved description and a resolved date, the
final description always contains `"Deadline:"`; the exact line
`"Deadline: <date>"` for the *resolved* date is appended (or used alone when
the cleaned description is empty) only when the cleaned description does not
already contain `"Deadline:"` — when it does, the cleaned description is kept
unchanged, so it need not mention the resolved date.  With no resolved
description, one is synthesized from the title and date. -/
theorem finalize_description_spec :
    (∀ (title : Option String) (ds s link : String),
       s ≠ "" → pyStrip ds.toList ≠ [] →
       containsL DEADLINE_MARK (finalizeEvent title (some ds) (some s) link).2.toList = true ∧
       (containsL DEADLINE_MARK (cleanedDescription s) = false →
         (finalizeEvent title (some ds) (some s) link).2 =
           (if String.mk (cleanedDescription s) == "" then "Deadline: " ++ ds
            else String.mk (cleanedDescription s) ++ "\n\nDeadline: " ++ ds)) ∧
       (containsL DEADLINE_MARK (cleanedDescription s) = true →
         (finalizeEvent title (some ds) (some s) link).2 =
           String.mk (cleanedDescription s))) ∧
    (∀ (title date : Option String) (link : String),
       (finalizeEvent title date none link).2 =
         (if truthy date then "Event: " ++ (if truthy title then title.getD "" else link)
          else (if truthy title then title.getD "" else link))) := by
  constructor
  · intro title ds s link hs hpds
    have hcore := finalizeEvent_resolved title ds s link hs hpds
    refine ⟨?_, ?_, ?_⟩
    · cases hcont : containsL DEADLINE_MARK (cleanedDescription s) with
      | true =>
        rw [hcore, if_pos hcont]
        exact hcont
      | false =>
        rw [hcore, if_neg (by simp [hcont])]
        by_cases hemp : (String.mk (cleanedDescription s) == "") = true
        · rw [if_pos hemp]
          show containsL DEADLINE_MARK ("Deadline: " ++ ds).toList = true
          rw [toList_append,
            show ("Deadline: ").toList = DEADLINE_MARK ++ [' '] by decide,
            List.append_assoc]
          exact containsL_of_startsWith _ _ (startsWithL_append_self _ _)
        · rw [if_neg hemp]
          show containsL DEADLINE_MARK
            ((String.mk (cleanedDescription s) ++ "\n\nDeadline: " ++ ds)).toList = true
          rw [toList_append, toList_append, List.append_assoc]
          apply containsL_append_right
          rw [show ("\n\nDeadline: ").toList = ['\n', '\n'] ++ (DEADLINE_MARK ++ [' ']) by decide,
            List.append_assoc, List.append_assoc]
          apply containsL_append_right
          exact containsL_of_startsWith _ _ (startsWithL_append_self _ _)
    · intro h
      rw [hcore, if_neg (by simp [h])]
    · intro h
      rw [hcore, if_pos h]
  · intro title date link
    rfl

/-- Witness for `finalize_description_spec`: a concrete resolved event. -/
theorem finalize_description_spec_witness :
    ("Body" : String) ≠ "" ∧ pyStrip ("31 Dec 2026" : String).toList ≠ [] ∧
    (finalizeEvent (some "T") (some "31 Dec 2026") (some "Body") "L").2 =
      "Body\n\nDeadline: 31 Dec 2026" ∧
    containsL DEADLINE_MARK
      (finalizeEvent (some "T") (some "31 Dec 2026") (some "Body") "L").2.toList = true := by
  have h1 : ("Body" : String) ≠ "" := by decide
  have h2 : pyStrip ("31 Dec 2026" : String).toList ≠ [] := by decide
  have h := finalize_description_spec.1 (some "T") "31 Dec 2026" "Body" "L" h1 h2
  refine ⟨h1, h2, ?_, h.1⟩
  rw [h.2.1 (by decide)]
  decide

/-- **C10 counterexample**: the description already contains a `"Deadline:"`
line (`"Deadline: TBD"`) and a date is resolved (`"31 Dec 2026"`), yet the
final description keeps the old line unchanged and never mentions the
resolved date — contradicting the claim that the line is "updated to the
resolved date". -/
theorem deadline_line_not_updated_for_resolved_date :
    (finalizeEvent (some "T") (some "31 Dec 2026") (some "Deadline: TBD") "L").2 =
      "Deadline: TBD" ∧
    containsL ("31 Dec 2026").toList
      (finalizeEvent (some "T") (some "31 Dec 2026") (some "Deadline: TBD") "L").2.toList
      = false := by
  decide

/-! ### Claim C9 — label stripping: whitespace invariance of the matcher

`parse_deadline` applies `.strip()` to the text after a `"Deadline:"` label
but searches the raw text when no label is present; the regex fallbacks are
invariant under leading/trailing whitespace because no pattern can start at a
whitespace character and every `\s+` is followed by an atom that matches
neither an empty nor a whitespace-headed input. -/

/-- Atoms that match neither an empty input nor one starting with whitespace:
digit fields, nonempty fixed digit runs, non-whitespace literals and month
names.  (`\s+` and `[a-z]*` are not hard.) -/
def hardAtom : SAtom → Bool
  | .num _ _ => true
  | .exact n _ => decide (0 < n)
  | .lit c => !isPySpace c
  | .mon _ => true
  | _ => false

/-- Syntactic side condition of the whitespace-invariance lemma: every `.ws`
is immediately followed by a hard atom, and every literal is non-whitespace.
Both regex cores and the optional time group satisfy it. -/
def atomsOk : List SAtom → Bool
  | [] => true
  | .lit c :: as => !isPySpace c && atomsOk as
  | .ws :: [] => false
  | .ws :: a :: as => hardAtom a && atomsOk (a :: as)
  | _ :: as => atomsOk as

/-- The pattern starts with a hard atom (true of both regex cores). -/
def headHard : List SAtom → Bool
  | a :: _ => hardAtom a
  | [] => false

theorem space_char_cases (c : Char) (h : isPySpace c = true) :
    c = ' ' ∨ c = '\t' ∨ c = '\n' ∨ c = '\r' ∨ c = '\x0b' ∨ c = '\x0c' := by
  simp only [isPySpace, Bool.or_eq_true, beq_iff_eq] at h
  tauto

theorem isDigit_false_of_space (c : Char) (h : isPySpace c = true) : c.isDigit = false := by
  rcases space_char_cases c h with h | h | h | h | h | h <;> subst h <;> decide

theorem isAlpha_false_of_space (c : Char) (h : isPySpace c = true) : c.isAlpha = false := by
  rcases space_char_cases c h with h | h | h | h | h | h <;> subst h <;> decide

theorem toLower_space_ne (c ch : Char) (hc : isPySpace c = true) (hch : 96 < ch.toNat) :
    (c.toLower == ch) = false := by
  have h2 : c.toLower.toNat ≤ 32 := by
    rcases space_char_cases c hc with h | h | h | h | h | h <;> subst h <;> decide
  have hne : c.toLower ≠ ch := by
    intro h
    rw [h] at h2
    omega
  simp [hne]

theorem stripCI_append_ws (nm : List Char) (hnm : ∀ ch ∈ nm, 96 < ch.toNat) :
    ∀ (x w : List Char), (∀ c ∈ w, isPySpace c = true) →
      stripCI nm (x ++ w) = (stripCI nm x).map (fun r => r ++ w) := by
  induction nm with
  | nil => intro x w _; rfl
  | cons n ns ih =>
    intro x w hw
    cases x with
    | nil =>
      cases w with
      | nil => rfl
      | cons c w2 =>
        have hcn := toLower_space_ne c n (hw c (by simp)) (hnm n (by simp))
        simp [stripCI, hcn]
    | cons c cs =>
      by_cases hc : (c.toLower == n) = true
      · simp only [List.cons_append, stripCI, hc, if_true]
        exact ih (fun ch hm => hnm ch (by simp [hm])) cs w hw
      · simp [stripCI, hc]

theorem monLookup_append_ws (table : List (String × Nat))
    (htab : ∀ p ∈ table, ∀ ch ∈ p.1.toList, 96 < ch.toNat) :
    ∀ (x w : List Char), (∀ c ∈ w, isPySpace c = true) →
      monLookup table (x ++ w) = (monLookup table x).map (fun pr => (pr.1, pr.2 ++ w)) := by
  induction table with
  | nil => intro x w _; rfl
  | cons p rest ih =>
    intro x w hw
    obtain ⟨nm, v⟩ := p
    rw [monLookup, monLookup,
      stripCI_append_ws nm.toList (htab (nm, v) (by simp)) x w hw]
    cases hs : stripCI nm.toList x with
    | some r => simp
    | none =>
      simp only [Option.map_none']
      exact ih (fun q hq => htab q (by simp [hq])) x w hw

theorem monLookup_abbr_space (c : Char) (r : List Char) (hc : isPySpace c = true) :
    monLookup monthAbbrTable (c :: r) = none := by
  rcases space_char_cases c hc with h | h | h | h | h | h <;> subst h <;> rfl

theorem monLookup_full_space (c : Char) (r : List Char) (hc : isPySpace c = true) :
    monLookup monthFullTable (c :: r) = none := by
  rcases space_char_cases c hc with h | h | h | h | h | h <;> subst h <;> rfl

theorem matchSeq_hard_nil (a : SAtom) (as : List SAtom) (ha : hardAtom a = true) :
    matchSeq (a :: as) [] = none := by
  cases a with
  | num ok2 ok1 => rfl
  | exact n ok =>
    cases n with
    | zero => simp [hardAtom] at ha
    | succ m => simp [matchSeq]
  | lit c => rfl
  | ws => exact absurd ha (by decide)
  | letterRun => exact absurd ha (by decide)
  | mon full => cases full <;> rfl

theorem matchSeq_hard_spacehead (a : SAtom) (as : List SAtom) (c : Char) (r : List Char)
    (ha : hardAtom a = true) (hc : isPySpace c = true) :
    matchSeq (a :: as) (c :: r) = none := by
  have hd := isDigit_false_of_space c hc
  cases a with
  | num ok2 ok1 => cases r <;> simp [matchSeq, hd]
  | exact n ok =>
    cases n with
    | zero => simp [hardAtom] at ha
    | succ m => simp [matchSeq, hd]
  | lit c2 =>
    have hc2 : isPySpace c2 = false := by simpa [hardAtom] using ha
    have hne : (c == c2) = false := by
      have h1 : c ≠ c2 := by
        intro h
        subst h
        rw [hc] at hc2
        cases hc2
      simp [h1]
    simp [matchSeq, hne]
  | ws => exact absurd ha (by decide)
  | letterRun => exact absurd ha (by decide)
  | mon full =>
    cases full <;>
      simp [matchSeq, monLookup_full_space c r hc, monLookup_abbr_space c r hc]

theorem takeWhile_dropWhile_append_pos {α : Type} (p : α → Bool) :
    ∀ (l1 l2 : List α), l1.dropWhile p ≠ [] →
      (l1 ++ l2).takeWhile p = l1.takeWhile p ∧
      (l1 ++ l2).dropWhile p = l1.dropWhile p ++ l2 := by
  intro l1
  induction l1 with
  | nil => intro l2 h; exact absurd rfl h
  | cons c t ih =>
    intro l2 h
    by_cases hc : p c = true
    · rw [List.dropWhile_cons, if_pos hc] at h
      obtain ⟨h1, h2⟩ := ih l2 h
      constructor
      · rw [List.cons_append, List.takeWhile_cons, if_pos hc, List.takeWhile_cons,
          if_pos hc, h1]
      · rw [List.cons_append, List.dropWhile_cons, if_pos hc, List.dropWhile_cons,
          if_pos hc, h2]
    · constructor
      · rw [List.cons_append, List.takeWhile_cons, if_neg hc, List.takeWhile_cons, if_neg hc]
      · rw [List.cons_append, List.dropWhile_cons, if_neg hc, List.dropWhile_cons, if_neg hc]
        rfl

theorem takeWhile_dropWhile_append_nil {α : Type} (p : α → Bool) :
    ∀ (l1 l2 : List α), l1.dropWhile p = [] →
      (l1 ++ l2).takeWhile p = l1 ++ l2.takeWhile p ∧
      (l1 ++ l2).dropWhile p = l2.dropWhile p := by
  intro l1
  induction l1 with
  | nil => intro l2 _; exact ⟨rfl, rfl⟩
  | cons c t ih =>
    intro l2 h
    have hc : p c = true := by
      by_contra hc
      rw [List.dropWhile_cons, if_neg hc] at h
      cases h
    rw [List.dropWhile_cons, if_pos hc] at h
    obtain ⟨h1, h2⟩ := ih l2 h
    constructor
    · rw [List.cons_append, List.takeWhile_cons, if_pos hc, h1]
      rfl
    · rw [List.cons_append, List.dropWhile_cons, if_pos hc, h2]

theorem findSome_map {α β γ : Type} (f : β → γ) (g : α → Option β) :
    ∀ (l : List α), l.findSome? (fun a => (g a).map f) = (l.findSome? g).map f := by
  intro l
  induction l with
  | nil => rfl
  | cons a t ih =>
    rw [List.findSome?_cons, List.findSome?_cons]
    cases hg : g a with
    | none => simpa [hg] using ih
    | some b => simp [hg]

theorem matchSeq_append_nil (as : List SAtom) (x : List Char) :
    matchSeq as (x ++ []) = (matchSeq as x).map (fun p => (p.1, p.2 ++ [])) := by
  rw [List.append_nil]
  cases hM : matchSeq as x with
  | none => rfl
  | some p => simp

/-- Appending an all-whitespace suffix to the input changes a match of a
well-formed atom sequence only by carrying the suffix in the unconsumed rest:
it can neither create nor destroy a match, and the captures are unchanged. -/
theorem matchSeq_append_ws :
    ∀ (as : List SAtom), atomsOk as = true →
      ∀ (x w : List Char), (∀ c ∈ w, isPySpace c = true) →
        matchSeq as (x ++ w) = (matchSeq as x).map (fun p => (p.1, p.2 ++ w)) := by
  intro as
  induction as with
  | nil => intro _ x w _; rfl
  | cons a as ih =>
    intro hok x w hw
    cases w with
    | nil => exact matchSeq_append_nil (a :: as) x
    | cons c0 w0 =>
    have hsp0 : isPySpace c0 = true := hw c0 (by simp)
    cases a with
    | num ok2 ok1 =>
      have hok2 : atomsOk as = true := by simpa [atomsOk] using hok
      have hd0 : c0.isDigit = false := isDigit_false_of_space c0 hsp0
      cases x with
      | nil =>
        cases w0 with
        | nil => simp [matchSeq, hd0]
        | cons c2 w2 => simp [matchSeq, hd0]
      | cons c1 x1 =>
        cases x1 with
        | nil =>
          have hih := ih hok2 [] (c0 :: w0) hw
          rw [List.nil_append] at hih
          by_cases h1 : (c1.isDigit && ok1 (dval c1)) = true <;>
            cases hM : matchSeq as [] <;>
              simp [matchSeq, hd0, h1, hih, hM]
        | cons c2 x2 =>
          have hih2 := ih hok2 x2 (c0 :: w0) hw
          have hih1 := ih hok2 (c2 :: x2) (c0 :: w0) hw
          rw [List.cons_append] at hih1
          by_cases hc2 : (c1.isDigit && c2.isDigit && ok2 (dval c1 * 10 + dval c2)) = true <;>
            by_cases hc1 : (c1.isDigit && ok1 (dval c1)) = true <;>
              cases hMa : matchSeq as x2 <;> cases hMb : matchSeq as (c2 :: x2) <;>
                simp [matchSeq, hc2, hc1, hih2, hih1, hMa, hMb]
    | exact n ok =>
      have hok2 : atomsOk as = true := by simpa [atomsOk] using hok
      by_cases hlen : n ≤ x.length
      · rw [matchSeq, matchSeq, List.take_append_of_le_length hlen,
          List.drop_append_of_le_length hlen]
        by_cases hcond : ((x.take n).length = n && (x.take n).all Char.isDigit &&
            ok (natOfDigits (x.take n))) = true
        · rw [if_pos hcond, if_pos hcond, ih hok2 (x.drop n) (c0 :: w0) hw]
          cases matchSeq as (x.drop n) <;> rfl
        · rw [if_neg hcond, if_neg hcond]
          rfl
      · push_neg at hlen
        rw [matchSeq, matchSeq]
        have hd0 : c0.isDigit = false := isDigit_false_of_space c0 hsp0
        rw [if_neg (show ¬(((x.take n).length = n && (x.take n).all Char.isDigit &&
          ok (natOfDigits (x.take n))) = true) from by
            simp
            intro h
            exact absurd h (by omega))]
        by_cases hlen2 : n ≤ (x ++ c0 :: w0).length
        · have hall : ((x ++ c0 :: w0).take n).all Char.isDigit = false := by
            rw [List.take_append_eq_append_take, List.take_of_length_le (Nat.le_of_lt hlen)]
            obtain ⟨m, hm⟩ : ∃ m, n - x.length = m + 1 := ⟨n - x.length - 1, by omega⟩
            rw [hm, List.take_succ_cons]
            simp [List.all_append, hd0]
          rw [if_neg (show ¬((((x ++ c0 :: w0).take n).length = n &&
            ((x ++ c0 :: w0).take n).all Char.isDigit &&
            ok (natOfDigits ((x ++ c0 :: w0).take n))) = true) from by simp [hall])]
          rfl
        · push_neg at hlen2
          rw [if_neg (show ¬((((x ++ c0 :: w0).take n).length = n &&
            ((x ++ c0 :: w0).take n).all Char.isDigit &&
            ok (natOfDigits ((x ++ c0 :: w0).take n))) = true) from by
              simp
              intro h
              exfalso
              simp [List.length_append] at hlen2
              omega)]
          rfl
    | lit c2 =>
      have hok2 : atomsOk as = true := by
        simp [atomsOk, Bool.and_eq_true] at hok
        exact hok.2
      have hs2 : isPySpace c2 = false := by
        simp [atomsOk, Bool.and_eq_true] at hok
        simpa using hok.1
      cases x with
      | nil =>
        have hne : (c0 == c2) = false := by
          have h1 : c0 ≠ c2 := by
            intro h
            subst h
            rw [hsp0] at hs2
            cases hs2
          simp [h1]
        simp [matchSeq, hne]
      | cons c1 x1 =>
        by_cases hc : (c1 == c2) = true
        · simp only [List.cons_append, matchSeq]
          rw [if_pos hc, if_pos hc]
          exact ih hok2 x1 (c0 :: w0) hw
        · simp only [List.cons_append, matchSeq]
          rw [if_neg hc, if_neg hc]
          rfl
    | ws =>
      cases as with
      | nil => simp [atomsOk] at hok
      | cons a2 as2 =>
        have hok' := hok
        simp only [atomsOk, Bool.and_eq_true] at hok'
        have hh : hardAtom a2 = true := hok'.1
        have hok2 : atomsOk (a2 :: as2) = true := hok'.2
        cases hxd : x.dropWhile isPySpace with
        | nil =>
          have hxall : ∀ c ∈ x, isPySpace c = true := List.dropWhile_eq_nil_iff.mp hxd
          have hall2 : ∀ c ∈ x ++ c0 :: w0, isPySpace c = true := by
            intro c hcm
            rcases List.mem_append.mp hcm with hm | hm
            · exact hxall c hm
            · exact hw c hm
          have hdrop : (x ++ c0 :: w0).dropWhile isPySpace = [] :=
            List.dropWhile_eq_nil_iff.mpr hall2
          have htake : (x ++ c0 :: w0).takeWhile isPySpace ≠ [] := by
            have h5 := List.takeWhile_append_dropWhile (p := isPySpace) (l := x ++ c0 :: w0)
            rw [hdrop, List.append_nil] at h5
            rw [h5]
            simp
          rw [matchSeq, if_neg htake, hdrop, matchSeq_hard_nil a2 as2 hh]
          cases x with
          | nil => rfl
          | cons cx tx =>
            have hxt : (cx :: tx).takeWhile isPySpace ≠ [] := by
              rw [List.takeWhile_cons, if_pos (hxall cx (by simp))]
              simp
            rw [matchSeq, if_neg hxt, hxd, matchSeq_hard_nil a2 as2 hh]
            rfl
        | cons cd td =>
          have hne : x.dropWhile isPySpace ≠ [] := by
            rw [hxd]
            simp
          obtain ⟨ht1, ht2⟩ := takeWhile_dropWhile_append_pos isPySpace x (c0 :: w0) hne
          rw [matchSeq, matchSeq, ht1, ht2]
          by_cases htw : x.takeWhile isPySpace = []
          · rw [if_pos htw, if_pos htw]
            rfl
          · rw [if_neg htw, if_neg htw]
            exact ih hok2 (x.dropWhile isPySpace) (c0 :: w0) hw
    | letterRun =>
      have hok2 : atomsOk as = true := by simpa [atomsOk] using hok
      have hwa : Char.isAlpha c0 = false := isAlpha_false_of_space c0 hsp0
      cases hxd : x.dropWhile Char.isAlpha with
      | nil =>
        obtain ⟨ht1, ht2⟩ := takeWhile_dropWhile_append_nil Char.isAlpha x (c0 :: w0) hxd
        have hw1 : (c0 :: w0).takeWhile Char.isAlpha = [] := by
          rw [List.takeWhile_cons, if_neg (by simp [hwa])]
        have hw2 : (c0 :: w0).dropWhile Char.isAlpha = c0 :: w0 := by
          rw [List.dropWhile_cons, if_neg (by simp [hwa])]
        have hx1 : x.takeWhile Char.isAlpha = x := by
          have h5 := List.takeWhile_append_dropWhile (p := Char.isAlpha) (l := x)
          rw [hxd, List.append_nil] at h5
          exact h5
        simp only [matchSeq, ht1, ht2, hw1, hw2, hx1, hxd, List.append_nil]
        have helem : ∀ i : Nat,
            matchSeq as (x.drop (x.length - i) ++ (c0 :: w0)) =
              (matchSeq as (x.drop (x.length - i))).map
                (fun p => (p.1, p.2 ++ (c0 :: w0))) := by
          intro i
          exact ih hok2 _ _ hw
        simp only [helem]
        rw [findSome_map]
      | cons cd td =>
        have hne : x.dropWhile Char.isAlpha ≠ [] := by
          rw [hxd]
          simp
        obtain ⟨ht1, ht2⟩ := takeWhile_dropWhile_append_pos Char.isAlpha x (c0 :: w0) hne
        simp only [matchSeq, ht1, ht2]
        have helem : ∀ i : Nat,
            matchSeq as ((x.takeWhile Char.isAlpha).drop
                ((x.takeWhile Char.isAlpha).length - i) ++
                (x.dropWhile Char.isAlpha ++ (c0 :: w0))) =
              (matchSeq as ((x.takeWhile Char.isAlpha).drop
                ((x.takeWhile Char.isAlpha).length - i) ++ x.dropWhile Char.isAlpha)).map
                  (fun p => (p.1, p.2 ++ (c0 :: w0))) := by
          intro i
          rw [← List.append_assoc]
          exact ih hok2 _ _ hw
        simp only [helem]
        rw [findSome_map]
    | mon full =>
      have hok2 : atomsOk as = true := by simpa [atomsOk] using hok
      have htab : ∀ p ∈ (if full then monthFullTable else monthAbbrTable),
          ∀ ch ∈ p.1.toList, 96 < ch.toNat := by
        cases full <;> decide
      simp only [matchSeq]
      rw [monLookup_append_ws _ htab x (c0 :: w0) hw]
      cases hM : monLookup (if full then monthFullTable else monthAbbrTable) x with
      | none => rfl
      | some pr =>
        obtain ⟨m, r⟩ := pr
        simp only [Option.map_some']
        rw [ih hok2 r (c0 :: w0) hw]
        cases matchSeq as r <;> rfl

theorem matchWithOpt_none (core opt : List SAtom) (l : List Char)
    (h : matchSeq core l = none) : matchWithOpt core opt l = none := by
  unfold matchWithOpt
  rw [h]

/-- Appending an all-whitespace suffix does not change a position's match
(captures included): the optional time group cannot be completed by
whitespace alone. -/
theorem matchWithOpt_append_ws (core opt : List SAtom) (hc : atomsOk core = true)
    (ho : atomsOk opt = true) (x w : List Char) (hw : ∀ c ∈ w, isPySpace c = true) :
    matchWithOpt core opt (x ++ w) = matchWithOpt core opt x := by
  unfold matchWithOpt
  rw [matchSeq_append_ws core hc x w hw]
  cases hm : matchSeq core x with
  | none => rfl
  | some p =>
    simp only [Option.map_some']
    rw [matchSeq_append_ws opt ho p.2 w hw]
    cases hm2 : matchSeq opt p.2 <;> rfl

theorem searchWithOpt_all_space (core opt : List SAtom) (hh : headHard core = true) :
    ∀ (v : List Char), (∀ c ∈ v, isPySpace c = true) → searchWithOpt core opt v = none := by
  have hcore : ∃ a as, core = a :: as ∧ hardAtom a = true := by
    cases core with
    | nil => simp [headHard] at hh
    | cons a as => exact ⟨a, as, rfl, by simpa [headHard] using hh⟩
  obtain ⟨a, as, rfl, ha⟩ := hcore
  intro v
  induction v with
  | nil =>
    intro _
    show matchWithOpt (a :: as) opt [] = none
    exact matchWithOpt_none _ _ _ (matchSeq_hard_nil a as ha)
  | cons c t ih =>
    intro hv
    rw [searchWithOpt,
      matchWithOpt_none _ _ _ (matchSeq_hard_spacehead a as c t ha (hv c (by simp)))]
    exact ih (fun d hd => hv d (by simp [hd]))

theorem searchWithOpt_append_ws_right (core opt : List SAtom) (hc : atomsOk core = true)
    (ho : atomsOk opt = true) (hh : headHard core = true) :
    ∀ (m w : List Char), (∀ c ∈ w, isPySpace c = true) →
      searchWithOpt core opt (m ++ w) = searchWithOpt core opt m := by
  intro m
  induction m with
  | nil =>
    intro w hw
    rw [List.nil_append, searchWithOpt_all_space core opt hh w hw]
    cases core with
    | nil => simp [headHard] at hh
    | cons a as =>
      show none = matchWithOpt (a :: as) opt []
      rw [matchWithOpt_none _ _ _ (matchSeq_hard_nil a as (by simpa [headHard] using hh))]
  | cons c t ih =>
    intro w hw
    rw [List.cons_append, searchWithOpt, searchWithOpt,
      show matchWithOpt core opt (c :: (t ++ w)) = matchWithOpt core opt (c :: t) from by
        rw [show (c :: (t ++ w) : List Char) = (c :: t) ++ w from rfl]
        exact matchWithOpt_append_ws core opt hc ho (c :: t) w hw]
    cases matchWithOpt core opt (c :: t) with
    | none => exact ih w hw
    | some caps => rfl

theorem searchWithOpt_append_ws_left (core opt : List SAtom) (hh : headHard core = true) :
    ∀ (w m : List Char), (∀ c ∈ w, isPySpace c = true) →
      searchWithOpt core opt (w ++ m) = searchWithOpt core opt m := by
  have hcore : ∃ a as, core = a :: as ∧ hardAtom a = true := by
    cases core with
    | nil => simp [headHard] at hh
    | cons a as => exact ⟨a, as, rfl, by simpa [headHard] using hh⟩
  obtain ⟨a, as, rfl, ha⟩ := hcore
  intro w
  induction w with
  | nil => intro m _; rfl
  | cons c t ih =>
    intro m hw
    rw [List.cons_append, searchWithOpt,
      matchWithOpt_none _ _ _ (matchSeq_hard_spacehead a as c (t ++ m) ha (hw c (by simp)))]
    exact ih m (fun d hd => hw d (by simp [hd]))

/-- `re.search` is invariant under Python `strip()` of the haystack for the
deadline patterns: no match can start at whitespace, and trailing whitespace
cannot complete one. -/
theorem searchWithOpt_pyStrip (core opt : List SAtom) (hc : atomsOk core = true)
    (ho : atomsOk opt = true) (hh : headHard core = true) (l : List Char) :
    searchWithOpt core opt (pyStrip l) = searchWithOpt core opt l := by
  conv_rhs => rw [← List.takeWhile_append_dropWhile isPySpace l]
  rw [searchWithOpt_append_ws_left core opt hh (l.takeWhile isPySpace)
    (l.dropWhile isPySpace) (fun c hcm => List.mem_takeWhile_imp hcm)]
  obtain ⟨w, hwdec, hws⟩ := stripEnd_decomp (l.dropWhile isPySpace)
  rw [show l.dropWhile isPySpace = pyStrip l ++ w from hwdec,
    searchWithOpt_append_ws_right core opt hc ho hh (pyStrip l) w hws]

theorem tryPatterns_pyStrip (l : List Char) :
    tryPatterns (pyStrip l) = tryPatterns l := by
  unfold tryPatterns
  rw [searchWithOpt_pyStrip coreA optTime (by decide) (by decide) (by decide),
    searchWithOpt_pyStrip coreB optTime (by decide) (by decide) (by decide)]

theorem afterLastAux_eq_none (pat : List Char) :
    ∀ (l : List Char), containsL pat l = false → afterLastAux pat l = none := by
  intro l
  induction l with
  | nil => intro _; rfl
  | cons c cs ih =>
    intro h
    rw [containsL, Bool.or_eq_false_iff] at h
    rw [afterLastAux, ih h.2]
    rw [if_neg (by simp [h.1])]

theorem afterLastAux_isSome (pat : List Char) (hp : pat ≠ []) :
    ∀ (l : List Char), containsL pat l = true → ∃ r, afterLastAux pat l = some r := by
  intro l
  induction l with
  | nil =>
    intro h
    exfalso
    cases pat with
    | nil => exact hp rfl
    | cons p ps => exact absurd h (by simp [containsL, startsWithL])
  | cons c cs ih =>
    intro h
    rw [afterLastAux]
    cases haux : afterLastAux pat cs with
    | some r => exact ⟨r, rfl⟩
    | none =>
      cases hcs : containsL pat cs with
      | true =>
        obtain ⟨r, hr⟩ := ih hcs
        rw [hr] at haux
        cases haux
      | false =>
        rw [containsL, hcs, Bool.or_false] at h
        rw [if_pos h]
        exact ⟨_, rfl⟩

theorem afterLastAux_prefix (pat r : List Char) :
    ∀ (pre l : List Char), afterLastAux pat l = some r →
      afterLastAux pat (pre ++ l) = some r := by
  intro pre
  induction pre with
  | nil => intro l h; simpa using h
  | cons c p ih =>
    intro l h
    have h2 := ih l h
    show afterLastAux pat (c :: (p ++ l)) = some r
    rw [afterLastAux, h2]

theorem afterLast_eq_of_aux (pat l r : List Char) (h : afterLastAux pat l = some r) :
    afterLast pat l = r := by
  unfold afterLast
  rw [h]
  rfl

/-- The substring test for `"Deadline:"` ignores a prefix containing no `'D'`. -/
theorem containsL_cons_of_ne (c : Char) (l : List Char) (hc : (('D' : Char) == c) = false) :
    containsL DEADLINE_MARK (c :: l) = containsL DEADLINE_MARK l := by
  rw [containsL]
  have hsw : startsWithL DEADLINE_MARK (c :: l) = false := by
    show (('D' : Char) == c && startsWithL "eadline:".toList l) = false
    rw [hc, Bool.false_and]
  rw [hsw, Bool.false_or]

theorem containsL_space_front :
    ∀ (pre l : List Char), (∀ c ∈ pre, (('D' : Char) == c) = false) →
      containsL DEADLINE_MARK (pre ++ l) = containsL DEADLINE_MARK l := by
  intro pre
  induction pre with
  | nil => intro l _; rfl
  | cons c p ih =>
    intro l h
    rw [List.cons_append, containsL_cons_of_ne c _ (h c (by simp))]
    exact ih l (fun d hd => h d (by simp [hd]))

/-- `"Deadline:"` cannot overlap itself and its tail contains no `'D'`, so in
`"Deadline: " ++ l` with no occurrence inside `l`, the last occurrence is the
leading label and the suffix after it is `' ' :: l`. -/
theorem afterLastAux_boundary (l : List Char) (h : containsL DEADLINE_MARK l = false) :
    afterLastAux DEADLINE_MARK ("Deadline: ".toList ++ l) = some (' ' :: l) := by
  have h1 : containsL DEADLINE_MARK ("eadline: ".toList ++ l) = false := by
    rw [containsL_space_front "eadline: ".toList l (by decide)]
    exact h
  have h2 : afterLastAux DEADLINE_MARK ("eadline: ".toList ++ l) = none :=
    afterLastAux_eq_none _ _ h1
  show afterLastAux DEADLINE_MARK ('D' :: ("eadline: ".toList ++ l)) = some (' ' :: l)
  rw [afterLastAux, h2]
  rw [if_pos (show startsWithL DEADLINE_MARK ('D' :: ("eadline: ".toList ++ l)) = true from
    startsWithL_append_self DEADLINE_MARK (' ' :: l))]
  show some ((DEADLINE_MARK ++ (' ' :: l)).drop DEADLINE_MARK.length) = some (' ' :: l)
  rw [List.drop_left]

theorem parseDeadlineL_marked (l : List Char) (h : l ≠ [])
    (hc : containsL DEADLINE_MARK l = true) :
    parseDeadlineL l =
      (tryFormats (pyStrip (pyStrip (afterLast DEADLINE_MARK l))) <|>
        tryPatterns (pyStrip (afterLast DEADLINE_MARK l))) := by
  unfold parseDeadlineL
  rw [if_neg h]
  dsimp only
  rw [if_pos hc]

theorem parseDeadlineL_unmarked (l : List Char) (h : l ≠ [])
    (hc : containsL DEADLINE_MARK l = false) :
    parseDeadlineL l = (tryFormats (pyStrip l) <|> tryPatterns l) := by
  unfold parseDeadlineL
  rw [if_neg h]
  dsimp only
  rw [if_neg (by simp [hc])]

/-- Prefixing the `"Deadline: "` label preserves any successful parse: the
label (up to the last occurrence of `"Deadline:"`) is stripped before the
formats and patterns run. -/
theorem parseDeadlineL_label (l : List Char) (t : Int) (h : parseDeadlineL l = some t) :
    parseDeadlineL ("Deadline: ".toList ++ l) = some t := by
  have hl : l ≠ [] := by
    intro hnil
    rw [hnil] at h
    simp [parseDeadlineL] at h
  have hne : "Deadline: ".toList ++ l ≠ [] := by simp
  have hc2 : containsL DEADLINE_MARK ("Deadline: ".toList ++ l) = true :=
    containsL_of_startsWith _ _ (startsWithL_append_self DEADLINE_MARK (' ' :: l))
  rw [parseDeadlineL_marked _ hne hc2]
  cases hcont : containsL DEADLINE_MARK l with
  | true =>
    obtain ⟨r, hr⟩ := afterLastAux_isSome DEADLINE_MARK (by decide) l hcont
    have h4 : afterLastAux DEADLINE_MARK ("Deadline: ".toList ++ l) = some r :=
      afterLastAux_prefix DEADLINE_MARK r ("Deadline: ".toList) l hr
    rw [afterLast_eq_of_aux _ _ _ h4]
    rw [parseDeadlineL_marked l hl hcont, afterLast_eq_of_aux _ _ _ hr] at h
    exact h
  | false =>
    have h4 : afterLastAux DEADLINE_MARK ("Deadline: ".toList ++ l) = some (' ' :: l) :=
      afterLastAux_boundary l hcont
    rw [afterLast_eq_of_aux _ _ _ h4, pyStrip_cons_space ' ' l (by decide), pyStrip_idem,
      tryPatterns_pyStrip]
    rw [parseDeadlineL_unmarked l hl hcont] at h
    exact h

/-- **C9 (confirmed)**: `parse_deadline` strips an optional `"Deadline:"`
label before parsing — every parseable date string still parses to the same
timestamp with a `"Deadline: "` prefix; concretely
`"31 Dec 2026 23:59"` and `"Deadline: 31 Dec 2026 23:59"` both parse (to the
same timestamp), and `"not a date"` parses to `None`. -/
theorem parse_deadline_strips_label :
    (∀ (s : String) (t : Int), parse_deadline s = some t →
        parse_deadline ("Deadline: " ++ s) = some t) ∧
    parse_deadline "Deadline: 31 Dec 2026 23:59" = parse_deadline "31 Dec 2026 23:59" ∧
    parse_deadline "31 Dec 2026 23:59" ≠ none ∧
    parse_deadline "not a date" = none := by
  refine ⟨?_, by decide, by decide, by decide⟩
  intro s t h
  have h2 : parseDeadlineL ("Deadline: ".toList ++ s.toList) = some t :=
    parseDeadlineL_label s.toList t h
  show parseDeadlineL ("Deadline: " ++ s).toList = some t
  rw [show ("Deadline: " ++ s).toList = "Deadline: ".toList ++ s.toList from
    String.data_append _ _]
  exact h2

/-- Witness for `parse_deadline_strips_label`: the concrete round-trip date. -/
theorem parse_deadline_strips_label_witness :
    parse_deadline "31 Dec 2026 23:59" = some 1798761540 ∧
    parse_deadline ("Deadline: " ++ "31 Dec 2026 23:59") = some 1798761540 := by
  have h1 : parse_deadline "31 Dec 2026 23:59" = some 1798761540 := by decide
  exact ⟨h1, parse_deadline_strips_label.1 "31 Dec 2026 23:59" 1798761540 h1⟩

/-! ### Claim C7 — `normalize_url`: query/fragment stripping and idempotence

The development culminates in a parse/unparse round trip for the records
`normalize_url` rebuilds, and an analysis of the `urljoin` branches showing
every output again parses to such a record. -/

theorem char_toNat_ofNat (n : Nat) (h : n.isValidChar) : (Char.ofNat n).toNat = n := by
  rw [Char.ofNat, dif_pos h]
  rfl

theorem char_eq_of_toNat_eq (a b : Char) (h : a.toNat = b.toNat) : a = b :=
  Char.eq_of_val_eq (UInt32.ext h)

theorem toLower_toNat (c : Char) :
    c.toLower.toNat = if 65 ≤ c.toNat ∧ c.toNat ≤ 90 then c.toNat + 32 else c.toNat := by
  unfold Char.toLower
  by_cases h : c.toNat ≥ 65 ∧ c.toNat ≤ 90
  · rw [if_pos h, if_pos ⟨h.1, h.2⟩]
    exact char_toNat_ofNat _ (by left; omega)
  · rw [if_neg h, if_neg (by tauto)]

theorem toLower_toLower (c : Char) : c.toLower.toLower = c.toLower := by
  have h1 := toLower_toNat c
  have h2 := toLower_toNat c.toLower
  apply char_eq_of_toNat_eq
  by_cases h : 65 ≤ c.toNat ∧ c.toNat ≤ 90
  · rw [if_pos h] at h1
    rw [h1, if_neg (by omega)] at h2
    omega
  · rw [if_neg h] at h1
    rw [h1, if_neg h] at h2
    omega

theorem isAlpha_iff_toNat (c : Char) :
    c.isAlpha = true ↔ (65 ≤ c.toNat ∧ c.toNat ≤ 90) ∨ (97 ≤ c.toNat ∧ c.toNat ≤ 122) := by
  show (c.isUpper || c.isLower) = true ↔ _
  rw [Bool.or_eq_true]
  show ((decide (c.val ≥ 65) && decide (c.val ≤ 90)) = true ∨
    (decide (c.val ≥ 97) && decide (c.val ≤ 122)) = true) ↔ _
  rw [Bool.and_eq_true, Bool.and_eq_true, decide_eq_true_iff, decide_eq_true_iff,
    decide_eq_true_iff, decide_eq_true_iff]
  exact Iff.rfl

theorem toLower_isAlpha (c : Char) (h : c.isAlpha = true) : c.toLower.isAlpha = true := by
  rw [isAlpha_iff_toNat] at h ⊢
  rw [toLower_toNat]
  by_cases h65 : 65 ≤ c.toNat ∧ c.toNat ≤ 90
  · rw [if_pos h65]
    omega
  · rw [if_neg h65]
    omega

theorem toLower_eq_self_of_not_upper (c : Char) (h : ¬(65 ≤ c.toNat ∧ c.toNat ≤ 90)) :
    c.toLower = c := by
  apply char_eq_of_toNat_eq
  rw [toLower_toNat, if_neg h]

theorem toLower_isSchemeChar (c : Char) (h : isSchemeChar c = true) :
    isSchemeChar c.toLower = true := by
  by_cases hu : 65 ≤ c.toNat ∧ c.toNat ≤ 90
  · have halpha : c.toLower.isAlpha = true := by
      rw [isAlpha_iff_toNat, toLower_toNat, if_pos hu]
      omega
    simp [isSchemeChar, halpha]
  · rw [toLower_eq_self_of_not_upper c hu]
    exact h

theorem map_toLower_idem (l : List Char) :
    (l.map Char.toLower).map Char.toLower = l.map Char.toLower := by
  rw [List.map_map]
  exact List.map_congr_left (fun a _ => toLower_toLower a)

theorem unsafe_char_cases (c : Char) (h : isUnsafeUrlChar c = true) :
    c = '\t' ∨ c = '\r' ∨ c = '\n' := by
  simp only [isUnsafeUrlChar, Bool.or_eq_true, beq_iff_eq] at h
  tauto

theorem schemeChar_not_unsafe (c : Char) (h : isSchemeChar c = true) :
    isUnsafeUrlChar c = false := by
  cases hu : isUnsafeUrlChar c with
  | false => rfl
  | true =>
    rcases unsafe_char_cases c hu with hc | hc | hc <;> subst hc <;> exact absurd h (by decide)

theorem schemeChar_ne_colon (c : Char) (h : isSchemeChar c = true) : c ≠ ':' := by
  intro hc
  subst hc
  exact absurd h (by decide)

theorem alpha_not_c0 (c : Char) (h : c.isAlpha = true) : isC0Space c = false := by
  rw [isAlpha_iff_toNat] at h
  show decide (c.toNat ≤ 0x20) = false
  rw [decide_eq_false_iff_not]
  omega

/-! Characterizations of the split helpers. -/

theorem splitAtFirst_eq (c : Char) :
    ∀ (l a b : List Char), splitAtFirst c l = some (a, b) → l = a ++ c :: b ∧ c ∉ a := by
  intro l
  induction l with
  | nil => intro a b h; cases h
  | cons x xs ih =>
    intro a b h
    rw [splitAtFirst] at h
    by_cases hx : (x == c) = true
    · rw [if_pos hx] at h
      cases h
      have hxc : x = c := by simpa using hx
      subst hxc
      exact ⟨rfl, by simp⟩
    · rw [if_neg hx] at h
      cases hs : splitAtFirst c xs with
      | none => rw [hs] at h; cases h
      | some p =>
        rw [hs] at h
        cases h
        obtain ⟨h1, h2⟩ := ih p.1 p.2 (by rw [hs])
        refine ⟨by rw [List.cons_append, ← h1], ?_⟩
        intro hm
        rcases List.mem_cons.mp hm with hm | hm
        · exact absurd (by simpa using hm.symm) hx
        · exact h2 hm

theorem splitAtFirst_none (c : Char) :
    ∀ (l : List Char), c ∉ l → splitAtFirst c l = none := by
  intro l
  induction l with
  | nil => intro _; rfl
  | cons x xs ih =>
    intro h
    rw [splitAtFirst, if_neg (by simp; intro hx; exact h (by simp [hx]))]
    rw [ih (fun hm => h (by simp [hm]))]

theorem splitAtFirst_of_front (c : Char) :
    ∀ (pre rest : List Char), c ∉ pre →
      splitAtFirst c (pre ++ c :: rest) = some (pre, rest) := by
  intro pre
  induction pre with
  | nil =>
    intro rest _
    rw [List.nil_append, splitAtFirst, if_pos (by simp)]
  | cons x xs ih =>
    intro rest h
    rw [List.cons_append, splitAtFirst,
      if_neg (by simp; intro hx; exact h (by simp [hx])),
      ih rest (fun hm => h (by simp [hm]))]

theorem splitAtLast_ne_none (c : Char) :
    ∀ (l : List Char), c ∈ l → splitAtLast c l ≠ none := by
  intro l
  induction l with
  | nil => intro h; cases h
  | cons x xs ih =>
    intro h hn
    rw [splitAtLast] at hn
    cases hs : splitAtLast c xs with
    | some p => rw [hs] at hn; cases hn
    | none =>
      rw [hs] at hn
      rcases List.mem_cons.mp h with hx | hx
      · rw [if_pos (by simp [hx.symm])] at hn
        cases hn
      · exact ih hx hs

theorem splitAtLast_eq (c : Char) :
    ∀ (l a b : List Char), splitAtLast c l = some (a, b) → l = a ++ c :: b ∧ c ∉ b := by
  intro l
  induction l with
  | nil => intro a b h; cases h
  | cons x xs ih =>
    intro a b h
    rw [splitAtLast] at h
    cases hs : splitAtLast c xs with
    | some p =>
      rw [hs] at h
      cases h
      obtain ⟨h1, h2⟩ := ih p.1 p.2 (by rw [hs])
      exact ⟨by rw [List.cons_append, ← h1], h2⟩
    | none =>
      rw [hs] at h
      by_cases hx : (x == c) = true
      · rw [if_pos hx] at h
        cases h
        have hxc : x = c := by simpa using hx
        subst hxc
        exact ⟨rfl, fun hm => splitAtLast_ne_none _ _ hm hs⟩
      · rw [if_neg hx] at h
        cases h

theorem splitAtLast_none (c : Char) :
    ∀ (l : List Char), c ∉ l → splitAtLast c l = none := by
  intro l
  induction l with
  | nil => intro _; rfl
  | cons x xs ih =>
    intro h
    rw [splitAtLast, ih (fun hm => h (by simp [hm])),
      if_neg (by simp; intro hx; exact h (by simp [hx]))]

theorem splitAtLast_of_suffix (c : Char) :
    ∀ (pre suf : List Char), c ∉ suf →
      splitAtLast c (pre ++ c :: suf) = some (pre, suf) := by
  intro pre
  induction pre with
  | nil =>
    intro suf h
    rw [List.nil_append, splitAtLast, splitAtLast_none c suf h, if_pos (by simp)]
  | cons x xs ih =>
    intro suf h
    rw [List.cons_append, splitAtLast, ih suf h]

theorem splitAtFirst_ne_none (c : Char) :
    ∀ (l : List Char), c ∈ l → splitAtFirst c l ≠ none := by
  intro l
  induction l with
  | nil => intro h; cases h
  | cons x xs ih =>
    intro h hn
    rw [splitAtFirst] at hn
    by_cases hx : (x == c) = true
    · rw [if_pos hx] at hn
      cases hn
    · rw [if_neg hx] at hn
      cases hs : splitAtFirst c xs with
      | some p => rw [hs] at hn; cases hn
      | none =>
        rcases List.mem_cons.mp h with hxc | hxc
        · exact hx (by simp [hxc.symm])
        · exact ih hxc hs

theorem extractScheme_of_scheme (k rest : List Char) (hk : k ≠ [])
    (halpha : (k.headD ' ').isAlpha = true) (hall : k.all isSchemeChar = true) :
    extractScheme (k ++ ':' :: rest) = some (k.map Char.toLower, rest) := by
  have hnc : ':' ∉ k := by
    intro hm
    exact schemeChar_ne_colon ':' (List.all_eq_true.mp hall ':' hm) rfl
  unfold extractScheme
  rw [splitAtFirst_of_front ':' k rest hnc]
  cases k with
  | nil => exact absurd rfl hk
  | cons c cs =>
    dsimp only
    rw [if_pos (show (c.isAlpha && (c :: cs).all isSchemeChar) = true from by
      rw [Bool.and_eq_true]
      exact ⟨halpha, hall⟩)]

theorem dropWhile_eq_self_of_head {α : Type} (p : α → Bool) (c : α) (t : List α)
    (h : p c = false) : (c :: t).dropWhile p = c :: t := by
  rw [List.dropWhile_cons, if_neg (by simp [h])]

theorem clean_noop_scheme (sc rest : List Char) (hsc : sc ≠ [])
    (halpha : (sc.headD ' ').isAlpha = true)
    (hu : ∀ c ∈ sc ++ ':' :: rest, isUnsafeUrlChar c = false) :
    ((sc ++ ':' :: rest).filter (fun c => !isUnsafeUrlChar c)).dropWhile isC0Space =
      sc ++ ':' :: rest := by
  rw [List.filter_eq_self.mpr (fun a ha => by simp [hu a ha])]
  cases sc with
  | nil => exact absurd rfl hsc
  | cons c t =>
    rw [List.cons_append]
    exact dropWhile_eq_self_of_head isC0Space c _ (alpha_not_c0 c halpha)

/-- The path has no `';'` at or after its last `'/'`: the condition under
which `_splitparams` leaves it unchanged. -/
def semiFreeTail (path : List Char) : Prop :=
  match splitAtLast '/' path with
  | some (_, b) => ';' ∉ b
  | none => ';' ∉ path

theorem splitParams_self (path : List Char) (hns : semiFreeTail path) :
    splitParams path = (path, []) := by
  unfold splitParams
  cases hs : splitAtLast '/' path with
  | some pr =>
    obtain ⟨a, b⟩ := pr
    have hnsb : ';' ∉ b := by
      unfold semiFreeTail at hns
      rw [hs] at hns
      exact hns
    dsimp only
    rw [splitAtFirst_none ';' b hnsb]
  | none =>
    have hns' : ';' ∉ path := by
      unfold semiFreeTail at hns
      rw [hs] at hns
      exact hns
    dsimp only
    rw [splitAtFirst_none ';' path hns']

theorem splitParams_recover (path params : List Char)
    (hslash : '/' ∉ params) (hns : semiFreeTail path) :
    splitParams (path ++ ';' :: params) = (path, params) := by
  unfold splitParams
  cases hs : splitAtLast '/' path with
  | some pr =>
    obtain ⟨a, b⟩ := pr
    obtain ⟨hchar, hnb⟩ := splitAtLast_eq '/' path a b hs
    have hnsb : ';' ∉ b := by
      unfold semiFreeTail at hns
      rw [hs] at hns
      exact hns
    have h2 : splitAtLast '/' (path ++ ';' :: params) = some (a, b ++ ';' :: params) := by
      rw [hchar, List.append_assoc, List.cons_append]
      exact splitAtLast_of_suffix '/' a (b ++ ';' :: params) (by
        intro hm
        rcases List.mem_append.mp hm with hm | hm
        · exact hnb hm
        · rcases List.mem_cons.mp hm with hm | hm
          · exact absurd hm (by decide)
          · exact hslash hm)
    rw [h2]
    dsimp only
    rw [splitAtFirst_of_front ';' b params hnsb]
    dsimp only
    rw [hchar]
  | none =>
    have hnp : '/' ∉ path := fun hm => splitAtLast_ne_none '/' path hm hs
    have hns' : ';' ∉ path := by
      unfold semiFreeTail at hns
      rw [hs] at hns
      exact hns
    have h2 : splitAtLast '/' (path ++ ';' :: params) = none :=
      splitAtLast_none '/' _ (by
        intro hm
        rcases List.mem_append.mp hm with hm | hm
        · exact hnp hm
        · rcases List.mem_cons.mp hm with hm | hm
          · exact absurd hm (by decide)
          · exact hslash hm)
    rw [h2]
    dsimp only
    rw [splitAtFirst_of_front ';' path params hns']

/-- Assembling `urlsplit` on a well-formed `scheme:...` string. -/
theorem urlsplitD_assemble (sc nl pa d u1 : List Char)
    (hclean : ((sc ++ ':' :: u1).filter (fun c => !isUnsafeUrlChar c)).dropWhile isC0Space =
      sc ++ ':' :: u1)
    (hex : extractScheme (sc ++ ':' :: u1) = some (sc, u1))
    (hnp : (if u1.take 2 = ['/', '/'] then
        ((u1.drop 2).takeWhile (fun c => !isNetlocEnd c),
         (u1.drop 2).dropWhile (fun c => !isNetlocEnd c))
      else ([], u1)) = (nl, pa))
    (hbr : bracketBad nl = false)
    (hph : '#' ∉ pa) (hpq : '?' ∉ pa) :
    urlsplitD (sc ++ ':' :: u1) d = some ⟨sc, nl, pa, [], []⟩ := by
  unfold urlsplitD
  rw [hclean]
  dsimp only
  rw [hex]
  dsimp only
  rw [hnp]
  dsimp only
  rw [if_neg (by simp [hbr]), splitAtFirst_none '#' pa hph]
  dsimp only
  rw [splitAtFirst_none '?' pa hpq]

theorem mem_clean (url : List Char) (c : Char)
    (hc : c ∈ (url.filter (fun c => !isUnsafeUrlChar c)).dropWhile isC0Space) :
    isUnsafeUrlChar c = false := by
  have h1 : c ∈ url.filter (fun c => !isUnsafeUrlChar c) :=
    (List.dropWhile_sublist _).subset hc
  have h2 := (List.mem_filter.mp h1).2
  simpa using h2

theorem netlocEnd_cases (c : Char) (h : isNetlocEnd c = true) :
    c = '/' ∨ c = '?' ∨ c = '#' := by
  simp only [isNetlocEnd, Bool.or_eq_true, beq_iff_eq] at h
  tauto

theorem splitF_facts (c : Char) (l x y : List Char)
    (h : (match splitAtFirst c l with
          | some (a, b) => (a, b)
          | none => (l, [])) = (x, y)) :
    (l = x ++ c :: y ∨ (x = l ∧ y = [])) ∧ c ∉ x := by
  cases hs : splitAtFirst c l with
  | some p =>
    obtain ⟨a, b⟩ := p
    rw [hs] at h
    dsimp only at h
    cases h
    obtain ⟨h1, h2⟩ := splitAtFirst_eq c l x y hs
    exact ⟨Or.inl h1, h2⟩
  | none =>
    rw [hs] at h
    dsimp only at h
    cases h
    exact ⟨Or.inr ⟨rfl, rfl⟩, fun hm => splitAtFirst_ne_none c l hm hs⟩

/-- Facts delivered by the fragment/query stage of `urlsplit`. -/
theorem fq_assemble (sc NL D : List Char) (s : SplitResult)
    (hD : ∀ c ∈ D, isUnsafeUrlChar c = false)
    (hNL : ∀ c ∈ NL, isNetlocEnd c = false ∧ isUnsafeUrlChar c = false)
    (hbr : bracketBad NL = false)
    (hslash : NL ≠ [] → D = [] ∨ isNetlocEnd (D.headD ' ') = true)
    (h : (let fg :=
            match splitAtFirst '#' D with
            | some (a, b) => (a, b)
            | none => (D, [])
          let qr :=
            match splitAtFirst '?' fg.1 with
            | some (a, b) => (a, b)
            | none => (fg.1, [])
          some (⟨sc, NL, qr.1, qr.2, fg.2⟩ : SplitResult)) = some s) :
    s.scheme = sc ∧ s.netloc = NL ∧
    (∀ c ∈ s.netloc, isNetlocEnd c = false ∧ isUnsafeUrlChar c = false) ∧
    bracketBad s.netloc = false ∧
    (∀ c ∈ s.path, isUnsafeUrlChar c = false) ∧ '#' ∉ s.path ∧ '?' ∉ s.path ∧
    (∀ c ∈ s.query, isUnsafeUrlChar c = false) ∧ '#' ∉ s.query ∧
    (∀ c ∈ s.fragment, isUnsafeUrlChar c = false) ∧
    (s.netloc ≠ [] → s.path = [] ∨ s.path.take 1 = ['/']) := by
  dsimp only at h
  obtain ⟨hfga, hfgb⟩ := splitF_facts '#' D
    (match splitAtFirst '#' D with
     | some (a, b) => (a, b)
     | none => (D, [])).1
    (match splitAtFirst '#' D with
     | some (a, b) => (a, b)
     | none => (D, [])).2 rfl
  set m1 := (match splitAtFirst '#' D with
     | some (a, b) => (a, b)
     | none => (D, [])).1 with hm1
  set f0 := (match splitAtFirst '#' D with
     | some (a, b) => (a, b)
     | none => (D, [])).2 with hf0
  obtain ⟨hqra, hqrb⟩ := splitF_facts '?' m1
    (match splitAtFirst '?' m1 with
     | some (a, b) => (a, b)
     | none => (m1, [])).1
    (match splitAtFirst '?' m1 with
     | some (a, b) => (a, b)
     | none => (m1, [])).2 rfl
  set p0 := (match splitAtFirst '?' m1 with
     | some (a, b) => (a, b)
     | none => (m1, [])).1 with hp0
  set q0 := (match splitAtFirst '?' m1 with
     | some (a, b) => (a, b)
     | none => (m1, [])).2 with hq0
  have hm1D : ∀ c ∈ m1, c ∈ D := by
    intro c hc
    rcases hfga with h1 | h1
    · rw [h1]
      simp [hc]
    · rw [← h1.1]
      exact hc
  have hp0m1 : ∀ c ∈ p0, c ∈ m1 := by
    intro c hc
    rcases hqra with h1 | h1
    · rw [h1]
      simp [hc]
    · rw [← h1.1]
      exact hc
  have hq0m1 : ∀ c ∈ q0, c ∈ m1 := by
    intro c hc
    rcases hqra with h1 | h1
    · rw [h1]
      simp [hc]
    · rw [h1.2] at hc
      cases hc
  have hf0D : ∀ c ∈ f0, c ∈ D := by
    intro c hc
    rcases hfga with h1 | h1
    · rw [h1]
      simp [hc]
    · rw [h1.2] at hc
      cases hc
  have hDdecomp : ∃ R, D = p0 ++ R := by
    rcases hqra with h1 | h1
    · rcases hfga with h2 | h2
      · exact ⟨'?' :: q0 ++ '#' :: f0, by rw [h2, h1, List.append_assoc]⟩
      · exact ⟨'?' :: q0, by rw [← h2.1, h1]⟩
    · rcases hfga with h2 | h2
      · exact ⟨'#' :: f0, by rw [h2, h1.1]⟩
      · exact ⟨[], by rw [List.append_nil, ← h2.1, h1.1]⟩
  cases h
  refine ⟨rfl, rfl, hNL, hbr, ?_, ?_, hqrb, ?_, ?_, ?_, ?_⟩
  · exact fun c hc => hD c (hm1D c (hp0m1 c hc))
  · exact fun hm => hfgb (hp0m1 '#' hm)
  · exact fun c hc => hD c (hm1D c (hq0m1 c hc))
  · exact fun hm => hfgb (hq0m1 '#' hm)
  · exact fun c hc => hD c (hf0D c hc)
  · intro hNLne
    cases hp : p0 with
    | nil => exact Or.inl rfl
    | cons c t =>
      right
      obtain ⟨R, hR⟩ := hDdecomp
      rcases hslash hNLne with hD0 | hD0
      · rw [hD0, hp] at hR
        cases hR
      · have hcval : isNetlocEnd c = true := by
          rw [hR, hp] at hD0
          simpa using hD0
        rcases netlocEnd_cases c hcval with hc | hc | hc
        · subst hc
          rfl
        · subst hc
          exact absurd (by rw [hp]; exact List.mem_cons_self _ _) hqrb
        · subst hc
          exact absurd (hp0m1 '#' (by rw [hp]; exact List.mem_cons_self _ _)) hfgb

theorem contains_char_iff (l : List Char) (a : Char) : l.contains a = true ↔ a ∈ l := by
  simp [List.contains, List.elem_iff]

theorem semiFreeTail_of_not_mem (path : List Char) (h : ';' ∉ path) : semiFreeTail path := by
  unfold semiFreeTail
  cases hs : splitAtLast '/' path with
  | some pr =>
    obtain ⟨a, b⟩ := pr
    obtain ⟨h1, _⟩ := splitAtLast_eq '/' path a b hs
    dsimp only
    intro hm
    exact h (by rw [h1]; simp [hm])
  | none => exact h

theorem take_one_append_cons (a : List Char) (c : Char) (z z2 : List Char) :
    (a ++ c :: z).take 1 = (a ++ c :: z2).take 1 := by
  cases a <;> rfl

theorem mem_of_take_one (l : List Char) (c : Char) (h : l.take 1 = [c]) : c ∈ l := by
  cases l with
  | nil => cases h
  | cons d t =>
    have hd : d = c := by
      have h1 : (d :: t).take 1 = [d] := rfl
      rw [h1] at h
      cases h
      rfl
    subst hd
    exact List.mem_cons_self _ _

/-- Facts delivered by the netloc stage of `urlsplit`. -/
theorem urlsplit_tail_facts (sc r : List Char) (s : SplitResult)
    (hrmem : ∀ c ∈ r, isUnsafeUrlChar c = false)
    (h : (let np :=
            if r.take 2 = ['/', '/'] then
              ((r.drop 2).takeWhile (fun c => !isNetlocEnd c),
               (r.drop 2).dropWhile (fun c => !isNetlocEnd c))
            else ([], r)
          if bracketBad np.1 = true then none
          else
            let fg :=
              match splitAtFirst '#' np.2 with
              | some (a, b) => (a, b)
              | none => (np.2, [])
            let qr :=
              match splitAtFirst '?' fg.1 with
              | some (a, b) => (a, b)
              | none => (fg.1, [])
            some (⟨sc, np.1, qr.1, qr.2, fg.2⟩ : SplitResult)) = some s) :
    s.scheme = sc ∧
    (∀ c ∈ s.netloc, isNetlocEnd c = false ∧ isUnsafeUrlChar c = false) ∧
    bracketBad s.netloc = false ∧
    (∀ c ∈ s.path, isUnsafeUrlChar c = false) ∧ '#' ∉ s.path ∧ '?' ∉ s.path ∧
    (∀ c ∈ s.query, isUnsafeUrlChar c = false) ∧ '#' ∉ s.query ∧
    (∀ c ∈ s.fragment, isUnsafeUrlChar c = false) ∧
    (s.netloc ≠ [] → s.path = [] ∨ s.path.take 1 = ['/']) := by
  dsimp only at h
  by_cases hc2 : r.take 2 = ['/', '/']
  · rw [if_pos hc2] at h
    by_cases hbb : bracketBad ((r.drop 2).takeWhile (fun c => !isNetlocEnd c)) = true
    · rw [if_pos hbb] at h
      cases h
    · rw [if_neg hbb] at h
      have hD : ∀ c ∈ (r.drop 2).dropWhile (fun c => !isNetlocEnd c),
          isUnsafeUrlChar c = false := fun c hc =>
        hrmem c ((List.drop_sublist 2 r).subset ((List.dropWhile_sublist _).subset hc))
      have hNL : ∀ c ∈ (r.drop 2).takeWhile (fun c => !isNetlocEnd c),
          isNetlocEnd c = false ∧ isUnsafeUrlChar c = false := by
        intro c hc
        constructor
        · have := List.mem_takeWhile_imp hc
          simpa using this
        · exact hrmem c ((List.drop_sublist 2 r).subset
            ((List.takeWhile_prefix _).sublist.subset hc))
      have hsl : (r.drop 2).takeWhile (fun c => !isNetlocEnd c) ≠ [] →
          (r.drop 2).dropWhile (fun c => !isNetlocEnd c) = [] ∨
          isNetlocEnd (((r.drop 2).dropWhile (fun c => !isNetlocEnd c)).headD ' ') = true := by
        intro _
        cases hD2 : (r.drop 2).dropWhile (fun c => !isNetlocEnd c) with
        | nil => exact Or.inl rfl
        | cons c t =>
          right
          have := dropWhile_head_false (fun c => !isNetlocEnd c) (r.drop 2) c t hD2
          simpa using this
      obtain ⟨h1, _, rest⟩ := fq_assemble sc _ _ s hD hNL (by simpa using hbb) hsl h
      exact ⟨h1, rest⟩
  · rw [if_neg hc2] at h
    obtain ⟨h1, _, rest⟩ := fq_assemble sc [] r s hrmem
      (fun c hc => absurd hc (List.not_mem_nil c)) (by decide)
      (fun hne => absurd rfl hne) h
    exact ⟨h1, rest⟩

/-- The invariants of a successful `urlsplit`. -/
theorem urlsplitD_facts (url dflt : List Char) (s : SplitResult)
    (h : urlsplitD url dflt = some s) :
    (s.scheme = dflt ∨ (s.scheme ≠ [] ∧ s.scheme.all isSchemeChar = true ∧
      (s.scheme.headD ' ').isAlpha = true ∧ s.scheme.map Char.toLower = s.scheme)) ∧
    (∀ c ∈ s.netloc, isNetlocEnd c = false ∧ isUnsafeUrlChar c = false) ∧
    bracketBad s.netloc = false ∧
    (∀ c ∈ s.path, isUnsafeUrlChar c = false) ∧ '#' ∉ s.path ∧ '?' ∉ s.path ∧
    (∀ c ∈ s.query, isUnsafeUrlChar c = false) ∧ '#' ∉ s.query ∧
    (∀ c ∈ s.fragment, isUnsafeUrlChar c = false) ∧
    (s.netloc ≠ [] → s.path = [] ∨ s.path.take 1 = ['/']) := by
  unfold urlsplitD at h
  dsimp only at h
  set u0 := (url.filter (fun c => !isUnsafeUrlChar c)).dropWhile isC0Space with hu0
  have hu0mem : ∀ c ∈ u0, isUnsafeUrlChar c = false := fun c hc =>
    mem_clean url c (by rw [← hu0]; exact hc)
  cases hex : extractScheme u0 with
  | none =>
    rw [hex] at h
    dsimp only at h
    obtain ⟨h1, rest⟩ := urlsplit_tail_facts dflt u0 s hu0mem h
    exact ⟨Or.inl h1, rest⟩
  | some kr =>
    obtain ⟨k, r⟩ := kr
    rw [hex] at h
    dsimp only at h
    unfold extractScheme at hex
    cases hsp : splitAtFirst ':' u0 with
    | none =>
      rw [hsp] at hex
      cases hex
    | some pp =>
      obtain ⟨pre, post⟩ := pp
      rw [hsp] at hex
      dsimp only at hex
      cases pre with
      | nil => cases hex
      | cons c cs =>
        dsimp only at hex
        by_cases hcond : (c.isAlpha && (c :: cs).all isSchemeChar) = true
        · rw [if_pos hcond] at hex
          cases hex
          obtain ⟨hdec, _⟩ := splitAtFirst_eq ':' u0 (c :: cs) r hsp
          have hrmem : ∀ x ∈ r, isUnsafeUrlChar x = false := fun x hx =>
            hu0mem x (by rw [hdec]; simp [hx])
          obtain ⟨hsc, rest⟩ := urlsplit_tail_facts _ _ s hrmem h
          rw [Bool.and_eq_true] at hcond
          refine ⟨Or.inr ?_, rest⟩
          rw [hsc]
          refine ⟨by simp, ?_, ?_, map_toLower_idem _⟩
          · rw [List.all_eq_true]
            intro y hy
            obtain ⟨x, hx, hxy⟩ := List.mem_map.mp hy
            rw [← hxy]
            exact toLower_isSchemeChar x (List.all_eq_true.mp hcond.2 x hx)
          · show ((c.toLower :: cs.map Char.toLower).headD ' ').isAlpha = true
            exact toLower_isAlpha c hcond.1
        · rw [if_neg hcond] at hex
          cases hex

/-- The invariants of a successful `urlparse`; the last clause constrains the
path component as re-composed by `urlunparse`. -/
theorem urlparseD_facts (url dflt : List Char) (p : ParseResult)
    (h : urlparseD url dflt = some p) :
    (p.scheme = dflt ∨ (p.scheme ≠ [] ∧ p.scheme.all isSchemeChar = true ∧
      (p.scheme.headD ' ').isAlpha = true ∧ p.scheme.map Char.toLower = p.scheme)) ∧
    (∀ c ∈ p.netloc, isNetlocEnd c = false ∧ isUnsafeUrlChar c = false) ∧
    bracketBad p.netloc = false ∧
    (∀ c ∈ p.path, isUnsafeUrlChar c = false) ∧ '#' ∉ p.path ∧ '?' ∉ p.path ∧
    (∀ c ∈ p.params, isUnsafeUrlChar c = false) ∧ '#' ∉ p.params ∧ '?' ∉ p.params ∧
    '/' ∉ p.params ∧ semiFreeTail p.path ∧
    (∀ c ∈ p.query, isUnsafeUrlChar c = false) ∧ '#' ∉ p.query ∧
    (∀ c ∈ p.fragment, isUnsafeUrlChar c = false) ∧
    (p.netloc ≠ [] →
      (if p.params ≠ [] then p.path ++ ';' :: p.params else p.path) = [] ∨
      (if p.params ≠ [] then p.path ++ ';' :: p.params else p.path).take 1 = ['/']) := by
  unfold urlparseD at h
  cases hs : urlsplitD url dflt with
  | none =>
    rw [hs] at h
    cases h
  | some s0 =>
    rw [hs] at h
    dsimp only at h
    obtain ⟨f1, f2, f3, f4, f5, f6, f7, f8, f9, f10⟩ := urlsplitD_facts url dflt s0 hs
    by_cases hsemi : s0.path.contains ';' = true
    · rw [if_pos hsemi] at h
      unfold splitParams at h
      cases hsl : splitAtLast '/' s0.path with
      | some ab =>
        obtain ⟨a, b⟩ := ab
        obtain ⟨hdec, hnb⟩ := splitAtLast_eq '/' s0.path a b hsl
        rw [hsl] at h
        dsimp only at h
        cases hsf : splitAtFirst ';' b with
        | some xy =>
          obtain ⟨x, y⟩ := xy
          obtain ⟨hdec2, hnx⟩ := splitAtFirst_eq ';' b x y hsf
          rw [hsf] at h
          dsimp only at h
          cases h
          have hmem_path : ∀ cc ∈ a ++ '/' :: x, cc ∈ s0.path := by
            intro cc hc
            rw [hdec, hdec2]
            rcases List.mem_append.mp hc with hc | hc
            · simp [hc]
            · rcases List.mem_cons.mp hc with hc | hc
              · simp [hc]
              · simp [hc]
          have hmem_params : ∀ cc ∈ y, cc ∈ s0.path := by
            intro cc hc
            rw [hdec, hdec2]
            simp [hc]
          have hsemi_free : semiFreeTail (a ++ '/' :: x) := by
            unfold semiFreeTail
            rw [splitAtLast_of_suffix '/' a x (fun hm => hnb (by rw [hdec2]; simp [hm]))]
            exact hnx
          refine ⟨f1, f2, f3, ?_, ?_, ?_, ?_, ?_, ?_, ?_, hsemi_free, f7, f8, f9, ?_⟩
          · exact fun cc hc => f4 cc (hmem_path cc hc)
          · exact fun hm => f5 (hmem_path '#' hm)
          · exact fun hm => f6 (hmem_path '?' hm)
          · exact fun cc hc => f4 cc (hmem_params cc hc)
          · exact fun hm => f5 (hmem_params '#' hm)
          · exact fun hm => f6 (hmem_params '?' hm)
          · intro hm
            exact hnb (by rw [hdec2]; simp [hm])
          · intro hnl
            rcases f10 hnl with h0 | h0
            · rw [h0] at hdec
              cases (List.append_ne_nil_of_right_ne_nil a (by simp) hdec.symm)
            · right
              by_cases hy : y ≠ []
              · rw [if_pos hy]
                rw [hdec] at h0
                rw [List.append_assoc]
                calc (a ++ ('/' :: x ++ ';' :: y)).take 1
                    = (a ++ '/' :: (x ++ ';' :: y)).take 1 := by rw [List.cons_append]
                  _ = (a ++ '/' :: b).take 1 := take_one_append_cons a '/' _ _
                  _ = ['/'] := h0
              · rw [if_neg hy]
                rw [hdec] at h0
                calc (a ++ '/' :: x).take 1
                    = (a ++ '/' :: b).take 1 := take_one_append_cons a '/' _ _
                  _ = ['/'] := h0
        | none =>
          rw [hsf] at h
          dsimp only at h
          cases h
          have hns : ';' ∉ b := fun hm => splitAtFirst_ne_none ';' b hm hsf
          refine ⟨f1, f2, f3, f4, f5, f6, ?_, ?_, ?_, ?_, ?_, f7, f8, f9, ?_⟩
          · intro cc hc
            cases hc
          · simp
          · simp
          · simp
          · unfold semiFreeTail
            rw [hsl]
            exact hns
          · intro hnl
            rw [if_neg (by simp)]
            exact f10 hnl
      | none =>
        have hnsl : '/' ∉ s0.path := fun hm => splitAtLast_ne_none '/' s0.path hm hsl
        rw [hsl] at h
        dsimp only at h
        cases hsf : splitAtFirst ';' s0.path with
        | some xy =>
          obtain ⟨x, y⟩ := xy
          obtain ⟨hdec2, hnx⟩ := splitAtFirst_eq ';' s0.path x y hsf
          rw [hsf] at h
          dsimp only at h
          cases h
          have hmem_path : ∀ cc ∈ x, cc ∈ s0.path := by
            intro cc hc
            rw [hdec2]
            simp [hc]
          have hmem_params : ∀ cc ∈ y, cc ∈ s0.path := by
            intro cc hc
            rw [hdec2]
            simp [hc]
          refine ⟨f1, f2, f3, ?_, ?_, ?_, ?_, ?_, ?_, ?_, ?_, f7, f8, f9, ?_⟩
          · exact fun cc hc => f4 cc (hmem_path cc hc)
          · exact fun hm => f5 (hmem_path '#' hm)
          · exact fun hm => f6 (hmem_path '?' hm)
          · exact fun cc hc => f4 cc (hmem_params cc hc)
          · exact fun hm => f5 (hmem_params '#' hm)
          · exact fun hm => f6 (hmem_params '?' hm)
          · exact fun hm => hnsl (hmem_params '/' hm)
          · exact semiFreeTail_of_not_mem x hnx
          · intro hnl
            rcases f10 hnl with h0 | h0
            · rw [h0] at hdec2
              cases (List.append_ne_nil_of_right_ne_nil x (by simp) hdec2.symm)
            · exact absurd (mem_of_take_one _ _ h0) hnsl
        | none =>
          rw [hsf] at h
          dsimp only at h
          cases h
          have hns : ';' ∉ s0.path := fun hm => splitAtFirst_ne_none ';' s0.path hm hsf
          refine ⟨f1, f2, f3, f4, f5, f6, ?_, ?_, ?_, ?_, ?_, f7, f8, f9, ?_⟩
          · intro cc hc
            cases hc
          · simp
          · simp
          · simp
          · exact semiFreeTail_of_not_mem _ hns
          · intro hnl
            rw [if_neg (by simp)]
            exact f10 hnl
    · rw [if_neg hsemi] at h
      dsimp only at h
      cases h
      have hns : ';' ∉ s0.path := fun hm => hsemi ((contains_char_iff _ _).mpr hm)
      refine ⟨f1, f2, f3, f4, f5, f6, ?_, ?_, ?_, ?_, ?_, f7, f8, f9, ?_⟩
      · intro cc hc
        cases hc
      · simp
      · simp
      · simp
      · exact semiFreeTail_of_not_mem _ hns
      · intro hnl
        rw [if_neg (by simp)]
        exact f10 hnl

theorem take_two_eq_cons (l : List Char) (a b : Char) (h : l.take 2 = [a, b]) :
    ∃ t, l = a :: b :: t := by
  cases l with
  | nil => cases h
  | cons x xs =>
    cases xs with
    | nil => cases h
    | cons y ys =>
      have hx : x = a ∧ y = b := by
        have h1 : (x :: y :: ys).take 2 = [x, y] := rfl
        rw [h1] at h
        cases h
        exact ⟨rfl, rfl⟩
      exact ⟨ys, by rw [hx.1, hx.2]⟩

theorem take_one_eq_cons (l : List Char) (a : Char) (h : l.take 1 = [a]) :
    ∃ t, l = a :: t := by
  cases l with
  | nil => cases h
  | cons x xs =>
    have hx : x = a := by
      have h1 : (x :: xs).take 1 = [x] := rfl
      rw [h1] at h
      cases h
      rfl
    exact ⟨xs, by rw [hx]⟩

/-- `urlsplit ∘ urlunsplit` is the identity on a well-formed split result with
empty query and fragment. -/
theorem unsplit_parse (s : SplitResult) (d : List Char)
    (hs0 : s.scheme ≠ []) (hall : s.scheme.all isSchemeChar = true)
    (halpha : (s.scheme.headD ' ').isAlpha = true)
    (hlow : s.scheme.map Char.toLower = s.scheme)
    (hnet : ∀ c ∈ s.netloc, isNetlocEnd c = false ∧ isUnsafeUrlChar c = false)
    (hbr : bracketBad s.netloc = false)
    (hpu : ∀ c ∈ s.path, isUnsafeUrlChar c = false)
    (hph : '#' ∉ s.path) (hpq : '?' ∉ s.path)
    (hq : s.query = []) (hf : s.fragment = [])
    (hsl : s.netloc ≠ [] → s.path = [] ∨ s.path.take 1 = ['/']) :
    urlsplitD (urlunsplit s) d = some s := by
  obtain ⟨sc, nl, pa, q, f⟩ := s
  dsimp only at hs0 hall halpha hlow hnet hbr hpu hph hpq hq hf hsl
  subst hq hf
  have hU : urlunsplit ⟨sc, nl, pa, [], []⟩ =
      sc ++ ':' :: (if nl ≠ [] ∨ (pa ≠ [] ∧ pa.take 2 = ['/', '/']) then
        '/' :: '/' :: (nl ++ (if pa ≠ [] ∧ pa.take 1 ≠ ['/'] then '/' :: pa else pa))
      else pa) := by
    unfold urlunsplit
    dsimp only
    rw [if_neg (show ¬(([] : List Char) ≠ []) from fun hh => hh rfl),
      if_neg (show ¬(([] : List Char) ≠ []) from fun hh => hh rfl),
      if_pos hs0]
  rw [hU]
  by_cases hcond : nl ≠ [] ∨ (pa ≠ [] ∧ pa.take 2 = ['/', '/'])
  · rw [if_pos hcond]
    have hpa : pa = [] ∨ ∃ t, pa = '/' :: t := by
      rcases hcond with h1 | h1
      · rcases hsl h1 with h2 | h2
        · exact Or.inl h2
        · exact Or.inr (take_one_eq_cons pa '/' h2)
      · obtain ⟨t, ht⟩ := take_two_eq_cons pa '/' '/' h1.2
        exact Or.inr ⟨'/' :: t, ht⟩
    have hins : ¬(pa ≠ [] ∧ pa.take 1 ≠ ['/']) := by
      rcases hpa with h1 | ⟨t, h1⟩
      · exact fun hh => hh.1 h1
      · intro hh
        rw [h1] at hh
        exact hh.2 rfl
    rw [if_neg hins]
    have hwt : (nl ++ pa).takeWhile (fun c => !isNetlocEnd c) = nl ∧
        (nl ++ pa).dropWhile (fun c => !isNetlocEnd c) = pa := by
      have hnl0 : nl.dropWhile (fun c => !isNetlocEnd c) = [] :=
        List.dropWhile_eq_nil_iff.mpr (fun c hc => by simp [(hnet c hc).1])
      obtain ⟨h1, h2⟩ :=
        takeWhile_dropWhile_append_nil (fun c => !isNetlocEnd c) nl pa hnl0
      rcases hpa with h3 | ⟨t, h3⟩
      · subst h3
        exact ⟨by rw [h1, List.takeWhile_nil, List.append_nil],
          by rw [h2]; rfl⟩
      · subst h3
        constructor
        · rw [h1, List.takeWhile_cons, if_neg (by simp [isNetlocEnd]), List.append_nil]
        · rw [h2, List.dropWhile_cons, if_neg (by simp [isNetlocEnd])]
    apply urlsplitD_assemble
    · apply clean_noop_scheme sc _ hs0 halpha
      intro c hc
      rcases List.mem_append.mp hc with hc | hc
      · exact schemeChar_not_unsafe c (List.all_eq_true.mp hall c hc)
      · rcases List.mem_cons.mp hc with hc | hc
        · rw [hc]; rfl
        · rcases List.mem_cons.mp hc with hc | hc
          · rw [hc]; rfl
          · rcases List.mem_cons.mp hc with hc | hc
            · rw [hc]; rfl
            · rcases List.mem_append.mp hc with hc | hc
              · exact (hnet c hc).2
              · exact hpu c hc
    · rw [show extractScheme (sc ++ ':' :: ('/' :: '/' :: (nl ++ pa))) =
        some (sc.map Char.toLower, '/' :: '/' :: (nl ++ pa)) from
        extractScheme_of_scheme sc _ hs0 halpha hall, hlow]
    · rw [if_pos (show ('/' :: '/' :: (nl ++ pa)).take 2 = ['/', '/'] from rfl)]
      rw [show ('/' :: '/' :: (nl ++ pa)).drop 2 = nl ++ pa from rfl, hwt.1, hwt.2]
    · exact hbr
    · exact hph
    · exact hpq
  · rw [if_neg hcond]
    push_neg at hcond
    obtain ⟨hnl, hpa2⟩ := hcond
    subst hnl
    apply urlsplitD_assemble
    · apply clean_noop_scheme sc _ hs0 halpha
      intro c hc
      rcases List.mem_append.mp hc with hc | hc
      · exact schemeChar_not_unsafe c (List.all_eq_true.mp hall c hc)
      · rcases List.mem_cons.mp hc with hc | hc
        · rw [hc]; rfl
        · exact hpu c hc
    · rw [show extractScheme (sc ++ ':' :: pa) =
        some (sc.map Char.toLower, pa) from
        extractScheme_of_scheme sc _ hs0 halpha hall, hlow]
    · rw [if_neg (show ¬(pa.take 2 = ['/', '/']) from by
        intro h2
        cases hp : pa with
        | nil => rw [hp] at h2; cases h2
        | cons x xs => exact hpa2 (by rw [hp]; simp) h2)]
    · exact hbr
    · exact hph
    · exact hpq

/-- `urlparse ∘ urlunparse` is the identity on a well-formed parse result with
empty query and fragment; any scheme default gives the same result, because
the scheme of such a record is always re-extracted. -/
theorem unparse_parse (p : ParseResult) (d : List Char)
    (hs0 : p.scheme ≠ []) (hall : p.scheme.all isSchemeChar = true)
    (halpha : (p.scheme.headD ' ').isAlpha = true)
    (hlow : p.scheme.map Char.toLower = p.scheme)
    (hnet : ∀ c ∈ p.netloc, isNetlocEnd c = false ∧ isUnsafeUrlChar c = false)
    (hbr : bracketBad p.netloc = false)
    (hpu : ∀ c ∈ p.path, isUnsafeUrlChar c = false)
    (hph : '#' ∉ p.path) (hpq : '?' ∉ p.path)
    (hpru : ∀ c ∈ p.params, isUnsafeUrlChar c = false)
    (hprh : '#' ∉ p.params) (hprq : '?' ∉ p.params) (hprs : '/' ∉ p.params)
    (hsemi : semiFreeTail p.path)
    (hq : p.query = []) (hf : p.fragment = [])
    (hsl : p.netloc ≠ [] →
      (if p.params ≠ [] then p.path ++ ';' :: p.params else p.path) = [] ∨
      (if p.params ≠ [] then p.path ++ ';' :: p.params else p.path).take 1 = ['/']) :
    urlparseD (urlunparse p) d = some p := by
  obtain ⟨sc, nl, pa, pr, q, f⟩ := p
  dsimp only at hs0 hall halpha hlow hnet hbr hpu hph hpq hpru hprh hprq hprs hsemi hq hf hsl
  subst hq hf
  have hsplit : urlsplitD (urlunparse ⟨sc, nl, pa, pr, [], []⟩) d =
      some ⟨sc, nl, (if pr ≠ [] then pa ++ ';' :: pr else pa), [], []⟩ := by
    apply unsplit_parse ⟨sc, nl, (if pr ≠ [] then pa ++ ';' :: pr else pa), [], []⟩ d hs0
      hall halpha hlow hnet hbr
    · intro c hc
      by_cases hpr : pr ≠ []
      · rw [if_pos hpr] at hc
        rcases List.mem_append.mp hc with hc | hc
        · exact hpu c hc
        · rcases List.mem_cons.mp hc with hc | hc
          · rw [hc]; rfl
          · exact hpru c hc
      · rw [if_neg hpr] at hc
        exact hpu c hc
    · by_cases hpr : pr ≠ []
      · rw [if_pos hpr]
        intro hm
        rcases List.mem_append.mp hm with hm | hm
        · exact hph hm
        · rcases List.mem_cons.mp hm with hm | hm
          · cases hm
          · exact hprh hm
      · rw [if_neg hpr]
        exact hph
    · by_cases hpr : pr ≠ []
      · rw [if_pos hpr]
        intro hm
        rcases List.mem_append.mp hm with hm | hm
        · exact hpq hm
        · rcases List.mem_cons.mp hm with hm | hm
          · cases hm
          · exact hprq hm
      · rw [if_neg hpr]
        exact hpq
    · rfl
    · rfl
    · exact hsl
  unfold urlparseD
  rw [hsplit]
  dsimp only
  by_cases hpr : pr ≠ []
  · rw [if_pos hpr] at hsplit ⊢
    rw [if_pos (show (pa ++ ';' :: pr).contains ';' = true from
      (contains_char_iff _ _).mpr (by simp))]
    rw [splitParams_recover pa pr hprs hsemi]
  · rw [if_neg hpr] at hsplit ⊢
    have hpr2 : pr = [] := by
      by_contra hh
      exact hpr hh
    subst hpr2
    by_cases hcont : pa.contains ';' = true
    · rw [if_pos hcont, splitParams_self pa hsemi]
    · rw [if_neg hcont]

theorem urlsplitD_indep (url : List Char) (d1 d2 : List Char)
    (hsome : extractScheme ((url.filter (fun c => !isUnsafeUrlChar c)).dropWhile isC0Space)
      ≠ none) :
    urlsplitD url d1 = urlsplitD url d2 := by
  unfold urlsplitD
  cases hex : extractScheme ((url.filter (fun c => !isUnsafeUrlChar c)).dropWhile isC0Space)
    with
  | none => exact absurd hex hsome
  | some kr =>
    dsimp only
    rw [hex]

theorem urlparseD_indep (url : List Char) (d1 d2 : List Char)
    (hsome : extractScheme ((url.filter (fun c => !isUnsafeUrlChar c)).dropWhile isC0Space)
      ≠ none) :
    urlparseD url d1 = urlparseD url d2 := by
  unfold urlparseD
  rw [urlsplitD_indep url d1 d2 hsome]

theorem urlsplitD_scheme_dflt (url d : List Char) (s : SplitResult)
    (hnone : extractScheme ((url.filter (fun c => !isUnsafeUrlChar c)).dropWhile isC0Space)
      = none)
    (h : urlsplitD url d = some s) : s.scheme = d := by
  unfold urlsplitD at h
  dsimp only at h
  rw [hnone] at h
  dsimp only at h
  exact (urlsplit_tail_facts d _ s
    (fun c hc => mem_clean url c hc) h).1

theorem urlparseD_scheme_dflt (url d : List Char) (p : ParseResult)
    (hnone : extractScheme ((url.filter (fun c => !isUnsafeUrlChar c)).dropWhile isC0Space)
      = none)
    (h : urlparseD url d = some p) : p.scheme = d := by
  unfold urlparseD at h
  cases hs : urlsplitD url d with
  | none => rw [hs] at h; cases h
  | some s0 =>
    rw [hs] at h
    dsimp only at h
    cases h
    exact urlsplitD_scheme_dflt url d s0 hnone hs

theorem mem_ite {α : Type} (P : Prop) [Decidable P] (A B : List α) (c : α)
    (hc : c ∈ (if P then A else B)) : c ∈ A ∨ c ∈ B := by
  by_cases h : P
  · rw [if_pos h] at hc
    exact Or.inl hc
  · rw [if_neg h] at hc
    exact Or.inr hc

theorem mem_urlunsplit (s : SplitResult) (c : Char) (hc : c ∈ urlunsplit s) :
    c ∈ s.scheme ∨ c ∈ s.netloc ∨ c ∈ s.path ∨ c ∈ s.query ∨ c ∈ s.fragment ∨
    c = ':' ∨ c = '/' ∨ c = '?' ∨ c = '#' := by
  unfold urlunsplit at hc
  dsimp only at hc
  generalize hW : (if s.path ≠ [] ∧ s.path.take 1 ≠ ['/'] then '/' :: s.path else s.path)
    = W at hc
  generalize hZ : (if s.netloc ≠ [] ∨ (s.path ≠ [] ∧ s.path.take 2 = ['/', '/']) then
    '/' :: '/' :: (s.netloc ++ W) else s.path) = Z at hc
  generalize hY : (if s.scheme ≠ [] then s.scheme ++ ':' :: Z else Z) = Y at hc
  generalize hX : (if s.query ≠ [] then Y ++ '?' :: s.query else Y) = X at hc
  have hW2 : ∀ d, d ∈ W → d ∈ s.path ∨ d = '/' := by
    intro d h
    rw [← hW] at h
    rcases mem_ite _ _ _ d h with h | h
    · rcases List.mem_cons.mp h with h | h <;> tauto
    · tauto
  have hZ2 : ∀ d, d ∈ Z → d ∈ s.netloc ∨ d ∈ s.path ∨ d = '/' := by
    intro d h
    rw [← hZ] at h
    rcases mem_ite _ _ _ d h with h | h
    · rcases List.mem_cons.mp h with h | h
      · tauto
      rcases List.mem_cons.mp h with h | h
      · tauto
      rcases List.mem_append.mp h with h | h
      · tauto
      · rcases hW2 d h with h | h <;> tauto
    · tauto
  have hY2 : ∀ d, d ∈ Y → d ∈ s.scheme ∨ d = ':' ∨ d ∈ s.netloc ∨ d ∈ s.path ∨ d = '/' := by
    intro d h
    rw [← hY] at h
    rcases mem_ite _ _ _ d h with h | h
    · rcases List.mem_append.mp h with h | h
      · tauto
      rcases List.mem_cons.mp h with h | h
      · tauto
      · rcases hZ2 d h with h | h | h <;> tauto
    · rcases hZ2 d h with h | h | h <;> tauto
  have hX2 : ∀ d, d ∈ X → d ∈ s.query ∨ d = '?' ∨
      (d ∈ s.scheme ∨ d = ':' ∨ d ∈ s.netloc ∨ d ∈ s.path ∨ d = '/') := by
    intro d h
    rw [← hX] at h
    rcases mem_ite _ _ _ d h with h | h
    · rcases List.mem_append.mp h with h | h
      · exact Or.inr (Or.inr (hY2 d h))
      rcases List.mem_cons.mp h with h | h
      · tauto
      · tauto
    · exact Or.inr (Or.inr (hY2 d h))
  rcases mem_ite _ _ _ c hc with h | h
  · rcases List.mem_append.mp h with h | h
    · rcases hX2 c h with h | h | h <;> tauto
    rcases List.mem_cons.mp h with h | h
    · tauto
    · tauto
  · rcases hX2 c h with h | h | h <;> tauto

theorem mem_urlunparse (p : ParseResult) (c : Char) (hc : c ∈ urlunparse p) :
    c ∈ p.scheme ∨ c ∈ p.netloc ∨ c ∈ p.path ∨ c ∈ p.params ∨ c ∈ p.query ∨
    c ∈ p.fragment ∨ c = ':' ∨ c = '/' ∨ c = '?' ∨ c = '#' ∨ c = ';' := by
  unfold urlunparse at hc
  have h := mem_urlunsplit _ c hc
  dsimp only at h
  rcases h with h | h | h | h | h | h | h | h | h
  · tauto
  · tauto
  · rcases mem_ite _ _ _ c h with h | h
    · rcases List.mem_append.mp h with h | h
      · tauto
      rcases List.mem_cons.mp h with h | h
      · tauto
      · tauto
    · tauto
  · tauto
  · tauto
  · tauto
  · tauto
  · tauto
  · tauto

theorem mem_splitOnSlash (l : List Char) :
    ∀ s ∈ splitOnSlash l, ∀ c ∈ s, c ∈ l := by
  induction l with
  | nil =>
    intro s hs c hcc
    simp only [splitOnSlash, List.mem_singleton] at hs
    subst hs
    cases hcc
  | cons x xs ih =>
    intro s hs c hcc
    rw [splitOnSlash] at hs
    by_cases hx : (x == '/') = true
    · rw [if_pos hx] at hs
      rcases List.mem_cons.mp hs with h | h
      · subst h
        cases hcc
      · exact List.mem_cons_of_mem x (ih s h c hcc)
    · rw [if_neg hx] at hs
      cases hr : splitOnSlash xs with
      | nil =>
        rw [hr] at hs
        simp only [List.mem_singleton] at hs
        subst hs
        rcases List.mem_cons.mp hcc with h | h
        · simp [h]
        · cases h
      | cons a rest =>
        rw [hr] at hs
        rcases List.mem_cons.mp hs with h | h
        · subst h
          rcases List.mem_cons.mp hcc with h2 | h2
          · simp [h2]
          · exact List.mem_cons_of_mem x (ih a (by rw [hr]; simp) c h2)
        · exact List.mem_cons_of_mem x (ih s (by rw [hr]; simp [h]) c hcc)

theorem mem_resolveSegs_aux :
    ∀ (l acc : List (List Char)) (s : List Char),
      s ∈ l.foldl (fun acc seg => if seg = ['.', '.'] then acc.dropLast
        else if seg = ['.'] then acc else acc ++ [seg]) acc →
      s ∈ acc ∨ s ∈ l := by
  intro l
  induction l with
  | nil => intro acc s hs; exact Or.inl hs
  | cons a t ih =>
    intro acc s hs
    rw [List.foldl_cons] at hs
    rcases ih _ s hs with h | h
    · by_cases h1 : a = ['.', '.']
      · rw [if_pos h1] at h
        exact Or.inl ((List.dropLast_sublist _).subset h)
      · rw [if_neg h1] at h
        by_cases h2 : a = ['.']
        · rw [if_pos h2] at h
          exact Or.inl h
        · rw [if_neg h2] at h
          rcases List.mem_append.mp h with h | h
          · exact Or.inl h
          · right
            simp only [List.mem_singleton] at h
            simp [h]
    · exact Or.inr (List.mem_cons_of_mem a h)

theorem mem_resolveSegs (segs : List (List Char)) (s : List Char)
    (hs : s ∈ resolveSegs segs) : s ∈ segs := by
  rcases mem_resolveSegs_aux segs [] s hs with h | h
  · cases h
  · exact h

theorem mem_joinSlash :
    ∀ (ls : List (List Char)) (c : Char), c ∈ joinSlash ls →
      c = '/' ∨ ∃ s ∈ ls, c ∈ s := by
  intro ls
  induction ls with
  | nil => intro c hc; cases hc
  | cons a rest ih =>
    intro c hc
    cases rest with
    | nil =>
      right
      exact ⟨a, by simp, hc⟩
    | cons b rest2 =>
      have hjl : joinSlash (a :: b :: rest2) = a ++ '/' :: joinSlash (b :: rest2) := rfl
      rw [hjl] at hc
      rcases List.mem_append.mp hc with h | h
      · right
        exact ⟨a, by simp, h⟩
      · rcases List.mem_cons.mp h with h | h
        · exact Or.inl h
        · rcases ih c h with h2 | ⟨s2, hs2, hc2⟩
          · exact Or.inl h2
          · right
            exact ⟨s2, by simp [hs2], hc2⟩

theorem getLast?_mem_aux (l : List (List Char)) (a : List Char)
    (h : l.getLast? = some a) : a ∈ l := by
  induction l with
  | nil => cases h
  | cons x xs ih =>
    cases xs with
    | nil =>
      simp only [List.getLast?_singleton, Option.some.injEq] at h
      simp [h]
    | cons y ys =>
      rw [List.getLast?_cons_cons] at h
      exact List.mem_cons_of_mem x (ih h)

theorem lastD_mem_or_nil (l : List (List Char)) : lastD l ∈ l ∨ lastD l = [] := by
  unfold lastD
  cases hl : l.getLast? with
  | none => exact Or.inr rfl
  | some a =>
    left
    have := getLast?_mem_aux l a hl
    simpa using this

theorem urlsplitD_https_form (url d sc rest : List Char) (s : SplitResult)
    (hclean : ((url.filter (fun c => !isUnsafeUrlChar c)).dropWhile isC0Space) = url)
    (hex : extractScheme url = some (sc, rest))
    (h2 : rest.take 2 = ['/', '/'])
    (h : urlsplitD url d = some s) :
    s.scheme = sc ∧ s.netloc = (rest.drop 2).takeWhile (fun c => !isNetlocEnd c) := by
  unfold urlsplitD at h
  dsimp only at h
  rw [hclean, hex] at h
  dsimp only at h
  rw [if_pos h2] at h
  by_cases hbb : bracketBad ((rest.drop 2).takeWhile (fun c => !isNetlocEnd c)) = true
  · rw [if_pos hbb] at h
    cases h
  · rw [if_neg hbb] at h
    cases hfg : splitAtFirst '#' ((rest.drop 2).dropWhile (fun c => !isNetlocEnd c)) with
    | some ab =>
      obtain ⟨a, b⟩ := ab
      rw [hfg] at h
      dsimp only at h
      cases hqr : splitAtFirst '?' a with
      | some xy =>
        obtain ⟨x, y⟩ := xy
        rw [hqr] at h
        dsimp only at h
        cases h
        exact ⟨rfl, rfl⟩
      | none =>
        rw [hqr] at h
        dsimp only at h
        cases h
        exact ⟨rfl, rfl⟩
    | none =>
      rw [hfg] at h
      dsimp only at h
      cases hqr : splitAtFirst '?' ((rest.drop 2).dropWhile (fun c => !isNetlocEnd c)) with
      | some xy =>
        obtain ⟨x, y⟩ := xy
        rw [hqr] at h
        dsimp only at h
        cases h
        exact ⟨rfl, rfl⟩
      | none =>
        rw [hqr] at h
        dsimp only at h
        cases h
        exact ⟨rfl, rfl⟩

theorem urlparseD_https_form (url d sc rest : List Char) (p : ParseResult)
    (hclean : ((url.filter (fun c => !isUnsafeUrlChar c)).dropWhile isC0Space) = url)
    (hex : extractScheme url = some (sc, rest))
    (h2 : rest.take 2 = ['/', '/'])
    (h : urlparseD url d = some p) :
    p.scheme = sc ∧ p.netloc = (rest.drop 2).takeWhile (fun c => !isNetlocEnd c) := by
  unfold urlparseD at h
  cases hs : urlsplitD url d with
  | none =>
    rw [hs] at h
    cases h
  | some s0 =>
    rw [hs] at h
    dsimp only at h
    cases h
    exact urlsplitD_https_form url d sc rest s0 hclean hex h2 hs

theorem urlunsplit_scheme_cons (s : SplitResult) (hs0 : s.scheme ≠ []) :
    ∃ t, urlunsplit s = s.scheme ++ ':' :: t := by
  unfold urlunsplit
  dsimp only
  rw [if_pos hs0]
  have hgen : ∀ (u X : List Char), ∃ t, (s.scheme ++ ':' :: u) ++ X = s.scheme ++ ':' :: t :=
    fun u X => ⟨u ++ X, by rw [List.append_assoc, List.cons_append]⟩
  by_cases h3 : s.query ≠ []
  · rw [if_pos h3]
    by_cases h4 : s.fragment ≠ []
    · rw [if_pos h4]
      obtain ⟨t1, ht1⟩ := hgen _ ('?' :: s.query)
      rw [ht1]
      obtain ⟨t2, ht2⟩ := hgen t1 ('#' :: s.fragment)
      exact ⟨t2, ht2⟩
    · rw [if_neg h4]
      exact hgen _ ('?' :: s.query)
  · rw [if_neg h3]
    by_cases h4 : s.fragment ≠ []
    · rw [if_pos h4]
      exact hgen _ ('#' :: s.fragment)
    · rw [if_neg h4]
      exact ⟨_, rfl⟩

theorem urlunsplit_netloc_form (s : SplitResult) (hs0 : s.scheme ≠ [])
    (hnl : s.netloc ≠ []) :
    ∃ E, urlunsplit s = s.scheme ++ ':' :: '/' :: '/' :: (s.netloc ++ E) := by
  unfold urlunsplit
  dsimp only
  rw [if_pos (Or.inl hnl), if_pos hs0]
  have hgen : ∀ (W X : List Char), ∃ E,
      (s.scheme ++ ':' :: '/' :: '/' :: (s.netloc ++ W)) ++ X =
      s.scheme ++ ':' :: '/' :: '/' :: (s.netloc ++ E) :=
    fun W X => ⟨W ++ X, by simp [List.append_assoc]⟩
  by_cases h3 : s.query ≠ []
  · rw [if_pos h3]
    by_cases h4 : s.fragment ≠ []
    · rw [if_pos h4]
      obtain ⟨t1, ht1⟩ := hgen _ ('?' :: s.query)
      rw [ht1]
      obtain ⟨t2, ht2⟩ := hgen t1 ('#' :: s.fragment)
      exact ⟨t2, ht2⟩
    · rw [if_neg h4]
      exact hgen _ ('?' :: s.query)
  · rw [if_neg h3]
    by_cases h4 : s.fragment ≠ []
    · rw [if_pos h4]
      exact hgen _ ('#' :: s.fragment)
    · rw [if_neg h4]
      exact ⟨_, rfl⟩

/-- The parse of the configured base URL. -/
def BVAL : ParseResult :=
  ⟨"https".toList, "www.eugloh.eu".toList, "/courses-trainings/".toList, [],
   "openRegistrations=%5Byes%5D".toList, []⟩

theorem urlparse_target : urlparseD TARGET_URL.toList [] = some BVAL := by decide

theorem https_chars_safe : ∀ c ∈ ("https".toList : List Char), isUnsafeUrlChar c = false := by
  decide

/-- Parsing the unparse of an `https` record with a non-empty clean netloc
yields the `https` scheme and a non-empty netloc again, for any default. -/
theorem parsed_unparse_https (R : ParseResult) (p : ParseResult) (d : List Char)
    (hsch : R.scheme = "https".toList)
    (hnlne : R.netloc ≠ [])
    (hnlhead : ∀ c ∈ R.netloc, isNetlocEnd c = false)
    (hchSafe : ∀ c ∈ urlunparse R, isUnsafeUrlChar c = false)
    (hp : urlparseD (urlunparse R) d = some p) :
    p.scheme = "https".toList ∧ p.netloc ≠ [] := by
  obtain ⟨E, hE⟩ := urlunsplit_netloc_form
    ⟨R.scheme, R.netloc, (if R.params ≠ [] then R.path ++ ';' :: R.params else R.path),
     R.query, R.fragment⟩ (by dsimp only; rw [hsch]; decide) hnlne
  have ha1 : urlunparse R = R.scheme ++ ':' :: '/' :: '/' :: (R.netloc ++ E) := hE
  rw [hsch] at ha1
  have hcl : ((urlunparse R).filter (fun c => !isUnsafeUrlChar c)).dropWhile isC0Space =
      urlunparse R := by
    rw [ha1]
    exact clean_noop_scheme "https".toList _ (by decide) (by decide)
      (fun c hc => hchSafe c (by rw [ha1]; exact hc))
  have hexr : extractScheme (urlunparse R) =
      some ("https".toList, '/' :: '/' :: (R.netloc ++ E)) := by
    rw [ha1]
    have h := extractScheme_of_scheme "https".toList ('/' :: '/' :: (R.netloc ++ E))
      (by decide) (by decide) (by decide)
    rw [show ("https".toList).map Char.toLower = "https".toList from by decide] at h
    exact h
  obtain ⟨hps, hpn⟩ := urlparseD_https_form (urlunparse R) d "https".toList _ p hcl hexr rfl hp
  refine ⟨hps, ?_⟩
  rw [hpn]
  rw [show ('/' :: '/' :: (R.netloc ++ E)).drop 2 = R.netloc ++ E from rfl]
  cases hnl2 : R.netloc with
  | nil => exact absurd hnl2 hnlne
  | cons c0 t0 =>
    rw [List.cons_append, List.takeWhile_cons,
      if_pos (by simp [hnlhead c0 (by rw [hnl2]; simp)])]
    simp

/-- The core idempotence step: the unparse of a well-formed record with empty
query and fragment whose scheme, when `https`, comes with a netloc, is a fixed
point of `normalize_url`. -/
theorem normalize_idem_core (sc nl pa pr : List Char)
    (hs0 : sc ≠ []) (hall : sc.all isSchemeChar = true)
    (halpha : (sc.headD ' ').isAlpha = true)
    (hlow : sc.map Char.toLower = sc)
    (hnet : ∀ c ∈ nl, isNetlocEnd c = false ∧ isUnsafeUrlChar c = false)
    (hbr : bracketBad nl = false)
    (hpu : ∀ c ∈ pa, isUnsafeUrlChar c = false)
    (hph : '#' ∉ pa) (hpq : '?' ∉ pa)
    (hpru : ∀ c ∈ pr, isUnsafeUrlChar c = false)
    (hprh : '#' ∉ pr) (hprq : '?' ∉ pr) (hprs : '/' ∉ pr)
    (hsemi : semiFreeTail pa)
    (hsl : nl ≠ [] → (if pr ≠ [] then pa ++ ';' :: pr else pa) = [] ∨
      (if pr ≠ [] then pa ++ ';' :: pr else pa).take 1 = ['/'])
    (hhttps : sc = "https".toList → nl ≠ []) :
    normalize_url (String.mk (urlunparse ⟨sc, nl, pa, pr, [], []⟩)) =
      some (String.mk (urlunparse ⟨sc, nl, pa, pr, [], []⟩)) := by
  have hXparse : ∀ d, urlparseD (urlunparse ⟨sc, nl, pa, pr, [], []⟩) d =
      some ⟨sc, nl, pa, pr, [], []⟩ :=
    fun d => unparse_parse ⟨sc, nl, pa, pr, [], []⟩ d hs0 hall halpha hlow hnet hbr hpu
      hph hpq hpru hprh hprq hprs hsemi rfl rfl hsl
  obtain ⟨t0, ht0⟩ := urlunsplit_scheme_cons
    ⟨sc, nl, (if pr ≠ [] then pa ++ ';' :: pr else pa), [], []⟩ hs0
  have hrform : urlunparse ⟨sc, nl, pa, pr, [], []⟩ = sc ++ ':' :: t0 := ht0
  have hrne : urlunparse (⟨sc, nl, pa, pr, [], []⟩ : ParseResult) ≠ [] := by
    rw [hrform]
    exact List.append_ne_nil_of_right_ne_nil sc (by simp)
  have hjoin : urljoin TARGET_URL.toList (urlunparse ⟨sc, nl, pa, pr, [], []⟩) =
      some (urlunparse ⟨sc, nl, pa, pr, [], []⟩) := by
    unfold urljoin
    rw [if_neg (show ¬(TARGET_URL.toList = []) from by decide), if_neg hrne, urlparse_target]
    dsimp only
    rw [hXparse BVAL.scheme]
    dsimp only
    by_cases hC : sc ≠ BVAL.scheme ∨ sc ∉ usesRelative
    · rw [if_pos hC]
    · rw [if_neg hC]
      push_neg at hC
      obtain ⟨hCs, hCr⟩ := hC
      have hnl : nl ≠ [] := hhttps (by rw [hCs]; rfl)
      rw [if_pos (show sc ∈ usesNetloc ∧ nl ≠ [] from ⟨by rw [hCs]; decide, hnl⟩)]
  unfold normalize_url
  rw [show (String.mk (urlunparse ⟨sc, nl, pa, pr, [], []⟩)).toList =
    urlunparse (⟨sc, nl, pa, pr, [], []⟩ : ParseResult) from rfl, hjoin]
  dsimp only
  rw [hXparse []]

theorem bval_netloc_safe :
    ∀ c ∈ BVAL.netloc, isNetlocEnd c = false ∧ isUnsafeUrlChar c = false := by
  decide

theorem bval_path_safe : ∀ c ∈ BVAL.path, isUnsafeUrlChar c = false := by decide

theorem bval_query_safe : ∀ c ∈ BVAL.query, isUnsafeUrlChar c = false := by decide

theorem bval_netloc_ne : BVAL.netloc ≠ [] := by decide

theorem resolved2_cases (SEG : List (List Char)) (s : List Char)
    (hs : s ∈ (if lastD SEG = ['.'] ∨ lastD SEG = ['.', '.']
      then resolveSegs SEG ++ [[]] else resolveSegs SEG)) :
    s ∈ SEG ∨ s = [] := by
  rcases mem_ite _ _ _ s hs with h | h
  · rcases List.mem_append.mp h with h | h
    · exact Or.inl (mem_resolveSegs SEG s h)
    · simp only [List.mem_singleton] at h
      exact Or.inr h
  · exact Or.inl (mem_resolveSegs SEG s h)

/-- Every successful `urljoin` against the base produces an absolute URL whose
parse has a non-empty scheme, and a non-empty netloc whenever that scheme is
`https`. -/
theorem normalize_components (u a1 : List Char) (p : ParseResult)
    (hj : urljoin TARGET_URL.toList u = some a1)
    (hp : urlparseD a1 [] = some p) :
    p.scheme ≠ [] ∧ (p.scheme = "https".toList → p.netloc ≠ []) := by
  unfold urljoin at hj
  rw [if_neg (show ¬(TARGET_URL.toList = []) from by decide)] at hj
  by_cases hu : u = []
  · rw [if_pos hu] at hj
    injection hj with hj
    subst hj
    rw [urlparse_target] at hp
    injection hp with hp
    subst hp
    exact ⟨by decide, fun _ => by decide⟩
  · rw [if_neg hu, urlparse_target] at hj
    dsimp only at hj
    cases hU : urlparseD u BVAL.scheme with
    | none =>
      rw [hU] at hj
      cases hj
    | some U =>
      rw [hU] at hj
      dsimp only at hj
      obtain ⟨g1, g2, g3, g4, g5, g6, g7, g8, g9, g10, g11, g12, g13, g14, g15⟩ :=
        urlparseD_facts u BVAL.scheme U hU
      by_cases hC : U.scheme ≠ BVAL.scheme ∨ U.scheme ∉ usesRelative
      · rw [if_pos hC] at hj
        injection hj with hj
        subst hj
        cases hex : extractScheme ((u.filter (fun c => !isUnsafeUrlChar c)).dropWhile isC0Space)
          with
        | none =>
          have hUs : U.scheme = BVAL.scheme := urlparseD_scheme_dflt u BVAL.scheme U hex hU
          exfalso
          rcases hC with hC2 | hC2
          · exact hC2 hUs
          · rw [hUs] at hC2
            exact hC2 (by decide)
        | some kr =>
          have hpeq : urlparseD u [] = urlparseD u BVAL.scheme :=
            urlparseD_indep u [] BVAL.scheme (by rw [hex]; simp)
          rw [hpeq, hU] at hp
          injection hp with hp
          subst hp
          constructor
          · rcases g1 with h1 | h1
            · exfalso
              rcases hC with hC2 | hC2
              · exact hC2 h1
              · rw [h1] at hC2
                exact hC2 (by decide)
            · exact h1.1
          · intro hsc
            exfalso
            rcases hC with hC2 | hC2
            · exact hC2 (by rw [hsc]; rfl)
            · rw [hsc] at hC2
              exact hC2 (by decide)
      · rw [if_neg hC] at hj
        push_neg at hC
        obtain ⟨hCs, hCr⟩ := hC
        have husch : U.scheme = "https".toList := by rw [hCs]; rfl
        by_cases hA : U.scheme ∈ usesNetloc ∧ U.netloc ≠ []
        · rw [if_pos hA] at hj
          injection hj with hj
          subst hj
          have hun : ∀ c ∈ urlunparse U, isUnsafeUrlChar c = false := by
            intro c hc
            rcases mem_urlunparse U c hc with h|h|h|h|h|h|h|h|h|h|h
            · rw [husch] at h
              exact https_chars_safe c h
            · exact (g2 c h).2
            · exact g4 c h
            · exact g7 c h
            · exact g12 c h
            · exact g14 c h
            · rw [h]; decide
            · rw [h]; decide
            · rw [h]; decide
            · rw [h]; decide
            · rw [h]; decide
          obtain ⟨w1, w2⟩ := parsed_unparse_https U p [] husch hA.2
            (fun c hc => (g2 c hc).1) hun hp
          exact ⟨by rw [w1]; decide, fun _ => w2⟩
        · rw [if_neg hA] at hj
          have hUnet : U.scheme ∈ usesNetloc := by rw [hCs]; decide
          have hUnl : U.netloc = [] := by
            by_contra hh
            exact hA ⟨hUnet, hh⟩
          by_cases hB2 : U.path = [] ∧ U.params = []
          · rw [if_pos hB2, if_pos hUnet,
              if_neg (show ¬(U.netloc ≠ []) from by simp [hUnl])] at hj
            injection hj with hj
            subst hj
            have hun : ∀ c ∈ urlunparse ⟨U.scheme, BVAL.netloc, BVAL.path, BVAL.params,
                (if U.query = [] then BVAL.query else U.query), U.fragment⟩,
                isUnsafeUrlChar c = false := by
              intro c hc
              rcases mem_urlunparse _ c hc with h|h|h|h|h|h|h|h|h|h|h
              · rw [husch] at h
                exact https_chars_safe c h
              · exact (bval_netloc_safe c h).2
              · exact bval_path_safe c h
              · exact absurd (h : c ∈ BVAL.params) (by simp [BVAL])
              · have h2 : c ∈ (if U.query = [] then BVAL.query else U.query) := h
                rcases mem_ite _ _ _ c h2 with h3 | h3
                · exact bval_query_safe c h3
                · exact g12 c h3
              · exact g14 c h
              · rw [h]; decide
              · rw [h]; decide
              · rw [h]; decide
              · rw [h]; decide
              · rw [h]; decide
            obtain ⟨w1, w2⟩ := parsed_unparse_https
              ⟨U.scheme, BVAL.netloc, BVAL.path, BVAL.params,
               (if U.query = [] then BVAL.query else U.query), U.fragment⟩ p []
              husch bval_netloc_ne (fun c hc => (bval_netloc_safe c hc).1) hun hp
            exact ⟨by rw [w1]; decide, fun _ => w2⟩
          · rw [if_neg hB2, if_pos hUnet,
              if_neg (show ¬(U.netloc ≠ []) from by simp [hUnl])] at hj
            injection hj with hj
            subst hj
            obtain ⟨w1, w2⟩ := parsed_unparse_https _ p []
              (by exact husch) (by exact bval_netloc_ne)
              (by exact fun c hc => (bval_netloc_safe c hc).1)
              (by
                intro c hc
                rcases mem_urlunparse _ c hc with h|h|h|h|h|h|h|h|h|h|h
                · rw [husch] at h
                  exact https_chars_safe c h
                · exact (bval_netloc_safe c h).2
                · dsimp only at h
                  rcases mem_ite _ _ _ c h with h2 | h2
                  · simp only [List.mem_singleton] at h2
                    rw [h2]; decide
                  · rcases mem_joinSlash _ c h2 with h3 | ⟨s, hs2, hcs⟩
                    · rw [h3]; decide
                    · rcases resolved2_cases _ s hs2 with hSEG | rfl
                      · have hcUorB : c ∈ BVAL.path ∨ c ∈ U.path := by
                          rcases mem_ite _ _ _ s hSEG with h6 | h6
                          · exact Or.inr (mem_splitOnSlash U.path s h6 c hcs)
                          · have happ : ∀ t ∈ ((if lastD (splitOnSlash BVAL.path) ≠ [] then
                                  (splitOnSlash BVAL.path).dropLast
                                else splitOnSlash BVAL.path) ++ splitOnSlash U.path),
                                ∀ d ∈ t, d ∈ BVAL.path ∨ d ∈ U.path := by
                              intro t ht d hd
                              rcases List.mem_append.mp ht with h7 | h7
                              · rcases mem_ite _ _ _ t h7 with h8 | h8
                                · exact Or.inl (mem_splitOnSlash BVAL.path t
                                    ((List.dropLast_sublist _).subset h8) d hd)
                                · exact Or.inl (mem_splitOnSlash BVAL.path t h8 d hd)
                              · exact Or.inr (mem_splitOnSlash U.path t h7 d hd)
                            cases hm : ((if lastD (splitOnSlash BVAL.path) ≠ [] then
                                  (splitOnSlash BVAL.path).dropLast
                                else splitOnSlash BVAL.path) ++ splitOnSlash U.path) with
                            | nil =>
                              rw [hm] at h6
                              dsimp only at h6
                              cases h6
                            | cons x rest =>
                              rw [hm] at h6
                              rw [hm] at happ
                              cases rest with
                              | nil =>
                                dsimp only at h6
                                simp only [List.mem_singleton] at h6
                                subst h6
                                exact happ _ (by simp) c hcs
                              | cons y rest2 =>
                                dsimp only at h6
                                rcases List.mem_cons.mp h6 with h7 | h7
                                · subst h7
                                  exact happ _ (by simp) c hcs
                                · rcases List.mem_append.mp h7 with h7 | h7
                                  · have h8 : s ∈ (y :: rest2).dropLast :=
                                      List.mem_of_mem_filter h7
                                    exact happ s (List.mem_cons_of_mem x
                                      ((List.dropLast_sublist _).subset h8)) c hcs
                                  · simp only [List.mem_singleton] at h7
                                    subst h7
                                    rcases lastD_mem_or_nil (y :: rest2) with h8 | h8
                                    · exact happ _ (List.mem_cons_of_mem x h8) c hcs
                                    · rw [h8] at hcs
                                      cases hcs
                        rcases hcUorB with h9 | h9
                        · exact bval_path_safe c h9
                        · exact g4 c h9
                      · cases hcs
                · exact g7 c h
                · exact g12 c h
                · exact g14 c h
                · rw [h]; decide
                · rw [h]; decide
                · rw [h]; decide
                · rw [h]; decide
                · rw [h]; decide)
              hp
            exact ⟨by rw [w1]; decide, fun _ => w2⟩

/-- **C7**: `normalize_url` resolves its argument against the base URL to an
absolute URL and strips the query string and fragment: (a) any two hrefs whose
resolved absolute URLs parse to the same scheme, netloc, path and params —
i.e. differ only by query parameters and/or fragment — normalize to the
identical string; (b) concretely, `…/event?utm=x`, `…/event#info` and
`…/event` all normalize to `…/event`; (c) every result of `normalize_url`
parses with an empty query and fragment, and is a fixed point of
`normalize_url`, so `normalize_url` is idempotent. -/
theorem normalize_url_spec :
    (∀ (u1 u2 : String) (a1 a2 : List Char) (p1 p2 : ParseResult),
       urljoin TARGET_URL.toList u1.toList = some a1 →
       urljoin TARGET_URL.toList u2.toList = some a2 →
       urlparseD a1 [] = some p1 → urlparseD a2 [] = some p2 →
       p1.scheme = p2.scheme → p1.netloc = p2.netloc → p1.path = p2.path →
       p1.params = p2.params →
       normalize_url u1 = normalize_url u2) ∧
    (normalize_url "https://www.eugloh.eu/event?utm=x" = some "https://www.eugloh.eu/event" ∧
     normalize_url "https://www.eugloh.eu/event#info" = some "https://www.eugloh.eu/event" ∧
     normalize_url "https://www.eugloh.eu/event" = some "https://www.eugloh.eu/event") ∧
    (∀ (u r : String), normalize_url u = some r →
       (∃ q, urlparseD r.toList [] = some q ∧ q.query = [] ∧ q.fragment = []) ∧
       normalize_url r = some r) := by
  refine ⟨?_, ⟨by decide, by decide, by decide⟩, ?_⟩
  · intro u1 u2 a1 a2 p1 p2 hj1 hj2 hp1 hp2 e1 e2 e3 e4
    unfold normalize_url
    rw [hj1, hj2]
    dsimp only
    rw [hp1, hp2]
    dsimp only
    rw [e1, e2, e3, e4]
  · intro u r hr
    unfold normalize_url at hr
    cases hj : urljoin TARGET_URL.toList u.toList with
    | none =>
      rw [hj] at hr
      cases hr
    | some a1 =>
      rw [hj] at hr
      dsimp only at hr
      cases hp : urlparseD a1 [] with
      | none =>
        rw [hp] at hr
        cases hr
      | some p =>
        rw [hp] at hr
        dsimp only at hr
        injection hr with hr
        subst hr
        obtain ⟨hs0, hhttps⟩ := normalize_components u.toList a1 p hj hp
        obtain ⟨f1, f2, f3, f4, f5, f6, f7, f8, f9, f10, f11, f12, f13, f14, f15⟩ :=
          urlparseD_facts a1 [] p hp
        have hgood : p.scheme ≠ [] ∧ p.scheme.all isSchemeChar = true ∧
            (p.scheme.headD ' ').isAlpha = true ∧ p.scheme.map Char.toLower = p.scheme := by
          rcases f1 with f1 | f1
          · exact absurd f1 hs0
          · exact f1
        constructor
        · refine ⟨⟨p.scheme, p.netloc, p.path, p.params, [], []⟩, ?_, rfl, rfl⟩
          rw [show (String.mk (urlunparse ⟨p.scheme, p.netloc, p.path, p.params, [], []⟩)).toList
            = urlunparse (⟨p.scheme, p.netloc, p.path, p.params, [], []⟩ : ParseResult)
            from rfl]
          exact unparse_parse ⟨p.scheme, p.netloc, p.path, p.params, [], []⟩ [] hgood.1
            hgood.2.1 hgood.2.2.1 hgood.2.2.2 f2 f3 f4 f5 f6 f7 f8 f9 f10 f11 rfl rfl f15
        · exact normalize_idem_core p.scheme p.netloc p.path p.params hgood.1 hgood.2.1
            hgood.2.2.1 hgood.2.2.2 f2 f3 f4 f5 f6 f7 f8 f9 f10 f11 f15 hhttps

theorem normalize_url_spec_witness :
    normalize_url "https://www.eugloh.eu/event?utm=x" =
      normalize_url "https://www.eugloh.eu/event#info" ∧
    normalize_url "https://www.eugloh.eu/event" = some "https://www.eugloh.eu/event" := by
  constructor
  · exact normalize_url_spec.1 "https://www.eugloh.eu/event?utm=x"
      "https://www.eugloh.eu/event#info"
      "https://www.eugloh.eu/event?utm=x".toList
      "https://www.eugloh.eu/event#info".toList
      ⟨"https".toList, "www.eugloh.eu".toList, "/event".toList, [], "utm=x".toList, []⟩
      ⟨"https".toList, "www.eugloh.eu".toList, "/event".toList, [], [], "info".toList⟩
      (by decide) (by decide) (by decide) (by decide) rfl rfl rfl rfl
  · exact (normalize_url_spec.2.2 "https://www.eugloh.eu/event"
      "https://www.eugloh.eu/event" (by decide)).2

end EuGloh
